import Mathlib

/-!
# Command-line argument parser of `pkg/settings/parser.go`

A shallow embedding of the argument classifier: the classification tables
(`isArg`, `isOp`, `isGlobal`, `hasParam`), the `Arguments` structure with its
mutation and query methods, the privilege predicate (`NeedRoot`), the
tokenizer (`parseShortOption`, `parseLongOption`, `ParseCommandLine`), the
extension-option extraction (`handleConfig`, `extractYayOptions`) and the
serializers (`FormatArgs`, `FormatGlobals`).

Modelling conventions.

* A Go `string` is a Lean `String` (valid UTF-8 text); `len` is the byte
  length of the UTF-8 encoding, ranging over a string visits its characters.
* A Go `map[string]*Option` is an association list `List (String × Option)`;
  real maps have pairwise distinct keys (`NodupKeys`).  The order in which a
  `range` statement visits a map is not fixed by the language, so every
  function that ranges over a map takes a `RangeOrder`, which picks the
  visiting order of each map.
* A method with a pointer receiver returns the updated receiver; an `error`
  result is a `Maybe Error`, the state reached so far is returned with it.
* A `switch` whose cases only test membership is the list of its case labels,
  in source order.
-/

/-- Partial result: a value or nothing (a Go `nil`). -/
abbrev Maybe (α : Type) : Type := Option α

namespace settings

/-! ## Strings -/

/-- Go `error` values built by `errors.New`: the message text. -/
abbrev Error : Type := String

/-- Go `len(s)`: the number of bytes of `s`. -/
def len (s : String) : Nat := s.utf8ByteSize

/-- Go `strings.HasPrefix(s, pre)`. -/
def HasPrefix (s pre : String) : Bool := pre.data.isPrefixOf s.data

/-- Go `s[n:]` for a string whose first `n` characters are one byte each. -/
def sliceFrom (s : String) (n : Nat) : String := String.mk (s.data.drop n)

/-- Go `strings.SplitN(s, "=", 2)`: split once at the first `=`. -/
def SplitN (s : String) : List String :=
  match s.data.span (fun c => c != '=') with
  | (_, []) => [s]
  | (a, _ :: b) => [String.mk a, String.mk b]

/-- Go `strings.TrimRight(s, "/")`: drop every trailing `/`. -/
def TrimRight (s : String) : String :=
  String.mk (s.data.reverse.dropWhile (fun c => c == '/')).reverse

/-- Value of a string of decimal digits. -/
def digitsValue (ds : List Char) : Int :=
  ds.foldl (fun n ch => 10 * n + ((ch.toNat : Int) - 48)) 0

/-- Go `strconv.Atoi` on a 64-bit platform: an optional sign followed by at
least one decimal digit, the value within the range of `int`; `none` stands
for a non-nil error (syntax or range). -/
def Atoi (s : String) : Maybe Int :=
  let neg : Bool := s.data.head? = some '-'
  let ds : List Char :=
    match s.data with
    | '-' :: r => r
    | '+' :: r => r
    | r => r
  if ds = [] ∨ ds.any (fun ch => !ch.isDigit) then none
  else
    let n : Int := if neg then - digitsValue ds else digitsValue ds
    if -9223372036854775808 ≤ n ∧ n ≤ 9223372036854775807 then some n else none

/-- Go `gotext.Get("only one operation may be used at a time")`. -/
def errOnlyOneOperation : Error := "only one operation may be used at a time"

/-- Go `gotext.Get("invalid option '%s'", option)`. -/
def errInvalidOption (option : String) : Error := "invalid option '" ++ option ++ "'"

/-! ## Classification tables -/

/-- Case labels of the `switch` in `isArg`, in source order. -/
def isArgCases : List String :=
  ["-", "--",
   "ask",
   "D", "database",
   "Q", "query",
   "R", "remove",
   "S", "sync",
   "T", "deptest",
   "U", "upgrade",
   "F", "files",
   "V", "version",
   "h", "help",
   "Y", "yay",
   "P", "show",
   "G", "getpkgbuild",
   "b", "dbpath",
   "r", "root",
   "v", "verbose",
   "arch",
   "cachedir",
   "color",
   "config",
   "debug",
   "gpgdir",
   "hookdir",
   "logfile",
   "noconfirm",
   "confirm",
   "disable-download-timeout",
   "sysroot",
   "d", "nodeps",
   "assume-installed",
   "dbonly",
   "absdir",
   "noprogressbar",
   "noscriptlet",
   "p", "print",
   "print-format",
   "asdeps",
   "asexplicit",
   "ignore",
   "ignoregroup",
   "needed",
   "overwrite",
   "f", "force",
   "c", "changelog",
   "deps",
   "e", "explicit",
   "g", "groups",
   "i", "info",
   "k", "check",
   "l", "list",
   "m", "foreign",
   "n", "native",
   "o", "owns",
   "file",
   "q", "quiet",
   "s", "search",
   "t", "unrequired",
   "u", "upgrades",
   "cascade",
   "nosave",
   "recursive",
   "unneeded",
   "clean",
   "sysupgrade",
   "w", "downloadonly",
   "y", "refresh",
   "x", "regex",
   "machinereadable",
   -- yay options
   "aururl",
   "save",
   "afterclean", "cleanafter",
   "noafterclean", "nocleanafter",
   "devel",
   "nodevel",
   "timeupdate",
   "notimeupdate",
   "topdown",
   "bottomup",
   "completioninterval",
   "sortby",
   "searchby",
   "redownload",
   "redownloadall",
   "noredownload",
   "rebuild",
   "rebuildall",
   "rebuildtree",
   "norebuild",
   "batchinstall",
   "nobatchinstall",
   "answerclean",
   "noanswerclean",
   "answerdiff",
   "noanswerdiff",
   "answeredit",
   "noansweredit",
   "answerupgrade",
   "noanswerupgrade",
   "gpgflags",
   "mflags",
   "gitflags",
   "builddir",
   "editor",
   "editorflags",
   "makepkg",
   "makepkgconf",
   "nomakepkgconf",
   "pacman",
   "git",
   "gpg",
   "sudo",
   "sudoflags",
   "requestsplitn",
   "sudoloop",
   "nosudoloop",
   "provides",
   "noprovides",
   "pgpfetch",
   "nopgpfetch",
   "upgrademenu",
   "noupgrademenu",
   "cleanmenu",
   "nocleanmenu",
   "diffmenu",
   "nodiffmenu",
   "editmenu",
   "noeditmenu",
   "useask",
   "nouseask",
   "combinedupgrade",
   "nocombinedupgrade",
   "a", "aur",
   "repo",
   "removemake",
   "noremovemake",
   "askremovemake",
   "complete",
   "stats",
   "news",
   "gendb",
   "currentconfig"]

/-- The master validity predicate `isArg`. -/
def isArg (arg : String) : Bool := decide (arg ∈ isArgCases)

/-- Case labels of the `switch` in `isOp`, in source order. -/
def isOpCases : List String :=
  ["V", "version",
   "D", "database",
   "F", "files",
   "Q", "query",
   "R", "remove",
   "S", "sync",
   "T", "deptest",
   "U", "upgrade",
   -- yay specific
   "Y", "yay",
   "P", "show",
   "G", "getpkgbuild"]

/-- The operation table `isOp`. -/
def isOp (op : String) : Bool := decide (op ∈ isOpCases)

/-- Case labels of the `switch` in `isGlobal`, in source order. -/
def isGlobalCases : List String :=
  ["b", "dbpath",
   "r", "root",
   "v", "verbose",
   "arch",
   "cachedir",
   "color",
   "config",
   "debug",
   "gpgdir",
   "hookdir",
   "logfile",
   "noconfirm",
   "confirm"]

/-- The global-flag table `isGlobal`. -/
def isGlobal (op : String) : Bool := decide (op ∈ isGlobalCases)

/-- Case labels of the `switch` in `hasParam`, in source order. -/
def hasParamCases : List String :=
  ["dbpath", "b",
   "root", "r",
   "sysroot",
   "config",
   "ignore",
   "assume-installed",
   "overwrite",
   "ask",
   "cachedir",
   "hookdir",
   "logfile",
   "ignoregroup",
   "arch",
   "print-format",
   "gpgdir",
   "color",
   -- yay params
   "aururl",
   "mflags",
   "gpgflags",
   "gitflags",
   "builddir",
   "absdir",
   "editor",
   "editorflags",
   "makepkg",
   "makepkgconf",
   "pacman",
   "git",
   "gpg",
   "sudo",
   "sudoflags",
   "requestsplitn",
   "answerclean",
   "answerdiff",
   "answeredit",
   "answerupgrade",
   "completioninterval",
   "sortby",
   "searchby"]

/-- The value-taking table `hasParam`. -/
def hasParam (arg : String) : Bool := decide (arg ∈ hasParamCases)

/-! ## Options and maps of options -/

/-- The values recorded for one flag, in order of occurrence. -/
structure Option where
  Args : List String
deriving DecidableEq

/-- Method `Option.Add`: record one more value. -/
def Option.Add (o : Option) (arg : String) : Option :=
  if o.Args = [] then { Args := [arg] } else { Args := o.Args ++ [arg] }

/-- Method `Option.First`: the first recorded value, or the empty string. -/
def Option.First (o : Option) : String :=
  match o.Args with
  | [] => ""
  | a :: _ => a

/-- Method `Option.Set`: replace the recorded values by one value. -/
def Option.Set (_o : Option) (arg : String) : Option := { Args := [arg] }

/-- A Go `map[string]*Option`, as the list of its entries. -/
abbrev OptionMap : Type := List (String × Option)

/-- The keys of a map are pairwise distinct, as in every Go map. -/
def NodupKeys (m : OptionMap) : Prop := (m.map Prod.fst).Nodup

/-- Map lookup `m[key]` (with the comma-ok form: `none` when absent). -/
def OptionMap.get (m : OptionMap) (key : String) : Maybe Option := m.lookup key

/-- Whether `key` has an entry in `m`. -/
def OptionMap.has (m : OptionMap) (key : String) : Bool := (m.get key).isSome

/-- Go `delete(m, key)`. -/
def OptionMap.delete (m : OptionMap) (key : String) : OptionMap :=
  m.filter (fun e => e.1 != key)

/-- The statements `if m[key] == nil { m[key] = &Option{} }; m[key].Add(arg)`. -/
def OptionMap.add (m : OptionMap) (key arg : String) : OptionMap :=
  let m1 : OptionMap := if (m.get key).isNone then m ++ [(key, { Args := [] })] else m
  m1.map (fun e => if e.1 = key then (e.1, e.2.Add arg) else e)

/-- The order in which a `range` statement visits the entries of a map: some
rearrangement of the entries, chosen by the runtime. -/
structure RangeOrder where
  visit : OptionMap → OptionMap
  perm : ∀ m, (visit m).Perm m

/-- The visiting order that follows the entry list. -/
def RangeOrder.inOrder : RangeOrder := { visit := fun m => m, perm := fun m => List.Perm.refl m }

/-- The visiting order that follows the entry list backwards. -/
def RangeOrder.backwards : RangeOrder :=
  { visit := fun m => m.reverse, perm := fun m => List.reverse_perm m }

/-! ## Arguments -/

/-- The parse result: operation, local options, global options, targets. -/
structure Arguments where
  Op : String
  Options : OptionMap
  Globals : OptionMap
  Targets : List String
deriving DecidableEq

/-- Constructor `MakeArguments`. -/
def MakeArguments : Arguments := { Op := "", Options := [], Globals := [], Targets := [] }

/-- Method `DelArg`: delete each name from both maps. -/
def Arguments.DelArg (parser : Arguments) : List String → Arguments
  | [] => parser
  | option :: options =>
    Arguments.DelArg
      { parser with Options := parser.Options.delete option,
                    Globals := parser.Globals.delete option } options

/-- Method `addOP`: set the operation, once. -/
def Arguments.addOP (parser : Arguments) (op : String) : Arguments × Maybe Error :=
  if parser.Op ≠ "" then (parser, some errOnlyOneOperation)
  else ({ parser with Op := op }, none)

/-- Method `addParam`: register one occurrence of a flag with its value. -/
def Arguments.addParam (parser : Arguments) (option arg : String) : Arguments × Maybe Error :=
  if !isArg option then (parser, some (errInvalidOption option))
  else if isOp option then parser.addOP option
  else if isGlobal option then
    ({ parser with Globals := parser.Globals.add option arg }, none)
  else
    ({ parser with Options := parser.Options.add option arg }, none)

/-- Method `AddArg`: register each name as a switch, stopping at the first error. -/
def Arguments.AddArg (parser : Arguments) : List String → Arguments × Maybe Error
  | [] => (parser, none)
  | option :: options =>
    match parser.addParam option "" with
    | (parser1, some err) => (parser1, some err)
    | (parser1, none) => Arguments.AddArg parser1 options

/-- Method `ExistsArg`: whether one of the names is a key of either map. -/
def Arguments.ExistsArg (parser : Arguments) : List String → Bool
  | [] => false
  | option :: options =>
    if parser.Options.has option then true
    else if parser.Globals.has option then true
    else Arguments.ExistsArg parser options

/-- Method `GetArg`: for the first name that is a key of `Options`, else of
`Globals`, the first value and whether at least two, at least one value is
recorded; `("", false, false)` when no name is a key. -/
def Arguments.GetArg (parser : Arguments) : List String → String × Bool × Bool
  | [] => ("", false, false)
  | option :: options =>
    match parser.Options.get option with
    | some value => (value.First, decide (value.Args.length ≥ 2), decide (value.Args.length ≥ 1))
    | none =>
      match parser.Globals.get option with
      | some value =>
        (value.First, decide (value.Args.length ≥ 2), decide (value.Args.length ≥ 1))
      | none => Arguments.GetArg parser options

/-- Method `AddTarget`. -/
def Arguments.AddTarget (parser : Arguments) (targets : List String) : Arguments :=
  { parser with Targets := parser.Targets ++ targets }

/-- Method `ExistsDouble`: for the first name that is a key of `Options`, else
of `Globals`, whether at least two values are recorded; `false` when no name is
a key. -/
def Arguments.ExistsDouble (parser : Arguments) : List String → Bool
  | [] => false
  | option :: options =>
    match parser.Options.get option with
    | some value => decide (value.Args.length ≥ 2)
    | none =>
      match parser.Globals.get option with
      | some value => decide (value.Args.length ≥ 2)
      | none => Arguments.ExistsDouble parser options

/-- Function `formatArg`. -/
def formatArg (arg : String) : String :=
  if len arg > 1 then "--" ++ arg else "-" ++ arg

/-- The inner loop of `FormatArgs` and `FormatGlobals`: for each recorded value
append the formatted flag, then the value when the flag takes one. -/
def formatValues (option formattedOption : String) (args : List String) (values : List String) :
    List String :=
  values.foldl
    (fun args value =>
      let args := args ++ [formattedOption]
      if hasParam option then args ++ [value] else args)
    args

/-- Method `FormatArgs`. -/
def Arguments.FormatArgs (parser : Arguments) (order : RangeOrder) : List String :=
  let op : String := if parser.Op ≠ "" then formatArg parser.Op else ""
  (order.visit parser.Options).foldl
    (fun args e =>
      if e.1 = "--" then args
      else formatValues e.1 (formatArg e.1) args e.2.Args)
    ([] ++ [op])

/-- Method `FormatGlobals`. -/
def Arguments.FormatGlobals (parser : Arguments) (order : RangeOrder) : List String :=
  (order.visit parser.Globals).foldl
    (fun args e => formatValues e.1 (formatArg e.1) args e.2.Args)
    []

/-! ## Tokenizer -/

/-- The result of parsing one token: the updated arguments, whether the
lookahead token was consumed, and the error if any. -/
structure Parsed where
  parser : Arguments
  usedNext : Bool
  err : Maybe Error
deriving DecidableEq

/-- The `for k, _char := range arg` loop of `parseShortOption`, on the
characters that remain to be visited. -/
def parseShortLoop (param : String) : Arguments → List Char → Parsed
  | parser, [] => { parser := parser, usedNext := false, err := none }
  | parser, _char :: rest =>
    let char : String := String.singleton _char
    if hasParam char then
      if rest ≠ [] then
        let r := parser.addParam char (String.mk rest)
        { parser := r.1, usedNext := false, err := r.2 }
      else
        let r := parser.addParam char param
        { parser := r.1, usedNext := true, err := r.2 }
    else
      match parser.AddArg [char] with
      | (parser1, some err) => { parser := parser1, usedNext := false, err := some err }
      | (parser1, none) => parseShortLoop param parser1 rest

/-- Method `parseShortOption`, for a token `arg` that starts with `-`. -/
def Arguments.parseShortOption (parser : Arguments) (arg param : String) : Parsed :=
  if arg = "-" then
    let r := parser.AddArg ["-"]
    { parser := r.1, usedNext := false, err := r.2 }
  else
    parseShortLoop param parser (sliceFrom arg 1).data

/-- Method `parseLongOption`, for a token `arg` that starts with `--`. -/
def Arguments.parseLongOption (parser : Arguments) (arg param : String) : Parsed :=
  if arg = "--" then
    let r := parser.AddArg [arg]
    { parser := r.1, usedNext := false, err := r.2 }
  else
    let arg := sliceFrom arg 2
    match SplitN arg with
    | [name, value] =>
      let r := parser.addParam name value
      { parser := r.1, usedNext := false, err := r.2 }
    | _ =>
      if hasParam arg then
        let r := parser.addParam arg param
        { parser := r.1, usedNext := true, err := r.2 }
      else
        let r := parser.AddArg [arg]
        { parser := r.1, usedNext := false, err := r.2 }

/-- The `switch` in the loop of `ParseCommandLine`: classify one token. -/
def parseToken (parser : Arguments) (arg nextArg : String) : Parsed :=
  if parser.ExistsArg ["--"] then
    { parser := parser.AddTarget [arg], usedNext := false, err := none }
  else if HasPrefix arg "--" then parser.parseLongOption arg nextArg
  else if HasPrefix arg "-" then parser.parseShortOption arg nextArg
  else { parser := parser.AddTarget [arg], usedNext := false, err := none }

/-- The `for k, arg := range args` loop of `ParseCommandLine`, on the tokens
that remain; `nextArg` is the token after `arg`, or the empty string. -/
def parseLoop : Arguments → Bool → List String → Arguments × Maybe Error
  | parser, _, [] => (parser, none)
  | parser, usedNext, arg :: rest =>
    if usedNext then parseLoop parser false rest
    else
      let nextArg : String := rest.headD ""
      let r := parseToken parser arg nextArg
      match r.err with
      | some err => (r.parser, some err)
      | none => parseLoop r.parser r.usedNext rest

/-! ## Configuration and extension options -/

/-- Modelled from the spec: the sort-order constants `TopDown` and `BottomUp`
are declared outside the files at hand; they are two distinct values of an
enumerated set. -/
inductive SortMode where
  | BottomUp
  | TopDown
deriving DecidableEq

/-- Modelled from the spec: the target-mode constants `ModeAUR` and `ModeRepo`
are declared outside the files at hand; `ModeAny` stands for every other mode. -/
inductive TargetMode where
  | ModeAny
  | ModeAUR
  | ModeRepo
deriving DecidableEq

/-- Modelled from the spec: the `Runtime` type is declared outside the files at
hand; these are the fields the parser reads or assigns. -/
structure Runtime where
  Mode : TargetMode
  SaveConfig : Bool
deriving DecidableEq

/-- Method `NeedRoot`: the `help` guard, then the `switch` on `parser.Op`. -/
def Arguments.NeedRoot (parser : Arguments) (runtime : Runtime) : Bool :=
  if parser.ExistsArg ["h", "help"] then false
  else if parser.Op = "D" ∨ parser.Op = "database" then
    if parser.ExistsArg ["k", "check"] then false else true
  else if parser.Op = "F" ∨ parser.Op = "files" then
    if parser.ExistsArg ["y", "refresh"] then true else false
  else if parser.Op = "Q" ∨ parser.Op = "query" then
    if parser.ExistsArg ["k", "check"] then true else false
  else if parser.Op = "R" ∨ parser.Op = "remove" then
    if parser.ExistsArg ["p", "print", "print-format"] then false else true
  else if parser.Op = "S" ∨ parser.Op = "sync" then
    if parser.ExistsArg ["y", "refresh"] then true
    else if parser.ExistsArg ["p", "print", "print-format"] then false
    else if parser.ExistsArg ["s", "search"] then false
    else if parser.ExistsArg ["l", "list"] then false
    else if parser.ExistsArg ["g", "groups"] then false
    else if parser.ExistsArg ["i", "info"] then false
    else if parser.ExistsArg ["c", "clean"] ∧ runtime.Mode = TargetMode.ModeAUR then false
    else true
  else if parser.Op = "U" ∨ parser.Op = "upgrade" then true
  else false

/-- Modelled from the spec: the `Configuration` type is declared outside the
files at hand; these are the fields assigned by `handleConfig`, strings, bools,
ints or a value of an enumerated set. -/
structure Configuration where
  AURURL : String
  BuildDir : String
  ABSDir : String
  Editor : String
  EditorFlags : String
  MakepkgBin : String
  MakepkgConf : String
  PacmanBin : String
  PacmanConf : String
  ReDownload : String
  ReBuild : String
  AnswerClean : String
  AnswerDiff : String
  AnswerEdit : String
  AnswerUpgrade : String
  GitBin : String
  GpgBin : String
  GpgFlags : String
  MFlags : String
  SortBy : String
  SearchBy : String
  GitFlags : String
  RemoveMake : String
  SudoBin : String
  SudoFlags : String
  RequestSplitN : Int
  SortMode : SortMode
  CompletionInterval : Int
  SudoLoop : Bool
  TimeUpdate : Bool
  NoConfirm : Bool
  Devel : Bool
  CleanAfter : Bool
  Provides : Bool
  PGPFetch : Bool
  UpgradeMenu : Bool
  CleanMenu : Bool
  DiffMenu : Bool
  EditMenu : Bool
  CombinedUpgrade : Bool
  UseAsk : Bool
  BatchInstall : Bool
  Runtime : Runtime
deriving DecidableEq

/-- One `case` of the `switch` in `handleConfig`: its labels and the assignment
it performs on the configuration, given the value of the flag. -/
structure ConfigCase where
  labels : List String
  assign : Configuration → String → Configuration

/-- The cases of the `switch` in `handleConfig`, in source order. -/
def handleConfigCases : List ConfigCase :=
  [ConfigCase.mk ["aururl"] (fun config value => { config with AURURL := value }),
   ConfigCase.mk ["save"] (fun config _ => { config with Runtime := { config.Runtime with SaveConfig := true } }),
   ConfigCase.mk ["afterclean", "cleanafter"] (fun config _ => { config with CleanAfter := true }),
   ConfigCase.mk ["noafterclean", "nocleanafter"] (fun config _ => { config with CleanAfter := false }),
   ConfigCase.mk ["devel"] (fun config _ => { config with Devel := true }),
   ConfigCase.mk ["nodevel"] (fun config _ => { config with Devel := false }),
   ConfigCase.mk ["timeupdate"] (fun config _ => { config with TimeUpdate := true }),
   ConfigCase.mk ["notimeupdate"] (fun config _ => { config with TimeUpdate := false }),
   ConfigCase.mk ["topdown"] (fun config _ => { config with SortMode := SortMode.TopDown }),
   ConfigCase.mk ["bottomup"] (fun config _ => { config with SortMode := SortMode.BottomUp }),
   ConfigCase.mk ["completioninterval"] (fun config value =>
      match Atoi value with
      | some n => { config with CompletionInterval := n }
      | none => config),
   ConfigCase.mk ["sortby"] (fun config value => { config with SortBy := value }),
   ConfigCase.mk ["searchby"] (fun config value => { config with SearchBy := value }),
   ConfigCase.mk ["noconfirm"] (fun config _ => { config with NoConfirm := true }),
   ConfigCase.mk ["config"] (fun config value => { config with PacmanConf := value }),
   ConfigCase.mk ["redownload"] (fun config _ => { config with ReDownload := "yes" }),
   ConfigCase.mk ["redownloadall"] (fun config _ => { config with ReDownload := "all" }),
   ConfigCase.mk ["noredownload"] (fun config _ => { config with ReDownload := "no" }),
   ConfigCase.mk ["rebuild"] (fun config _ => { config with ReBuild := "yes" }),
   ConfigCase.mk ["rebuildall"] (fun config _ => { config with ReBuild := "all" }),
   ConfigCase.mk ["rebuildtree"] (fun config _ => { config with ReBuild := "tree" }),
   ConfigCase.mk ["norebuild"] (fun config _ => { config with ReBuild := "no" }),
   ConfigCase.mk ["batchinstall"] (fun config _ => { config with BatchInstall := true }),
   ConfigCase.mk ["nobatchinstall"] (fun config _ => { config with BatchInstall := false }),
   ConfigCase.mk ["answerclean"] (fun config value => { config with AnswerClean := value }),
   ConfigCase.mk ["noanswerclean"] (fun config _ => { config with AnswerClean := "" }),
   ConfigCase.mk ["answerdiff"] (fun config value => { config with AnswerDiff := value }),
   ConfigCase.mk ["noanswerdiff"] (fun config _ => { config with AnswerDiff := "" }),
   ConfigCase.mk ["answeredit"] (fun config value => { config with AnswerEdit := value }),
   ConfigCase.mk ["noansweredit"] (fun config _ => { config with AnswerEdit := "" }),
   ConfigCase.mk ["answerupgrade"] (fun config value => { config with AnswerUpgrade := value }),
   ConfigCase.mk ["noanswerupgrade"] (fun config _ => { config with AnswerUpgrade := "" }),
   ConfigCase.mk ["gpgflags"] (fun config value => { config with GpgFlags := value }),
   ConfigCase.mk ["mflags"] (fun config value => { config with MFlags := value }),
   ConfigCase.mk ["gitflags"] (fun config value => { config with GitFlags := value }),
   ConfigCase.mk ["builddir"] (fun config value => { config with BuildDir := value }),
   ConfigCase.mk ["absdir"] (fun config value => { config with ABSDir := value }),
   ConfigCase.mk ["editor"] (fun config value => { config with Editor := value }),
   ConfigCase.mk ["editorflags"] (fun config value => { config with EditorFlags := value }),
   ConfigCase.mk ["makepkg"] (fun config value => { config with MakepkgBin := value }),
   ConfigCase.mk ["makepkgconf"] (fun config value => { config with MakepkgConf := value }),
   ConfigCase.mk ["nomakepkgconf"] (fun config _ => { config with MakepkgConf := "" }),
   ConfigCase.mk ["pacman"] (fun config value => { config with PacmanBin := value }),
   ConfigCase.mk ["git"] (fun config value => { config with GitBin := value }),
   ConfigCase.mk ["gpg"] (fun config value => { config with GpgBin := value }),
   ConfigCase.mk ["sudo"] (fun config value => { config with SudoBin := value }),
   ConfigCase.mk ["sudoflags"] (fun config value => { config with SudoFlags := value }),
   ConfigCase.mk ["requestsplitn"] (fun config value =>
      match Atoi value with
      | some n => if n > 0 then { config with RequestSplitN := n } else config
      | none => config),
   ConfigCase.mk ["sudoloop"] (fun config _ => { config with SudoLoop := true }),
   ConfigCase.mk ["nosudoloop"] (fun config _ => { config with SudoLoop := false }),
   ConfigCase.mk ["provides"] (fun config _ => { config with Provides := true }),
   ConfigCase.mk ["noprovides"] (fun config _ => { config with Provides := false }),
   ConfigCase.mk ["pgpfetch"] (fun config _ => { config with PGPFetch := true }),
   ConfigCase.mk ["nopgpfetch"] (fun config _ => { config with PGPFetch := false }),
   ConfigCase.mk ["upgrademenu"] (fun config _ => { config with UpgradeMenu := true }),
   ConfigCase.mk ["noupgrademenu"] (fun config _ => { config with UpgradeMenu := false }),
   ConfigCase.mk ["cleanmenu"] (fun config _ => { config with CleanMenu := true }),
   ConfigCase.mk ["nocleanmenu"] (fun config _ => { config with CleanMenu := false }),
   ConfigCase.mk ["diffmenu"] (fun config _ => { config with DiffMenu := true }),
   ConfigCase.mk ["nodiffmenu"] (fun config _ => { config with DiffMenu := false }),
   ConfigCase.mk ["editmenu"] (fun config _ => { config with EditMenu := true }),
   ConfigCase.mk ["noeditmenu"] (fun config _ => { config with EditMenu := false }),
   ConfigCase.mk ["useask"] (fun config _ => { config with UseAsk := true }),
   ConfigCase.mk ["nouseask"] (fun config _ => { config with UseAsk := false }),
   ConfigCase.mk ["combinedupgrade"] (fun config _ => { config with CombinedUpgrade := true }),
   ConfigCase.mk ["nocombinedupgrade"] (fun config _ => { config with CombinedUpgrade := false }),
   ConfigCase.mk ["a", "aur"] (fun config _ =>
      { config with Runtime := { config.Runtime with Mode := TargetMode.ModeAUR } }),
   ConfigCase.mk ["repo"] (fun config _ =>
      { config with Runtime := { config.Runtime with Mode := TargetMode.ModeRepo } }),
   ConfigCase.mk ["removemake"] (fun config _ => { config with RemoveMake := "yes" }),
   ConfigCase.mk ["noremovemake"] (fun config _ => { config with RemoveMake := "no" }),
   ConfigCase.mk ["askremovemake"] (fun config _ => { config with RemoveMake := "ask" })]

/-- Function `handleConfig`: run the first case one of whose labels is
`option` and report `true`; report `false` when no case matches. -/
def handleConfig (config : Configuration) (option value : String) : Configuration × Bool :=
  match handleConfigCases.find? (fun c => decide (option ∈ c.labels)) with
  | some c => (c.assign config value, true)
  | none => (config, false)

/-- One `range` loop of `extractYayOptions` over the visited entries. -/
def extractLoop (entries : OptionMap) (config : Configuration) (parser : Arguments) :
    Configuration × Arguments :=
  entries.foldl
    (fun st e =>
      let r := handleConfig st.1 e.1 e.2.First
      if r.2 then (r.1, st.2.DelArg [e.1]) else (r.1, st.2))
    (config, parser)

/-- What `extractYayOptions` leaves behind: the arguments, the configuration
and the package variable `rpc.AURURL`. -/
structure Extracted where
  parser : Arguments
  config : Configuration
  rpcAURURL : String
deriving DecidableEq

/-- Method `extractYayOptions`. -/
def Arguments.extractYayOptions (parser : Arguments) (config : Configuration)
    (orderOptions orderGlobals : RangeOrder) : Extracted :=
  let st1 := extractLoop (orderOptions.visit parser.Options) config parser
  let st2 := extractLoop (orderGlobals.visit st1.2.Globals) st1.1 st1.2
  { parser := st2.2,
    config := { st2.1 with AURURL := TrimRight st2.1.AURURL },
    rpcAURURL := TrimRight st2.1.AURURL ++ "/rpc.php?" }

/-- The process environment read by `ParseCommandLine`: `os.Args[1:]`, the lines
the scanner yields from standard input, the result of closing standard input
and the result of opening the terminal. -/
structure Process where
  Args : List String
  StdinLines : List String
  StdinClose : Maybe Error
  OpenTty : Maybe Error

/-- Method `parseStdin`: every scanned line becomes a target. -/
def Arguments.parseStdin (parser : Arguments) (os : Process) : Arguments × Maybe Error :=
  (os.StdinLines.foldl (fun parser line => parser.AddTarget [line]) parser, os.StdinClose)

/-- What `ParseCommandLine` leaves behind: the arguments, the configuration,
the package variable `rpc.AURURL` when it was assigned, and the error. -/
structure Outcome where
  parser : Arguments
  config : Configuration
  rpcAURURL : Maybe String
  err : Maybe Error
deriving DecidableEq

/-- The part of `ParseCommandLine` up to the end of the token loop. -/
def Arguments.parseArgs (parser : Arguments) (args : List String) : Arguments × Maybe Error :=
  if args.length < 1 then
    let r := parser.parseShortOption "-Syu" ""
    (r.parser, r.err)
  else parseLoop parser false args

/-- Method `ParseCommandLine`. -/
def Arguments.ParseCommandLine (parser : Arguments) (config : Configuration) (os : Process)
    (orderOptions orderGlobals : RangeOrder) : Outcome :=
  match parser.parseArgs os.Args with
  | (parser, some err) => { parser := parser, config := config, rpcAURURL := none, err := some err }
  | (parser, none) =>
    let parser : Arguments := if parser.Op = "" then { parser with Op := "Y" } else parser
    let afterStdin : Arguments × Maybe Error :=
      if parser.ExistsArg ["-"] then
        match parser.parseStdin os with
        | (parser, some err) => (parser, some err)
        | (parser, none) =>
          let parser := parser.DelArg ["-"]
          match os.OpenTty with
          | some err => (parser, some err)
          | none => (parser, none)
      else (parser, none)
    match afterStdin with
    | (parser, some err) =>
      { parser := parser, config := config, rpcAURURL := none, err := some err }
    | (parser, none) =>
      let r := parser.extractYayOptions config orderOptions orderGlobals
      { parser := r.parser, config := r.config, rpcAURURL := some r.rpcAURURL, err := none }

/-! ## Auxiliary definitions used in the statements -/

/-- Whether `option` is a label of some case of `handleConfig`. -/
def isConfigOption (option : String) : Bool :=
  handleConfigCases.any (fun c => decide (option ∈ c.labels))

/-- The statement `if parser.Op == "" { parser.Op = "Y" }`. -/
def defaultOp (parser : Arguments) : Arguments :=
  if parser.Op = "" then { parser with Op := "Y" } else parser

/-- The arguments after `k` occurrences of the switch `d` and nothing else. -/
def repeatedD (k : Nat) : Arguments :=
  { Op := "",
    Options := if k = 0 then [] else [("d", { Args := List.replicate k "" })],
    Globals := [],
    Targets := [] }

/-- A configuration with every field empty, false or zero. -/
def blankConfiguration : Configuration :=
  { AURURL := "", BuildDir := "", ABSDir := "", Editor := "", EditorFlags := "",
    MakepkgBin := "", MakepkgConf := "", PacmanBin := "", PacmanConf := "",
    ReDownload := "", ReBuild := "", AnswerClean := "", AnswerDiff := "",
    AnswerEdit := "", AnswerUpgrade := "", GitBin := "", GpgBin := "", GpgFlags := "",
    MFlags := "", SortBy := "", SearchBy := "", GitFlags := "", RemoveMake := "",
    SudoBin := "", SudoFlags := "", RequestSplitN := 0, SortMode := SortMode.BottomUp,
    CompletionInterval := 0, SudoLoop := false, TimeUpdate := false, NoConfirm := false,
    Devel := false, CleanAfter := false, Provides := false, PGPFetch := false,
    UpgradeMenu := false, CleanMenu := false, DiffMenu := false, EditMenu := false,
    CombinedUpgrade := false, UseAsk := false, BatchInstall := false,
    Runtime := { Mode := TargetMode.ModeAny, SaveConfig := false } }

/-- Reference serialization of one flag: the formatted flag name once per
recorded value, in value order, each occurrence followed by its value exactly
when the flag takes a value. -/
def formatBlock (option : String) (o : Option) : List String :=
  o.Args.flatMap
    (fun value => if hasParam option then [formatArg option, value] else [formatArg option])

/-- Reference token of the operation: empty when no operation is set, `-x` for
a one-byte name, `--xxx` otherwise. -/
def formatOp (op : String) : String :=
  if op = "" then "" else if len op = 1 then "-" ++ op else "--" ++ op

/-- Reference serialization of the local options visited as `entries`: the
operation token, then the block of every entry other than `--`. -/
def formatArgsSpec (op : String) (entries : OptionMap) : List String :=
  formatOp op :: (entries.filter (fun e => e.1 != "--")).flatMap (fun e => formatBlock e.1 e.2)

/-- Reference serialization of the global options visited as `entries`. -/
def formatGlobalsSpec (entries : OptionMap) : List String :=
  entries.flatMap (fun e => formatBlock e.1 e.2)

/-- The keys of a map, in entry order. -/
def OptionMap.keys (m : OptionMap) : List String := m.map Prod.fst

/-- The characters of a bundle that are parsed as flags of their own: those
before the first value-taking character. -/
def bundleFlags (chars : List Char) : List Char :=
  chars.takeWhile (fun c => !hasParam (String.singleton c))

/-- The number of operation-classified characters in a list of characters. -/
def opCount (chars : List Char) : Nat :=
  chars.countP (fun c => isOp (String.singleton c))

/-- An extension flag whose case of `handleConfig` stores the value of the
flag in a string field: the flag, the field, and the flags whose cases store
the empty string in the same field. -/
structure ValueField where
  flag : String
  field : Configuration → String
  clearedBy : List String

/-- The extension flags whose case of `handleConfig` is `config.X = value` for
a string field `X`, in source order, each with that field and with the flags
whose case is `config.X = ""`. -/
def valueFields : List ValueField :=
  [ValueField.mk "aururl" Configuration.AURURL [],
   ValueField.mk "sortby" Configuration.SortBy [],
   ValueField.mk "searchby" Configuration.SearchBy [],
   ValueField.mk "config" Configuration.PacmanConf [],
   ValueField.mk "answerclean" Configuration.AnswerClean ["noanswerclean"],
   ValueField.mk "answerdiff" Configuration.AnswerDiff ["noanswerdiff"],
   ValueField.mk "answeredit" Configuration.AnswerEdit ["noansweredit"],
   ValueField.mk "answerupgrade" Configuration.AnswerUpgrade ["noanswerupgrade"],
   ValueField.mk "gpgflags" Configuration.GpgFlags [],
   ValueField.mk "mflags" Configuration.MFlags [],
   ValueField.mk "gitflags" Configuration.GitFlags [],
   ValueField.mk "builddir" Configuration.BuildDir [],
   ValueField.mk "absdir" Configuration.ABSDir [],
   ValueField.mk "editor" Configuration.Editor [],
   ValueField.mk "editorflags" Configuration.EditorFlags [],
   ValueField.mk "makepkg" Configuration.MakepkgBin [],
   ValueField.mk "makepkgconf" Configuration.MakepkgConf ["nomakepkgconf"],
   ValueField.mk "pacman" Configuration.PacmanBin [],
   ValueField.mk "git" Configuration.GitBin [],
   ValueField.mk "gpg" Configuration.GpgBin [],
   ValueField.mk "sudo" Configuration.SudoBin [],
   ValueField.mk "sudoflags" Configuration.SudoFlags []]

/-- How the cases of `handleConfig` write the field `field`: the case of
`flag`, which has no other label, stores `stored value`; a case whose labels
all are among `others` stores `other`; every remaining case leaves the field
as it is. -/
def StoredBy {α : Type} (field : Configuration → α) (flag : String) (stored : String → α)
    (others : List String) (other : α) : Prop :=
  ∀ case ∈ handleConfigCases,
    (flag ∈ case.labels →
      case.labels = [flag] ∧ ∀ c v, field (case.assign c v) = stored v) ∧
    (flag ∉ case.labels →
      (∀ c v, field (case.assign c v) = field c) ∨
      ((∀ l ∈ case.labels, l ∈ others) ∧ ∀ c v, field (case.assign c v) = other))

/-- The shape of the arguments built by the parser: both maps have distinct
keys, `Options` holds valid flags that are neither operations nor global,
`Globals` holds global flags, every stored flag has at least one value, and
the operation is unset or an operation name. -/
structure WellFormed (p : Arguments) : Prop where
  nodupOptions : NodupKeys p.Options
  nodupGlobals : NodupKeys p.Globals
  options : ∀ e ∈ p.Options,
    isArg e.1 = true ∧ isOp e.1 = false ∧ isGlobal e.1 = false ∧ e.2.Args ≠ []
  globals : ∀ e ∈ p.Globals, isGlobal e.1 = true ∧ e.2.Args ≠ []
  op : p.Op = "" ∨ isOp p.Op = true

/-- The number of values recorded for `key`, zero when it has no entry. -/
def valueCount (m : OptionMap) (key : String) : Nat :=
  match m.get key with
  | some o => o.Args.length
  | none => 0

/-- Registering again every recorded value of one entry, as the parser does
when it reads the serialized block of the entry. -/
def replayEntry (p : Arguments) (e : String × Option) : Arguments :=
  e.2.Args.foldl (fun p value => (p.addParam e.1 (if hasParam e.1 then value else "")).1) p

/-- Registering again every recorded value of the visited entries. -/
def replay (entries : OptionMap) (p : Arguments) : Arguments :=
  entries.foldl replayEntry p

/-- The token vector that serializes the arguments: `FormatArgs`, then
`FormatGlobals`, then the targets. -/
def serialize (p : Arguments) (orderArgs orderGlobals : RangeOrder) : List String :=
  p.FormatArgs orderArgs ++ p.FormatGlobals orderGlobals ++ p.Targets

/-- The number of values recorded for `key`, or nothing when it has no entry. -/
def occurrences (m : OptionMap) (key : String) : Maybe Nat :=
  match m.get key with
  | some o => some o.Args.length
  | none => none

/-- The values recorded for `key`, none when it has no entry. -/
def OptionMap.values (m : OptionMap) (key : String) : List String :=
  match m.get key with
  | some o => o.Args
  | none => []

/-- The arguments obtained from `MakeArguments` by a sequence of calls of
`addParam`, `AddArg` and `DelArg`. -/
inductive Built : Arguments → Prop where
  | make : Built MakeArguments
  | addParam (p : Arguments) (option arg : String) : Built p → Built (p.addParam option arg).1
  | AddArg (p : Arguments) (options : List String) : Built p → Built (p.AddArg options).1
  | DelArg (p : Arguments) (options : List String) : Built p → Built (p.DelArg options)

/-- The arguments obtained from `MakeArguments` by a sequence of calls of
`addParam`, `AddArg`, `DelArg`, `parseShortOption` and `parseLongOption`. -/
inductive Reached : Arguments → Prop where
  | make : Reached MakeArguments
  | addParam (p : Arguments) (option arg : String) : Reached p → Reached (p.addParam option arg).1
  | AddArg (p : Arguments) (options : List String) : Reached p → Reached (p.AddArg options).1
  | DelArg (p : Arguments) (options : List String) : Reached p → Reached (p.DelArg options)
  | parseShortOption (p : Arguments) (arg param : String) :
    Reached p → Reached (p.parseShortOption arg param).parser
  | parseLongOption (p : Arguments) (arg param : String) :
    Reached p → Reached (p.parseLongOption arg param).parser

/-- The configuration field assigned by each case of `handleConfig`, in the
order of `handleConfigCases`. -/
def handleConfigFields : List String :=
  ["AURURL", "Runtime.SaveConfig", "CleanAfter", "CleanAfter", "Devel", "Devel", "TimeUpdate",
   "TimeUpdate", "SortMode", "SortMode", "CompletionInterval", "SortBy", "SearchBy", "NoConfirm",
   "PacmanConf", "ReDownload", "ReDownload", "ReDownload", "ReBuild", "ReBuild", "ReBuild",
   "ReBuild", "BatchInstall", "BatchInstall", "AnswerClean", "AnswerClean", "AnswerDiff",
   "AnswerDiff", "AnswerEdit", "AnswerEdit", "AnswerUpgrade", "AnswerUpgrade", "GpgFlags",
   "MFlags", "GitFlags", "BuildDir", "ABSDir", "Editor", "EditorFlags", "MakepkgBin",
   "MakepkgConf", "MakepkgConf", "PacmanBin", "GitBin", "GpgBin", "SudoBin", "SudoFlags",
   "RequestSplitN", "SudoLoop", "SudoLoop", "Provides", "Provides", "PGPFetch", "PGPFetch",
   "UpgradeMenu", "UpgradeMenu", "CleanMenu", "CleanMenu", "DiffMenu", "DiffMenu", "EditMenu",
   "EditMenu", "UseAsk", "UseAsk", "CombinedUpgrade", "CombinedUpgrade", "Runtime.Mode",
   "Runtime.Mode", "RemoveMake", "RemoveMake", "RemoveMake"]

/-- The configuration field that `handleConfig` assigns for a flag, nothing
when the flag has no case. -/
def assignedField (option : String) : Maybe String :=
  ((handleConfigCases.zip handleConfigFields).find?
    (fun cf => decide (option ∈ cf.1.labels))).map Prod.snd

/-- No two different flags of the map are assigned to the same configuration
field. -/
def distinctFields (m : OptionMap) : Prop :=
  ∀ e1 ∈ m, ∀ e2 ∈ m, e1.1 ≠ e2.1 →
    assignedField e1.1 = none ∨ assignedField e1.1 ≠ assignedField e2.1

/-- The values with which the flag `k` occurs in a list of flag occurrences,
in order. -/
def givenValues (k : String) (given : List (String × String)) : List String :=
  (given.filter (fun e => decide (e.1 = k))).map Prod.snd

/-- Reference reading of a short bundle, after its dash: every character is a
flag of its own; a value-taking character takes the rest of the bundle as its
value, or the lookahead token when nothing is left, and ends the bundle; any
other character is a switch, recorded with the empty value.  The result is the
flag occurrences, in order, and whether the lookahead token is consumed. -/
def shortFlagsSpec (next : String) : List Char → List (String × String) × Bool
  | [] => ([], false)
  | c :: rest =>
    if hasParam (String.singleton c) then
      if rest ≠ [] then ([(String.singleton c, String.mk rest)], false)
      else ([(String.singleton c, next)], true)
    else
      ((String.singleton c, "") :: (shortFlagsSpec next rest).1, (shortFlagsSpec next rest).2)

/-- Reference reading of one token with its lookahead: the tokens `--` and
`-` are flags by themselves; `--name=value` gives `name` with `value`;
`--name` gives `name` with the lookahead token when `name` takes a value and
as a switch otherwise; any other token that starts with a dash is a short
bundle; every other token is a target and gives no flag.  The result is the
flag occurrences, in order, and whether the lookahead token is consumed. -/
def tokenFlagsSpec (token next : String) : List (String × String) × Bool :=
  if token = "--" ∨ token = "-" then ([(token, "")], false)
  else if HasPrefix token "--" then
    match SplitN (sliceFrom token 2) with
    | [name, value] => ([(name, value)], false)
    | _ =>
      if hasParam (sliceFrom token 2) then ([(sliceFrom token 2, next)], true)
      else ([(sliceFrom token 2, "")], false)
  else if HasPrefix token "-" then shortFlagsSpec next (sliceFrom token 1).data
  else ([], false)

/-- Reference reading of the command line: the flag occurrences given by the
tokens, read from left to right; a token consumed as the value of the flag
before it is not read (the Boolean tells whether the first token is one), and
once the flag `--` has been given every later token is a target. -/
def commandLineFlagsSpec : Bool → List String → List (String × String)
  | _, [] => []
  | true, _ :: rest => commandLineFlagsSpec false rest
  | false, token :: rest =>
    if "--" ∈ (tokenFlagsSpec token (rest.headD "")).1.map Prod.fst then
      (tokenFlagsSpec token (rest.headD "")).1
    else
      (tokenFlagsSpec token (rest.headD "")).1 ++
        commandLineFlagsSpec (tokenFlagsSpec token (rest.headD "")).2 rest

/-- The arguments `q` are the arguments `p` after recording the flag
occurrences `given`, as far as the global flags and the separator go: the
values of every global flag are the former ones followed by the given ones,
and `--` is present exactly when it was present or is given. -/
def Records (p q : Arguments) (given : List (String × String)) : Prop :=
  (∀ k, isGlobal k = true → q.Globals.values k = p.Globals.values k ++ givenValues k given) ∧
  (q.ExistsArg ["--"] = true ↔ p.ExistsArg ["--"] = true ∨ "--" ∈ given.map Prod.fst)

end settings

/-! # Theorems -/

namespace settings

/-! ## Basic facts about the tables and the extraction loop -/
theorem handleConfig_snd (config : Configuration) (option value : String) :
    (handleConfig config option value).2 = isConfigOption option := by
  unfold handleConfig isConfigOption
  cases h : handleConfigCases.find? (fun c => decide (option ∈ c.labels)) with
  | none =>
    simp only [List.find?_eq_none] at h
    symm
    simpa [List.any_eq_true] using h
  | some c =>
    have hm := List.mem_of_find?_eq_some h
    have hp := List.find?_some h
    symm
    simp only [List.any_eq_true]
    exact ⟨c, hm, hp⟩

theorem handleConfig_of_not (config : Configuration) (option value : String)
    (h : isConfigOption option = false) : handleConfig config option value = (config, false) := by
  have h2 := handleConfig_snd config option value
  unfold handleConfig at h2 ⊢
  cases h3 : handleConfigCases.find? (fun c => decide (option ∈ c.labels)) with
  | none => rfl
  | some c => rw [h3] at h2; simp [h] at h2

theorem extractLoop_nil (config : Configuration) (parser : Arguments) :
    extractLoop [] config parser = (config, parser) := rfl

theorem extractLoop_cons (e : String × Option) (entries : OptionMap) (config : Configuration)
    (parser : Arguments) :
    extractLoop (e :: entries) config parser =
      extractLoop entries (handleConfig config e.1 e.2.First).1
        (if (handleConfig config e.1 e.2.First).2 then parser.DelArg [e.1] else parser) := by
  unfold extractLoop
  simp only [List.foldl_cons]
  split <;> rfl

theorem extractLoop_noop (entries : OptionMap) (config : Configuration) (parser : Arguments)
    (h : ∀ e ∈ entries, isConfigOption e.1 = false) :
    extractLoop entries config parser = (config, parser) := by
  induction entries with
  | nil => rfl
  | cons e es ih =>
    rw [extractLoop_cons, handleConfig_of_not _ _ _ (h e (List.mem_cons_self _ _))]
    simpa using ih (fun e he => h e (List.mem_cons_of_mem _ he))

theorem extractYayOptions_noop (parser : Arguments) (config : Configuration)
    (oO oG : RangeOrder)
    (hO : ∀ e ∈ parser.Options, isConfigOption e.1 = false)
    (hG : ∀ e ∈ parser.Globals, isConfigOption e.1 = false) :
    parser.extractYayOptions config oO oG =
      { parser := parser,
        config := { config with AURURL := TrimRight config.AURURL },
        rpcAURURL := TrimRight config.AURURL ++ "/rpc.php?" } := by
  unfold Arguments.extractYayOptions
  have h1 : extractLoop (oO.visit parser.Options) config parser = (config, parser) :=
    extractLoop_noop _ _ _ (fun e he => hO e ((oO.perm _).mem_iff.1 he))
  simp only [h1]
  have h2 : extractLoop (oG.visit parser.Globals) config parser = (config, parser) :=
    extractLoop_noop _ _ _ (fun e he => hG e ((oG.perm _).mem_iff.1 he))
  simp only [h2]

theorem ParseCommandLine_of_loop_err (parser p1 : Arguments) (config : Configuration)
    (os : Process) (oO oG : RangeOrder) (err : Error)
    (h : parser.parseArgs os.Args = (p1, some err)) :
    parser.ParseCommandLine config os oO oG =
      { parser := p1, config := config, rpcAURURL := none, err := some err } := by
  simp only [Arguments.ParseCommandLine, h]

theorem ParseCommandLine_of_no_stdin (parser p1 : Arguments) (config : Configuration)
    (os : Process) (oO oG : RangeOrder)
    (h : parser.parseArgs os.Args = (p1, none))
    (hx : (defaultOp p1).ExistsArg ["-"] = false) :
    parser.ParseCommandLine config os oO oG =
      { parser := ((defaultOp p1).extractYayOptions config oO oG).parser,
        config := ((defaultOp p1).extractYayOptions config oO oG).config,
        rpcAURURL := some ((defaultOp p1).extractYayOptions config oO oG).rpcAURURL,
        err := none } := by
  unfold defaultOp at hx
  simp only [Arguments.ParseCommandLine, h, hx, defaultOp]
  simp

theorem ParseCommandLine_of_stdin (parser p1 : Arguments) (config : Configuration)
    (os : Process) (oO oG : RangeOrder)
    (h : parser.parseArgs os.Args = (p1, none))
    (hx : (defaultOp p1).ExistsArg ["-"] = true)
    (hc : os.StdinClose = none) (ht : os.OpenTty = none) :
    parser.ParseCommandLine config os oO oG =
      { parser := ((((defaultOp p1).parseStdin os).1.DelArg ["-"]).extractYayOptions
          config oO oG).parser,
        config := ((((defaultOp p1).parseStdin os).1.DelArg ["-"]).extractYayOptions
          config oO oG).config,
        rpcAURURL := some ((((defaultOp p1).parseStdin os).1.DelArg ["-"]).extractYayOptions
          config oO oG).rpcAURURL,
        err := none } := by
  unfold defaultOp at hx
  simp only [Arguments.ParseCommandLine, h, hx, defaultOp, Arguments.parseStdin, hc, ht]
  simp

/-- C10: the classification tables are consistent: no name is both an operation
and a global flag, and every operation, global or value-taking name is accepted
by the master validity predicate `isArg`. -/
theorem classification_tables_consistent (s : String) :
    ¬ (isOp s = true ∧ isGlobal s = true) ∧
    (isOp s = true → isArg s = true) ∧
    (isGlobal s = true → isArg s = true) ∧
    (hasParam s = true → isArg s = true) := by
  have h1 : ∀ x ∈ isOpCases, x ∉ isGlobalCases ∧ x ∈ isArgCases := by decide
  have h2 : ∀ x ∈ isGlobalCases, x ∈ isArgCases := by decide
  have h3 : ∀ x ∈ hasParamCases, x ∈ isArgCases := by decide
  simp only [isOp, isGlobal, isArg, hasParam, decide_eq_true_eq]
  exact ⟨fun h => (h1 s h.1).1 h.2, fun h => (h1 s h).2, h2 s, h3 s⟩

/-- C4: parsing the empty argument vector gives the same outcome as parsing the
one-token vector `-Syu`: the operation is `S`, `Options` holds exactly `y` and
`u` with one empty value each, `Globals` and `Targets` are empty. -/
theorem empty_vector_parses_as_Syu (config : Configuration) (lines : List String)
    (closeErr ttyErr : Maybe Error) (oO oG : RangeOrder) :
    MakeArguments.ParseCommandLine config
        { Args := [], StdinLines := lines, StdinClose := closeErr, OpenTty := ttyErr } oO oG =
      MakeArguments.ParseCommandLine config
        { Args := ["-Syu"], StdinLines := lines, StdinClose := closeErr, OpenTty := ttyErr } oO oG ∧
    (MakeArguments.ParseCommandLine config
        { Args := [], StdinLines := lines, StdinClose := closeErr, OpenTty := ttyErr } oO oG).err
      = none ∧
    (MakeArguments.ParseCommandLine config
        { Args := [], StdinLines := lines, StdinClose := closeErr, OpenTty := ttyErr } oO oG).parser
      = { Op := "S",
          Options := [("y", { Args := [""] }), ("u", { Args := [""] })],
          Globals := [],
          Targets := [] } := by
  have h0 : MakeArguments.parseArgs [] =
      ({ Op := "S", Options := [("y", { Args := [""] }), ("u", { Args := [""] })],
         Globals := [], Targets := [] }, none) := by decide
  have h1 : MakeArguments.parseArgs ["-Syu"] =
      ({ Op := "S", Options := [("y", { Args := [""] }), ("u", { Args := [""] })],
         Globals := [], Targets := [] }, none) := by decide
  have hx : (defaultOp
      { Op := "S", Options := [("y", { Args := [""] }), ("u", { Args := [""] })],
        Globals := [], Targets := [] }).ExistsArg ["-"] = false := by decide
  have hd : defaultOp
      { Op := "S", Options := [("y", { Args := [""] }), ("u", { Args := [""] })],
        Globals := [], Targets := [] } =
      { Op := "S", Options := [("y", { Args := [""] }), ("u", { Args := [""] })],
        Globals := [], Targets := [] } := by decide
  have hO : ∀ e ∈ [(("y", { Args := [""] }) : String × Option), ("u", { Args := [""] })],
      isConfigOption e.1 = false := by decide
  rw [ParseCommandLine_of_no_stdin _ _ _ _ _ _ h0 hx,
    ParseCommandLine_of_no_stdin _ _ _ _ _ _ h1 hx, hd,
    extractYayOptions_noop _ _ _ _ hO (by simp)]
  exact ⟨rfl, rfl, rfl⟩

/-! ## Registering flags -/

theorem addParam_option (parser : Arguments) (option arg : String)
    (h1 : isArg option = true) (h2 : isOp option = false) (h3 : isGlobal option = false) :
    parser.addParam option arg =
      ({ parser with Options := parser.Options.add option arg }, none) := by
  simp [Arguments.addParam, h1, h2, h3]

theorem addParam_global (parser : Arguments) (option arg : String)
    (h1 : isArg option = true) (h2 : isOp option = false) (h3 : isGlobal option = true) :
    parser.addParam option arg =
      ({ parser with Globals := parser.Globals.add option arg }, none) := by
  simp [Arguments.addParam, h1, h2, h3]

theorem addParam_op (parser : Arguments) (option arg : String) (h2 : isOp option = true) :
    parser.addParam option arg = parser.addOP option := by
  have h1 : isArg option = true := by
    have h : ∀ x ∈ isOpCases, x ∈ isArgCases := by decide
    simp only [isOp, isArg, decide_eq_true_eq] at h2 ⊢
    exact h _ h2
  simp [Arguments.addParam, h1, h2]

theorem addParam_invalid (parser : Arguments) (option arg : String) (h1 : isArg option = false) :
    parser.addParam option arg = (parser, some (errInvalidOption option)) := by
  simp [Arguments.addParam, h1]

theorem AddArg_single (parser : Arguments) (option : String) :
    parser.AddArg [option] = parser.addParam option "" := by
  unfold Arguments.AddArg
  rcases h : parser.addParam option "" with ⟨p1, _ | e⟩
  · simp [Arguments.AddArg]
  · simp

theorem OptionMap.add_nil (key arg : String) :
    OptionMap.add [] key arg = [(key, { Args := [arg] })] := by
  simp [OptionMap.add, OptionMap.get, Option.Add]

theorem OptionMap.add_single (key arg : String) (values : List String) :
    OptionMap.add [(key, { Args := values })] key arg = [(key, { Args := values ++ [arg] })] := by
  by_cases hv : values = []
  · subst hv
    simp [OptionMap.add, OptionMap.get, Option.Add, List.lookup]
  · simp [OptionMap.add, OptionMap.get, Option.Add, List.lookup, hv]

/-! ## Repeated switches in one bundle -/

theorem addParam_repeatedD (k : Nat) :
    (repeatedD k).addParam "d" "" = (repeatedD (k + 1), none) := by
  rw [addParam_option _ _ _ (by decide) (by decide) (by decide)]
  by_cases hk : k = 0
  · subst hk
    simp [repeatedD, OptionMap.add_nil]
  · simp [repeatedD, hk, OptionMap.add_single, List.replicate_succ']

theorem parseShortLoop_repeatedD (param : String) (n k : Nat) :
    parseShortLoop param (repeatedD k) (List.replicate n 'd') =
      { parser := repeatedD (k + n), usedNext := false, err := none } := by
  induction n generalizing k with
  | zero => simp [parseShortLoop]
  | succ n ih =>
    have hs : String.singleton 'd' = "d" := rfl
    have hp : hasParam "d" = false := by decide
    simp only [List.replicate_succ, parseShortLoop, hs, hp, AddArg_single, addParam_repeatedD]
    simp only [Bool.false_eq_true, if_false]
    rw [ih (k + 1)]
    congr 2
    omega

/-! ## Reference serialization -/

theorem formatValues_eq (option fo : String) (args values : List String) :
    formatValues option fo args values =
      args ++ values.flatMap (fun value => if hasParam option then [fo, value] else [fo]) := by
  unfold formatValues
  induction values generalizing args with
  | nil => simp
  | cons v vs ih =>
    simp only [List.foldl_cons, List.flatMap_cons]
    rw [ih]
    split <;> simp

theorem len_pos_of_ne_empty (s : String) (h : s ≠ "") : 1 ≤ len s := by
  rcases s with ⟨l⟩
  cases l with
  | nil => exact absurd rfl h
  | cons c cs =>
    have hc := Char.utf8Size_pos c
    simp only [len, String.utf8ByteSize, String.utf8ByteSize.go]
    omega

theorem formatOp_eq (op : String) :
    formatOp op = if op ≠ "" then formatArg op else "" := by
  unfold formatOp formatArg
  by_cases h : op = ""
  · simp [h]
  · have := len_pos_of_ne_empty op h
    simp only [h, if_false, ne_eq, not_false_eq_true, if_true]
    by_cases h1 : len op = 1
    · simp [h1]
    · have h2 : len op > 1 := by omega
      simp [h1, h2]

theorem foldl_format_eq (entries : OptionMap) (args : List String) :
    entries.foldl
      (fun args e =>
        if e.1 = "--" then args
        else formatValues e.1 (formatArg e.1) args e.2.Args) args =
    args ++ (entries.filter (fun e => e.1 != "--")).flatMap (fun e => formatBlock e.1 e.2) := by
  induction entries generalizing args with
  | nil => simp
  | cons e es ih =>
    simp only [List.foldl_cons]
    rw [ih]
    by_cases h : e.1 = "--"
    · simp [h, List.filter_cons]
    · simp [h, List.filter_cons, formatValues_eq, formatBlock]

theorem FormatArgs_eq (parser : Arguments) (order : RangeOrder) :
    parser.FormatArgs order = formatArgsSpec parser.Op (order.visit parser.Options) := by
  unfold Arguments.FormatArgs formatArgsSpec
  simp only [foldl_format_eq, formatOp_eq]
  simp

theorem FormatGlobals_eq (parser : Arguments) (order : RangeOrder) :
    parser.FormatGlobals order = formatGlobalsSpec (order.visit parser.Globals) := by
  unfold Arguments.FormatGlobals formatGlobalsSpec
  generalize order.visit parser.Globals = entries
  suffices h : ∀ args : List String,
      entries.foldl (fun args e => formatValues e.1 (formatArg e.1) args e.2.Args) args =
        args ++ entries.flatMap (fun e => formatBlock e.1 e.2) by
    simpa using h []
  induction entries with
  | nil => simp
  | cons e es ih =>
    intro args
    simp only [List.foldl_cons]
    rw [ih]
    simp [formatValues_eq, formatBlock]

theorem formatBlock_switch (option : String) (o : Option) (h : hasParam option = false) :
    formatBlock option o = List.replicate o.Args.length (formatArg option) := by
  unfold formatBlock
  simp only [h, Bool.false_eq_true, if_false]
  induction o.Args with
  | nil => rfl
  | cons v vs ih => simp [List.replicate_succ, ih]

/-! ## C5 -/

theorem String_mk_ne_dash (c : Char) (cs : List Char) : String.mk ('-' :: c :: cs) ≠ "-" := by
  intro h
  have := congrArg String.data h
  simp at this

theorem parseArgs_repeatedD (n : Nat) (hn : 1 ≤ n) :
    MakeArguments.parseArgs [String.mk ('-' :: List.replicate n 'd')] = (repeatedD n, none) := by
  obtain ⟨m, rfl⟩ : ∃ m, n = m + 1 := ⟨n - 1, by omega⟩
  have hx : MakeArguments.ExistsArg ["--"] = false := by decide
  have h1 : HasPrefix (String.mk ('-' :: List.replicate (m + 1) 'd')) "--" = false := by
    simp [HasPrefix, List.replicate_succ, List.isPrefixOf]
  have h2 : HasPrefix (String.mk ('-' :: List.replicate (m + 1) 'd')) "-" = true := by
    simp [HasPrefix, List.isPrefixOf]
  have h3 : String.mk ('-' :: List.replicate (m + 1) 'd') ≠ "-" := by
    rw [List.replicate_succ]; exact String_mk_ne_dash _ _
  have h4 : MakeArguments = repeatedD 0 := rfl
  simp only [Arguments.parseArgs, List.length_singleton, Nat.lt_irrefl, if_false, parseLoop,
    Bool.false_eq_true, parseToken, hx, h1, h2, if_true, Arguments.parseShortOption, h3,
    sliceFrom, List.drop_one, List.tail_cons]
  rw [h4, parseShortLoop_repeatedD]
  simp [parseLoop]

/-- C5: a switch repeated in one bundle accumulates: for every `n ≥ 1` the
token `-d…d` (`n` times `d`) parses without error to an `Options` map whose only
entry is `d` with exactly `n` empty values, and `FormatArgs` of the result, in
whatever order the map is visited, contains the token `-d` exactly `n` times. -/
theorem repeated_switch_accumulates (n : Nat) (hn : 1 ≤ n) (config : Configuration)
    (lines : List String) (closeErr ttyErr : Maybe Error) (oO oG oF : RangeOrder) :
    (MakeArguments.ParseCommandLine config
        { Args := [String.mk ('-' :: List.replicate n 'd')], StdinLines := lines,
          StdinClose := closeErr, OpenTty := ttyErr } oO oG).err = none ∧
    (MakeArguments.ParseCommandLine config
        { Args := [String.mk ('-' :: List.replicate n 'd')], StdinLines := lines,
          StdinClose := closeErr, OpenTty := ttyErr } oO oG).parser.Options
      = [("d", { Args := List.replicate n "" })] ∧
    ((MakeArguments.ParseCommandLine config
        { Args := [String.mk ('-' :: List.replicate n 'd')], StdinLines := lines,
          StdinClose := closeErr, OpenTty := ttyErr } oO oG).parser.FormatArgs oF).count "-d"
      = n := by
  have hn0 : n ≠ 0 := by omega
  have hd : defaultOp (repeatedD n) =
      { Op := "Y", Options := [("d", { Args := List.replicate n "" })], Globals := [],
        Targets := [] } := by
    simp [defaultOp, repeatedD, hn0]
  have hx : (defaultOp (repeatedD n)).ExistsArg ["-"] = false := by
    rw [hd]
    simp [Arguments.ExistsArg, OptionMap.has, OptionMap.get, List.lookup]
  rw [ParseCommandLine_of_no_stdin _ _ _ _ _ _ (parseArgs_repeatedD n hn) hx, hd,
    extractYayOptions_noop _ _ _ _ (by simp; decide) (by simp)]
  refine ⟨rfl, rfl, ?_⟩
  have hv : oF.visit [("d", ({ Args := List.replicate n "" } : Option))] =
      [("d", { Args := List.replicate n "" })] := by
    simpa using oF.perm [("d", ({ Args := List.replicate n "" } : Option))]
  have hp : hasParam "d" = false := by decide
  have hf : formatArg "d" = "-d" := by decide
  have hne : ("d" != "--") = true := by decide
  have ho : formatOp "Y" = "-Y" := by decide
  simp only [FormatArgs_eq, formatArgsSpec, hv, List.filter_cons, hne, if_true, List.filter_nil,
    List.flatMap_cons, List.flatMap_nil, List.append_nil, formatBlock_switch _ _ hp, hf, ho,
    List.length_replicate, List.count_cons, List.count_replicate_self]
  simp

/-- Witness of C5 at `n = 2`: the bundle `-dd`. -/
theorem repeated_switch_accumulates_witness :
    (1 ≤ 2) ∧
    (MakeArguments.ParseCommandLine blankConfiguration
        { Args := ["-dd"], StdinLines := [], StdinClose := none, OpenTty := none }
        RangeOrder.inOrder RangeOrder.inOrder).err = none ∧
    (MakeArguments.ParseCommandLine blankConfiguration
        { Args := ["-dd"], StdinLines := [], StdinClose := none, OpenTty := none }
        RangeOrder.inOrder RangeOrder.inOrder).parser.Options
      = [("d", { Args := ["", ""] })] ∧
    ((MakeArguments.ParseCommandLine blankConfiguration
        { Args := ["-dd"], StdinLines := [], StdinClose := none, OpenTty := none }
        RangeOrder.inOrder RangeOrder.inOrder).parser.FormatArgs RangeOrder.backwards).count "-d"
      = 2 :=
  ⟨by decide,
   repeated_switch_accumulates 2 (by decide) blankConfiguration [] none none RangeOrder.inOrder
      RangeOrder.inOrder RangeOrder.backwards⟩

/-! ## C6 -/

theorem addParam_b_fresh (value : String) :
    MakeArguments.addParam "b" value =
      ({ Op := "", Options := [], Globals := [("b", { Args := [value] })], Targets := [] },
        none) := by
  rw [addParam_global _ _ _ (by decide) (by decide) (by decide)]
  simp [MakeArguments, OptionMap.add_nil]

theorem parseArgs_glued_b (v : String) :
    MakeArguments.parseArgs ["-b" ++ v] =
      ({ Op := "", Options := [], Globals := [("b", { Args := [v] })], Targets := [] },
        none) := by
  rcases v with ⟨l⟩
  have he : ("-b" : String) ++ String.mk l = String.mk ('-' :: 'b' :: l) := rfl
  have hx : MakeArguments.ExistsArg ["--"] = false := by decide
  have h1 : HasPrefix (String.mk ('-' :: 'b' :: l)) "--" = false := by
    simp [HasPrefix, List.isPrefixOf]
  have h2 : HasPrefix (String.mk ('-' :: 'b' :: l)) "-" = true := by
    simp [HasPrefix, List.isPrefixOf]
  have hs : String.singleton 'b' = "b" := rfl
  have hp : hasParam "b" = true := by decide
  simp only [he, Arguments.parseArgs, List.length_singleton, Nat.lt_irrefl, if_false, parseLoop,
    Bool.false_eq_true, parseToken, hx, h1, h2, if_true, Arguments.parseShortOption,
    String_mk_ne_dash, sliceFrom, List.drop_one, List.tail_cons, parseShortLoop, hs, hp,
    addParam_b_fresh, List.headD_nil]
  by_cases hl : l = []
  · subst hl
    simp [parseLoop]
  · simp [hl, parseLoop]

theorem parseArgs_separate_b (v : String) :
    MakeArguments.parseArgs ["-b", v] =
      ({ Op := "", Options := [], Globals := [("b", { Args := [v] })], Targets := [] },
        none) := by
  have hx : MakeArguments.ExistsArg ["--"] = false := by decide
  have h1 : HasPrefix "-b" "--" = false := by decide
  have h2 : HasPrefix "-b" "-" = true := by decide
  have h3 : ("-b" : String) ≠ "-" := by decide
  have h4 : (sliceFrom "-b" 1).data = ['b'] := by decide
  have hs : String.singleton 'b' = "b" := rfl
  have hp : hasParam "b" = true := by decide
  simp [Arguments.parseArgs, parseLoop, parseToken, hx, h1, h2, Arguments.parseShortOption, h3,
    h4, parseShortLoop, hs, hp, addParam_b_fresh]

/-- C6: a short-option value glued to its flag and the same value given as the
next token are equivalent: for every value `v` (in particular every non-empty
one) the vectors `["-b" ++ v]` and `["-b", v]` have the same outcome, without
error, in which the only flag is `b` in `Globals` with the single value `v`,
and `Options` and `Targets` are empty. -/
theorem glued_and_separate_value_agree (v : String) (config : Configuration)
    (lines : List String) (closeErr ttyErr : Maybe Error) (oO oG : RangeOrder) :
    MakeArguments.ParseCommandLine config
        { Args := ["-b" ++ v], StdinLines := lines, StdinClose := closeErr, OpenTty := ttyErr }
        oO oG =
      MakeArguments.ParseCommandLine config
        { Args := ["-b", v], StdinLines := lines, StdinClose := closeErr, OpenTty := ttyErr }
        oO oG ∧
    (MakeArguments.ParseCommandLine config
        { Args := ["-b" ++ v], StdinLines := lines, StdinClose := closeErr, OpenTty := ttyErr }
        oO oG).err = none ∧
    (MakeArguments.ParseCommandLine config
        { Args := ["-b" ++ v], StdinLines := lines, StdinClose := closeErr, OpenTty := ttyErr }
        oO oG).parser =
      { Op := "Y", Options := [], Globals := [("b", { Args := [v] })], Targets := [] } := by
  have hd : defaultOp
      { Op := "", Options := [], Globals := [("b", { Args := [v] })], Targets := [] } =
      { Op := "Y", Options := [], Globals := [("b", { Args := [v] })], Targets := [] } := by
    simp [defaultOp]
  have hx : (defaultOp
      { Op := "", Options := [], Globals := [("b", { Args := [v] })], Targets := [] }).ExistsArg
        ["-"] = false := by
    rw [hd]
    simp [Arguments.ExistsArg, OptionMap.has, OptionMap.get, List.lookup]
  rw [ParseCommandLine_of_no_stdin _ _ _ _ _ _ (parseArgs_glued_b v) hx,
    ParseCommandLine_of_no_stdin _ _ _ _ _ _ (parseArgs_separate_b v) hx, hd,
    extractYayOptions_noop _ _ _ _ (by simp) (by simp; decide)]
  exact ⟨rfl, rfl, rfl⟩

/-! ## Keys of a map -/

theorem OptionMap.get_eq_none_iff (m : OptionMap) (key : String) :
    m.get key = none ↔ key ∉ m.keys := by
  unfold OptionMap.get OptionMap.keys
  induction m with
  | nil => simp
  | cons e es ih =>
    rcases e with ⟨k, o⟩
    by_cases h : key = k
    · subst h; simp [List.lookup]
    · have h2 : (key == k) = false := by simpa using h
      simp [List.lookup, h2, ih, h]

theorem OptionMap.has_iff (m : OptionMap) (key : String) :
    m.has key = true ↔ key ∈ m.keys := by
  have h := OptionMap.get_eq_none_iff m key
  unfold OptionMap.has
  cases hg : m.get key with
  | none => simpa [hg] using h
  | some o =>
    rw [hg] at h
    simp only [reduceCtorEq, false_iff, not_not] at h
    simpa using h

theorem OptionMap.keys_add (m : OptionMap) (key arg : String) :
    (m.add key arg).keys = if key ∈ m.keys then m.keys else m.keys ++ [key] := by
  unfold OptionMap.add
  have hk : ∀ l : OptionMap,
      OptionMap.keys (l.map (fun e => if e.1 = key then (e.1, e.2.Add arg) else e)) = l.keys := by
    intro l
    unfold OptionMap.keys
    rw [List.map_map]
    apply List.map_congr_left
    intro e _
    simp only [Function.comp]
    split <;> rfl
  simp only [hk]
  by_cases h : key ∈ m.keys
  · have : m.get key ≠ none := by rwa [Ne, OptionMap.get_eq_none_iff, not_not]
    rw [if_pos h]
    cases hg : m.get key with
    | none => exact absurd hg this
    | some o => simp
  · have : m.get key = none := by rwa [OptionMap.get_eq_none_iff]
    rw [if_neg h]
    simp [this, OptionMap.keys]

theorem OptionMap.mem_keys_add (m : OptionMap) (key arg k : String) :
    k ∈ (m.add key arg).keys ↔ k = key ∨ k ∈ m.keys := by
  rw [OptionMap.keys_add]
  by_cases h : key ∈ m.keys
  · simp only [h, if_true]
    constructor
    · exact Or.inr
    · rintro (rfl | h2)
      · exact h
      · exact h2
  · simp only [h, if_false, List.mem_append, List.mem_singleton]
    tauto

theorem OptionMap.keys_delete (m : OptionMap) (key : String) :
    (m.delete key).keys = m.keys.filter (fun k => k != key) := by
  unfold OptionMap.delete OptionMap.keys
  induction m with
  | nil => rfl
  | cons e es ih =>
    by_cases h : e.1 = key
    · simp [List.filter_cons, h, ih]
    · simp [List.filter_cons, h, ih]

theorem ExistsArg_single (parser : Arguments) (key : String) :
    parser.ExistsArg [key] = true ↔ key ∈ parser.Options.keys ∨ key ∈ parser.Globals.keys := by
  simp only [Arguments.ExistsArg]
  rw [← OptionMap.has_iff, ← OptionMap.has_iff]
  cases parser.Options.has key <;> cases parser.Globals.has key <;> simp

/-- What `addParam` may change: at most one key is added, the key registered. -/
theorem addParam_keys (parser : Arguments) (option arg k : String)
    (h : k ∈ (parser.addParam option arg).1.Options.keys ∨
      k ∈ (parser.addParam option arg).1.Globals.keys) :
    k = option ∨ k ∈ parser.Options.keys ∨ k ∈ parser.Globals.keys := by
  unfold Arguments.addParam Arguments.addOP at h
  split at h
  · exact Or.inr h
  · split at h
    · split at h
      · exact Or.inr h
      · exact Or.inr h
    · split at h
      · rcases h with h | h
        · exact Or.inr (Or.inl h)
        · rcases (OptionMap.mem_keys_add _ _ _ _).1 h with h | h
          · exact Or.inl h
          · exact Or.inr (Or.inr h)
      · rcases h with h | h
        · rcases (OptionMap.mem_keys_add _ _ _ _).1 h with h | h
          · exact Or.inl h
          · exact Or.inr (Or.inl h)
        · exact Or.inr (Or.inr h)

theorem parseShortLoop_keys (param : String) (chars : List Char) (parser : Arguments)
    (k : String)
    (h : k ∈ (parseShortLoop param parser chars).parser.Options.keys ∨
      k ∈ (parseShortLoop param parser chars).parser.Globals.keys) :
    (∃ c, k = String.singleton c) ∨ k ∈ parser.Options.keys ∨ k ∈ parser.Globals.keys := by
  induction chars generalizing parser with
  | nil => exact Or.inr h
  | cons c rest ih =>
    unfold parseShortLoop at h
    simp only at h
    split at h
    · split at h
      · rcases addParam_keys _ _ _ _ h with h | h
        · exact Or.inl ⟨c, h⟩
        · exact Or.inr h
      · rcases addParam_keys _ _ _ _ h with h | h
        · exact Or.inl ⟨c, h⟩
        · exact Or.inr h
    · rw [AddArg_single] at h
      rcases hr : parser.addParam (String.singleton c) "" with ⟨p1, _ | e⟩
      · rw [hr] at h
        simp only at h
        rcases ih p1 h with h | h
        · exact Or.inl h
        · have : p1 = (parser.addParam (String.singleton c) "").1 := by rw [hr]
          rw [this] at h
          rcases addParam_keys _ _ _ _ h with h | h
          · exact Or.inl ⟨c, h⟩
          · exact Or.inr h
      · rw [hr] at h
        simp only at h
        have : p1 = (parser.addParam (String.singleton c) "").1 := by rw [hr]
        rw [this] at h
        rcases addParam_keys _ _ _ _ h with h | h
        · exact Or.inl ⟨c, h⟩
        · exact Or.inr h

theorem singleton_ne_separator (c : Char) : ("--" : String) ≠ String.singleton c := by
  intro h
  have := congrArg String.length h
  simp [String.singleton, String.length] at this

/-- A token that consumes its lookahead does not record the separator. -/
theorem parseToken_usedNext (parser : Arguments) (arg nextArg : String)
    (h1 : (parseToken parser arg nextArg).parser.ExistsArg ["--"] = true) :
    (parseToken parser arg nextArg).usedNext = false := by
  by_contra hu
  have hu : (parseToken parser arg nextArg).usedNext = true := by simpa using hu
  rw [ExistsArg_single] at h1
  have hp : hasParam "--" = false := by decide
  by_cases hx : parser.ExistsArg ["--"] = true
  · simp [parseToken, hx] at hu
  · have hx2 : ¬ ("--" ∈ parser.Options.keys ∨ "--" ∈ parser.Globals.keys) := by
      rw [← ExistsArg_single]; exact hx
    by_cases hl : HasPrefix arg "--" = true
    · simp only [parseToken, hx, hl, if_true, if_false, Bool.false_eq_true] at h1 hu
      unfold Arguments.parseLongOption at h1 hu
      by_cases ha : arg = "--"
      · simp [ha] at hu
      · simp only [ha, if_false] at h1 hu
        split at hu
        · simp at hu
        · rename_i hsp
          by_cases hpar : hasParam (sliceFrom arg 2) = true
          · split at h1
            · rename_i name value hsp2
              exact hsp name value hsp2
            · simp only [hpar, if_true] at h1
              rcases addParam_keys _ _ _ _ h1 with h | h
              · rw [← h, hp] at hpar; simp at hpar
              · exact hx2 h
          · simp [hpar] at hu
    · by_cases hs : HasPrefix arg "-" = true
      · simp only [parseToken, hx, hl, hs, if_true, if_false, Bool.false_eq_true] at h1 hu
        unfold Arguments.parseShortOption at h1 hu
        by_cases ha : arg = "-"
        · simp [ha] at hu
        · simp only [ha, if_false] at h1
          rcases parseShortLoop_keys _ _ _ _ h1 with ⟨c, h⟩ | h
          · exact singleton_ne_separator c h
          · exact hx2 h
      · simp [parseToken, hx, hl, hs] at hu

theorem parseLoop_frozen (parser : Arguments) (rest : List String)
    (h : parser.ExistsArg ["--"] = true) :
    parseLoop parser false rest = ({ parser with Targets := parser.Targets ++ rest }, none) := by
  induction rest generalizing parser with
  | nil => simp [parseLoop]
  | cons t ts ih =>
    have h2 : (parser.AddTarget [t]).ExistsArg ["--"] = true := by
      simpa [Arguments.AddTarget, Arguments.ExistsArg] using h
    simp only [parseLoop, Bool.false_eq_true, if_false, parseToken, h, if_true]
    rw [ih _ h2]
    simp [Arguments.AddTarget]

/-- C3: once the separator `--` is recorded, every later token is a target.
If the loop processes the token `arg` in any state and, after that token,
`--` is a recorded flag (it was recorded by `arg` or before), then the loop
ends without error and every token after `arg`, whatever it looks like, is
appended to `Targets` in order, leaving `Op`, `Options` and `Globals` as they
were after `arg`.  For the vector `["--", "-notaflag", "pkg"]` the targets are
`["-notaflag", "pkg"]` and the only flag is `--`. -/
theorem separator_freezes_targets :
    (∀ (parser : Arguments) (arg : String) (rest : List String),
      (parseToken parser arg (rest.headD "")).err = none →
      (parseToken parser arg (rest.headD "")).parser.ExistsArg ["--"] = true →
      parseLoop parser false (arg :: rest) =
        ({ Op := (parseToken parser arg (rest.headD "")).parser.Op,
           Options := (parseToken parser arg (rest.headD "")).parser.Options,
           Globals := (parseToken parser arg (rest.headD "")).parser.Globals,
           Targets := (parseToken parser arg (rest.headD "")).parser.Targets ++ rest }, none)) ∧
    (∀ (config : Configuration) (lines : List String) (closeErr ttyErr : Maybe Error)
      (oO oG : RangeOrder),
      (MakeArguments.ParseCommandLine config
          { Args := ["--", "-notaflag", "pkg"], StdinLines := lines, StdinClose := closeErr,
            OpenTty := ttyErr } oO oG).err = none ∧
      (MakeArguments.ParseCommandLine config
          { Args := ["--", "-notaflag", "pkg"], StdinLines := lines, StdinClose := closeErr,
            OpenTty := ttyErr } oO oG).parser =
        { Op := "Y", Options := [("--", { Args := [""] })], Globals := [],
          Targets := ["-notaflag", "pkg"] }) := by
  constructor
  · intro parser arg rest herr hsep
    have hu := parseToken_usedNext parser arg (rest.headD "") hsep
    simp only [parseLoop, Bool.false_eq_true, if_false, herr, hu]
    rw [parseLoop_frozen _ _ hsep]
  · intro config lines closeErr ttyErr oO oG
    have h0 : MakeArguments.parseArgs ["--", "-notaflag", "pkg"] =
        ({ Op := "", Options := [("--", { Args := [""] })], Globals := [],
           Targets := ["-notaflag", "pkg"] }, none) := by decide
    have hd : defaultOp
        { Op := "", Options := [("--", { Args := [""] })], Globals := [],
          Targets := ["-notaflag", "pkg"] } =
        { Op := "Y", Options := [("--", { Args := [""] })], Globals := [],
          Targets := ["-notaflag", "pkg"] } := by decide
    have hx : (defaultOp
        { Op := "", Options := [("--", { Args := [""] })], Globals := [],
          Targets := ["-notaflag", "pkg"] }).ExistsArg ["-"] = false := by decide
    rw [ParseCommandLine_of_no_stdin _ _ _ _ _ _ h0 hx, hd,
      extractYayOptions_noop _ _ _ _ (by decide) (by simp)]
    exact ⟨rfl, rfl⟩

/-! ## Operations in a bundle -/

theorem hasParam_valid (k : String) (h : hasParam k = true) :
    isArg k = true ∧ isOp k = false := by
  have h1 : ∀ x ∈ hasParamCases, x ∈ isArgCases ∧ x ∉ isOpCases := by decide
  simp only [hasParam, isArg, isOp, decide_eq_true_eq, decide_eq_false_iff_not] at h ⊢
  exact h1 k h

theorem addParam_not_op (parser : Arguments) (option arg : String)
    (h1 : isArg option = true) (h2 : isOp option = false) :
    (parser.addParam option arg).2 = none ∧ (parser.addParam option arg).1.Op = parser.Op := by
  by_cases h3 : isGlobal option = true
  · rw [addParam_global _ _ _ h1 h2 h3]; exact ⟨rfl, rfl⟩
  · rw [addParam_option _ _ _ h1 h2 (by simpa using h3)]; exact ⟨rfl, rfl⟩

theorem bundleFlags_cons_param (c : Char) (rest : List Char)
    (h : hasParam (String.singleton c) = true) : bundleFlags (c :: rest) = [] := by
  simp [bundleFlags, List.takeWhile_cons, h]

theorem bundleFlags_cons_flag (c : Char) (rest : List Char)
    (h : hasParam (String.singleton c) = false) :
    bundleFlags (c :: rest) = c :: bundleFlags rest := by
  simp [bundleFlags, List.takeWhile_cons, h]

/-- The bundle loop when the operation is already set. -/
theorem parseShortLoop_op_set (param : String) (chars : List Char) (parser : Arguments)
    (hop : parser.Op ≠ "")
    (hvalid : ∀ c ∈ bundleFlags chars, isArg (String.singleton c) = true) :
    (opCount (bundleFlags chars) = 0 →
      (parseShortLoop param parser chars).err = none ∧
      (parseShortLoop param parser chars).parser.Op = parser.Op) ∧
    (1 ≤ opCount (bundleFlags chars) →
      (parseShortLoop param parser chars).err = some errOnlyOneOperation) := by
  induction chars generalizing parser with
  | nil => simp [parseShortLoop, bundleFlags, opCount]
  | cons c rest ih =>
    by_cases hp : hasParam (String.singleton c) = true
    · have hv := hasParam_valid _ hp
      rw [bundleFlags_cons_param c rest hp]
      simp only [opCount, List.countP_nil, Nat.le_zero_eq, Nat.one_ne_zero, false_implies,
        and_true, true_implies]
      unfold parseShortLoop
      simp only [hp, if_true]
      split
      · exact addParam_not_op _ _ _ hv.1 hv.2
      · exact addParam_not_op _ _ _ hv.1 hv.2
    · have hp : hasParam (String.singleton c) = false := by simpa using hp
      rw [bundleFlags_cons_flag c rest hp] at hvalid ⊢
      have hc := hvalid c (List.mem_cons_self _ _)
      have hrest : ∀ d ∈ bundleFlags rest, isArg (String.singleton d) = true :=
        fun d hd => hvalid d (List.mem_cons_of_mem _ hd)
      unfold parseShortLoop
      simp only [hp, Bool.false_eq_true, if_false, AddArg_single]
      by_cases ho : isOp (String.singleton c) = true
      · have : parser.addParam (String.singleton c) "" = (parser, some errOnlyOneOperation) := by
          rw [addParam_op _ _ _ ho]
          simp [Arguments.addOP, hop]
        simp [this, opCount, List.countP_cons, ho]
      · have ho : isOp (String.singleton c) = false := by simpa using ho
        have ha := addParam_not_op parser (String.singleton c) "" hc ho
        rcases hr : parser.addParam (String.singleton c) "" with ⟨p1, e⟩
        rw [hr] at ha
        simp only at ha
        obtain ⟨he, hop1⟩ := ha
        subst he
        simp only [opCount, List.countP_cons, ho, Bool.false_eq_true, if_false, Nat.add_zero]
        have := ih p1 (by rw [hop1]; exact hop) hrest
        rw [hop1] at this
        exact this

/-- The bundle loop when no operation is set yet. -/
theorem parseShortLoop_op_unset (param : String) (chars : List Char) (parser : Arguments)
    (hop : parser.Op = "")
    (hvalid : ∀ c ∈ bundleFlags chars, isArg (String.singleton c) = true) :
    (opCount (bundleFlags chars) = 1 →
      (parseShortLoop param parser chars).err = none ∧
      ∃ c ∈ bundleFlags chars, isOp (String.singleton c) = true ∧
        (parseShortLoop param parser chars).parser.Op = String.singleton c) ∧
    (2 ≤ opCount (bundleFlags chars) →
      (parseShortLoop param parser chars).err = some errOnlyOneOperation) := by
  induction chars generalizing parser with
  | nil => simp [bundleFlags, opCount]
  | cons c rest ih =>
    by_cases hp : hasParam (String.singleton c) = true
    · rw [bundleFlags_cons_param c rest hp]
      simp [opCount]
    · have hp : hasParam (String.singleton c) = false := by simpa using hp
      rw [bundleFlags_cons_flag c rest hp] at hvalid ⊢
      have hc := hvalid c (List.mem_cons_self _ _)
      have hrest : ∀ d ∈ bundleFlags rest, isArg (String.singleton d) = true :=
        fun d hd => hvalid d (List.mem_cons_of_mem _ hd)
      unfold parseShortLoop
      simp only [hp, Bool.false_eq_true, if_false, AddArg_single]
      by_cases ho : isOp (String.singleton c) = true
      · have hadd : parser.addParam (String.singleton c) "" =
            ({ parser with Op := String.singleton c }, none) := by
          rw [addParam_op _ _ _ ho]
          simp [Arguments.addOP, hop]
        have hne : ({ parser with Op := String.singleton c } : Arguments).Op ≠ "" := by
          intro h
          have := congrArg String.length h
          simp [String.singleton, String.length] at this
        have hset := parseShortLoop_op_set param rest _ hne hrest
        simp only [hadd, opCount, List.countP_cons, ho, if_true]
        constructor
        · intro h1
          have h0 : opCount (bundleFlags rest) = 0 := by
            unfold opCount; omega
          refine ⟨(hset.1 h0).1, c, List.mem_cons_self _ _, ho, ?_⟩
          rw [(hset.1 h0).2]
        · intro h2
          exact hset.2 (by unfold opCount; omega)
      · have ho : isOp (String.singleton c) = false := by simpa using ho
        have ha := addParam_not_op parser (String.singleton c) "" hc ho
        rcases hr : parser.addParam (String.singleton c) "" with ⟨p1, e⟩
        rw [hr] at ha
        simp only at ha
        obtain ⟨he, hop1⟩ := ha
        subst he
        simp only [opCount, List.countP_cons, ho, Bool.false_eq_true, if_false, Nat.add_zero]
        have := ih p1 (by rw [hop1]; exact hop) hrest
        refine ⟨fun h1 => ?_, this.2⟩
        obtain ⟨h3, d, hd, hd2, hd3⟩ := this.1 h1
        exact ⟨h3, d, List.mem_cons_of_mem _ hd, hd2, hd3⟩

/-- C2 as stated fails: the bundle `-S!` has exactly one operation character yet
parsing fails (invalid option), and the bundle `-bSQ` has two operation
characters yet parsing succeeds and sets no operation, since `b` takes the
rest of the token as its value. -/
theorem bundle_operation_rule_counterexample :
    (opCount "S!".data = 1 ∧
      (MakeArguments.parseShortOption "-S!" "").err = some "invalid option '!'") ∧
    (opCount "bSQ".data = 2 ∧
      (MakeArguments.parseShortOption "-bSQ" "").err = none ∧
      (MakeArguments.parseShortOption "-bSQ" "").parser =
        { Op := "", Options := [], Globals := [("b", { Args := ["SQ"] })], Targets := [] }) := by
  decide

/-- C2, amended: take a short-option bundle `-` followed by `chars`, parsed on
a fresh parser, and count only the characters parsed as flags (those before the
first value-taking character), all of them valid flag names.  If exactly one of
them is an operation, parsing succeeds and `Op` is that character; if two or
more are, parsing fails with the error "only one operation may be used at a
time". -/
theorem bundle_operation_rule (chars : List Char) (param : String)
    (hvalid : ∀ c ∈ bundleFlags chars, isArg (String.singleton c) = true) :
    (opCount (bundleFlags chars) = 1 →
      (MakeArguments.parseShortOption (String.mk ('-' :: chars)) param).err = none ∧
      ∃ c ∈ bundleFlags chars, isOp (String.singleton c) = true ∧
        (MakeArguments.parseShortOption (String.mk ('-' :: chars)) param).parser.Op =
          String.singleton c) ∧
    (2 ≤ opCount (bundleFlags chars) →
      (MakeArguments.parseShortOption (String.mk ('-' :: chars)) param).err =
        some "only one operation may be used at a time") := by
  cases chars with
  | nil => simp [bundleFlags, opCount]
  | cons c rest =>
    have h := parseShortLoop_op_unset param (c :: rest) MakeArguments rfl hvalid
    unfold Arguments.parseShortOption
    simp only [String_mk_ne_dash, if_false, sliceFrom, List.drop_one, List.tail_cons]
    exact h

/-- Witness of C2 (amended) at the bundles `-Syu` and `-SyQ`. -/
theorem bundle_operation_rule_witness :
    ((∀ c ∈ bundleFlags ['S', 'y', 'u'], isArg (String.singleton c) = true) ∧
      opCount (bundleFlags ['S', 'y', 'u']) = 1 ∧
      (MakeArguments.parseShortOption "-Syu" "").err = none) ∧
    ((∀ c ∈ bundleFlags ['S', 'y', 'Q'], isArg (String.singleton c) = true) ∧
      2 ≤ opCount (bundleFlags ['S', 'y', 'Q']) ∧
      (MakeArguments.parseShortOption "-SyQ" "").err =
        some "only one operation may be used at a time") :=
  ⟨⟨by decide, by decide,
    ((bundle_operation_rule ['S', 'y', 'u'] "" (by decide)).1 (by decide)).1⟩,
   ⟨by decide, by decide,
    (bundle_operation_rule ['S', 'y', 'Q'] "" (by decide)).2 (by decide)⟩⟩

/-! ## C8 -/

theorem len_eq_length_of_ascii (s : String) (h : ∀ c ∈ s.data, c.toNat < 128) :
    len s = s.length := by
  rcases s with ⟨l⟩
  simp only [len, String.utf8ByteSize, String.length]
  induction l with
  | nil => rfl
  | cons c cs ih =>
    have hc : c.utf8Size = 1 := by
      have h1 := h c (List.mem_cons_self _ _)
      unfold Char.utf8Size
      have : c.val ≤ UInt32.ofNatCore 127 (by decide) := by
        show c.val.toNat ≤ 127
        have : c.val.toNat = c.toNat := rfl
        omega
      rw [if_pos this]
    have ih2 := ih (fun d hd => h d (List.mem_cons_of_mem _ hd))
    simp only [String.utf8ByteSize.go, List.length_cons, hc]
    omega

theorem formatBlock_length (option : String) (o : Option) :
    (formatBlock option o).length = o.Args.length * (if hasParam option then 2 else 1) := by
  unfold formatBlock
  induction o.Args with
  | nil => simp
  | cons v vs ih =>
    simp only [List.flatMap_cons, List.length_append, ih, List.length_cons]
    split <;> simp <;> ring

/-- C8: `FormatArgs` is the reference serialization of `Op` and of the entries
of `Options` in the order the map is visited (some rearrangement of the
entries): the operation token (empty when `Op` is unset, `-x` for a one-byte
name, `--xxx` otherwise), then, for each entry other than `--`, the formatted
flag name once per recorded value, each followed by its value exactly when the
flag takes one; `FormatGlobals` is the same serialization of `Globals` without
the operation token.  A flag with `N` values yields `N` occurrences (`2 N`
tokens when it takes a value), for a name of ASCII characters one byte is one
character, and a `Globals` map that holds global flags only has no `--` entry
to leave out. -/
theorem format_is_reference_serialization (parser : Arguments) (order : RangeOrder) :
    parser.FormatArgs order = formatArgsSpec parser.Op (order.visit parser.Options) ∧
    (order.visit parser.Options).Perm parser.Options ∧
    parser.FormatGlobals order = formatGlobalsSpec (order.visit parser.Globals) ∧
    (order.visit parser.Globals).Perm parser.Globals ∧
    (∀ (option : String) (o : Option),
      (formatBlock option o).length = o.Args.length * (if hasParam option then 2 else 1) ∧
      (formatBlock option o).count (formatArg option) ≥ o.Args.length) ∧
    (∀ c : Char, c.toNat < 128 → formatOp (String.singleton c) = "-" ++ String.singleton c) ∧
    ((∀ e ∈ parser.Globals, isGlobal e.1 = true) →
      formatGlobalsSpec (order.visit parser.Globals) =
        ((order.visit parser.Globals).filter (fun e => e.1 != "--")).flatMap
          (fun e => formatBlock e.1 e.2)) := by
  refine ⟨FormatArgs_eq parser order, order.perm _, FormatGlobals_eq parser order, order.perm _,
    fun option o => ⟨formatBlock_length option o, ?_⟩, ?_, ?_⟩
  · unfold formatBlock
    induction o.Args with
    | nil => simp
    | cons v vs ih =>
      simp only [List.flatMap_cons, List.count_append, List.length_cons]
      have : List.count (formatArg option)
          (if hasParam option = true then [formatArg option, v] else [formatArg option]) ≥ 1 := by
        split <;> simp [List.count_cons]
      omega
  · intro c hc
    have h1 : len (String.singleton c) = 1 := by
      rw [len_eq_length_of_ascii]
      · rfl
      · intro d hd
        have : d = c := by simpa [String.singleton] using hd
        rw [this]; exact hc
    have h2 : String.singleton c ≠ "" := by
      intro h
      have := congrArg String.length h
      simp [String.singleton, String.length] at this
    simp [formatOp, h1, h2]
  · intro hg
    have hf : (order.visit parser.Globals).filter (fun e => e.1 != "--") =
        order.visit parser.Globals := by
      rw [List.filter_eq_self]
      intro e he
      have h1 := hg e ((order.perm _).mem_iff.1 he)
      have hne : e.1 ≠ "--" := by
        intro hh
        rw [hh] at h1
        revert h1
        decide
      simpa using hne
    rw [hf]
    rfl

/-! ## Deleting flags and the extraction loops -/

theorem OptionMap.mem_delete (m : OptionMap) (key : String) (e : String × Option) :
    e ∈ m.delete key ↔ e ∈ m ∧ e.1 ≠ key := by
  simp [OptionMap.delete]

theorem OptionMap.mem_keys_delete (m : OptionMap) (key k : String) :
    k ∈ (m.delete key).keys ↔ k ∈ m.keys ∧ k ≠ key := by
  rw [OptionMap.keys_delete]
  simp

theorem OptionMap.delete_of_not_mem (m : OptionMap) (key : String) (h : key ∉ m.keys) :
    m.delete key = m := by
  unfold OptionMap.delete
  rw [List.filter_eq_self]
  intro e he
  have : e.1 ∈ m.keys := List.mem_map_of_mem Prod.fst he
  have hne : e.1 ≠ key := fun h2 => h (h2 ▸ this)
  simpa using hne

theorem OptionMap.get_delete_ne (m : OptionMap) (key k : String) (h : k ≠ key) :
    (m.delete key).get k = m.get k := by
  unfold OptionMap.delete OptionMap.get
  induction m with
  | nil => rfl
  | cons e es ih =>
    rcases e with ⟨k1, o⟩
    by_cases h1 : k1 = key
    · subst h1
      have h2 : (k == k1) = false := by simpa using h
      simp [List.filter_cons, List.lookup, h2, ih]
    · by_cases h3 : k = k1
      · subst h3
        simp [List.filter_cons, h1, List.lookup]
      · have h4 : (k == k1) = false := by simpa using h3
        simp [List.filter_cons, h1, List.lookup, h4, ih]

theorem OptionMap.mem_of_get (m : OptionMap) (k : String) (o : Option)
    (h : m.get k = some o) : (k, o) ∈ m := by
  unfold OptionMap.get at h
  induction m with
  | nil => simp at h
  | cons e es ih =>
    rcases e with ⟨k1, o1⟩
    by_cases h1 : k = k1
    · subst h1
      simp [List.lookup] at h
      simp [h]
    · have h2 : (k == k1) = false := by simpa using h1
      simp only [List.lookup, h2] at h
      exact List.mem_cons_of_mem _ (ih h)

theorem DelArg_single (parser : Arguments) (key : String) :
    parser.DelArg [key] =
      { parser with Options := parser.Options.delete key,
                    Globals := parser.Globals.delete key } := by
  simp [Arguments.DelArg]

/-- What one extraction loop leaves: operation and targets as they were, and
exactly the visited configuration flags deleted from both maps. -/
theorem extractLoop_spec (entries : OptionMap) (config : Configuration) (parser : Arguments) :
    (extractLoop entries config parser).2.Op = parser.Op ∧
    (extractLoop entries config parser).2.Targets = parser.Targets ∧
    (∀ e, e ∈ (extractLoop entries config parser).2.Options ↔
      e ∈ parser.Options ∧ ¬ (isConfigOption e.1 = true ∧ e.1 ∈ entries.keys)) ∧
    (∀ e, e ∈ (extractLoop entries config parser).2.Globals ↔
      e ∈ parser.Globals ∧ ¬ (isConfigOption e.1 = true ∧ e.1 ∈ entries.keys)) ∧
    (∀ k, isConfigOption k = false →
      (extractLoop entries config parser).2.Options.get k = parser.Options.get k ∧
      (extractLoop entries config parser).2.Globals.get k = parser.Globals.get k) := by
  induction entries generalizing config parser with
  | nil => simp [extractLoop_nil, OptionMap.keys]
  | cons e0 es ih =>
    rw [extractLoop_cons, handleConfig_snd]
    by_cases hc : isConfigOption e0.1 = true
    · simp only [hc, if_true, DelArg_single]
      obtain ⟨h1, h2, h3, h4, h5⟩ := ih (handleConfig config e0.1 e0.2.First).1
        { parser with Options := parser.Options.delete e0.1,
                      Globals := parser.Globals.delete e0.1 }
      refine ⟨h1, h2, ?_, ?_, ?_⟩
      · intro e
        rw [h3]
        simp only [OptionMap.mem_delete, OptionMap.keys, List.map_cons, List.mem_cons]
        constructor
        · rintro ⟨⟨ha, hb⟩, hd⟩
          exact ⟨ha, fun ⟨hx, hy⟩ => hy.elim hb (fun hy => hd ⟨hx, hy⟩)⟩
        · rintro ⟨ha, hb⟩
          have hne : e.1 ≠ e0.1 := fun h => hb ⟨h ▸ hc, Or.inl h⟩
          exact ⟨⟨ha, hne⟩, fun ⟨hx, hy⟩ => hb ⟨hx, Or.inr hy⟩⟩
      · intro e
        rw [h4]
        simp only [OptionMap.mem_delete, OptionMap.keys, List.map_cons, List.mem_cons]
        constructor
        · rintro ⟨⟨ha, hb⟩, hd⟩
          exact ⟨ha, fun ⟨hx, hy⟩ => hy.elim hb (fun hy => hd ⟨hx, hy⟩)⟩
        · rintro ⟨ha, hb⟩
          have hne : e.1 ≠ e0.1 := fun h => hb ⟨h ▸ hc, Or.inl h⟩
          exact ⟨⟨ha, hne⟩, fun ⟨hx, hy⟩ => hb ⟨hx, Or.inr hy⟩⟩
      · intro k hk
        have hne : k ≠ e0.1 := fun h => by rw [h, hc] at hk; simp at hk
        rw [(h5 k hk).1, (h5 k hk).2]
        exact ⟨OptionMap.get_delete_ne _ _ _ hne, OptionMap.get_delete_ne _ _ _ hne⟩
    · have hc : isConfigOption e0.1 = false := by simpa using hc
      simp only [hc, Bool.false_eq_true, if_false]
      obtain ⟨h1, h2, h3, h4, h5⟩ := ih (handleConfig config e0.1 e0.2.First).1 parser
      refine ⟨h1, h2, ?_, ?_, h5⟩
      · intro e
        rw [h3]
        simp only [OptionMap.keys, List.map_cons, List.mem_cons]
        constructor
        · rintro ⟨ha, hb⟩
          refine ⟨ha, fun ⟨hx, hy⟩ => hy.elim (fun h => ?_) (fun hy => hb ⟨hx, hy⟩)⟩
          rw [h, hc] at hx; simp at hx
        · rintro ⟨ha, hb⟩
          exact ⟨ha, fun ⟨hx, hy⟩ => hb ⟨hx, Or.inr hy⟩⟩
      · intro e
        rw [h4]
        simp only [OptionMap.keys, List.map_cons, List.mem_cons]
        constructor
        · rintro ⟨ha, hb⟩
          refine ⟨ha, fun ⟨hx, hy⟩ => hy.elim (fun h => ?_) (fun hy => hb ⟨hx, hy⟩)⟩
          rw [h, hc] at hx; simp at hx
        · rintro ⟨ha, hb⟩
          exact ⟨ha, fun ⟨hx, hy⟩ => hb ⟨hx, Or.inr hy⟩⟩

theorem RangeOrder.mem_keys_visit (order : RangeOrder) (m : OptionMap) (k : String) :
    k ∈ (order.visit m).keys ↔ k ∈ m.keys := by
  unfold OptionMap.keys
  exact ((order.perm m).map Prod.fst).mem_iff

/-- What `extractYayOptions` leaves: operation and targets as they were, no
configuration flag in either map, every other entry untouched. -/
theorem extractYayOptions_spec (parser : Arguments) (config : Configuration)
    (oO oG : RangeOrder) :
    (parser.extractYayOptions config oO oG).parser.Op = parser.Op ∧
    (parser.extractYayOptions config oO oG).parser.Targets = parser.Targets ∧
    (∀ k, isConfigOption k = true →
      k ∉ (parser.extractYayOptions config oO oG).parser.Options.keys ∧
      k ∉ (parser.extractYayOptions config oO oG).parser.Globals.keys) ∧
    (∀ k, isConfigOption k = false →
      (parser.extractYayOptions config oO oG).parser.Options.get k = parser.Options.get k ∧
      (parser.extractYayOptions config oO oG).parser.Globals.get k = parser.Globals.get k) := by
  unfold Arguments.extractYayOptions
  simp only
  obtain ⟨a1, a2, a3, a4, a5⟩ := extractLoop_spec (oO.visit parser.Options) config parser
  obtain ⟨b1, b2, b3, b4, b5⟩ :=
    extractLoop_spec (oG.visit (extractLoop (oO.visit parser.Options) config parser).2.Globals)
      (extractLoop (oO.visit parser.Options) config parser).1
      (extractLoop (oO.visit parser.Options) config parser).2
  refine ⟨b1.trans a1, b2.trans a2, ?_, ?_⟩
  · intro k hk
    constructor
    · intro hmem
      obtain ⟨e, he, rfl⟩ := List.mem_map.1 hmem
      have h1 := ((b3 e).1 he).1
      have h2 := (a3 e).1 h1
      exact h2.2 ⟨hk, (RangeOrder.mem_keys_visit _ _ _).2 (List.mem_map_of_mem Prod.fst h2.1)⟩
    · intro hmem
      obtain ⟨e, he, rfl⟩ := List.mem_map.1 hmem
      have h1 := (b4 e).1 he
      exact h1.2 ⟨hk, (RangeOrder.mem_keys_visit _ _ _).2 (List.mem_map_of_mem Prod.fst h1.1)⟩
  · intro k hk
    exact ⟨((b5 k hk).1).trans (a5 k hk).1, ((b5 k hk).2).trans (a5 k hk).2⟩

theorem parseStdin_fst (parser : Arguments) (os : Process) :
    (parser.parseStdin os).1 = { parser with Targets := parser.Targets ++ os.StdinLines } := by
  unfold Arguments.parseStdin
  simp only
  generalize os.StdinLines = lines
  induction lines generalizing parser with
  | nil => simp
  | cons l ls ih =>
    simp only [List.foldl_cons]
    rw [ih]
    simp [Arguments.AddTarget]

/-- The shape of a successful `ParseCommandLine`: the extraction applied to the
state of the token loop with the default operation filled in, the flag `-`
deleted and possibly the lines of standard input appended to the targets. -/
theorem ParseCommandLine_success (parser p1 : Arguments) (config : Configuration)
    (os : Process) (oO oG : RangeOrder)
    (h : parser.parseArgs os.Args = (p1, none))
    (hok : (parser.ParseCommandLine config os oO oG).err = none) :
    ∃ p2 : Arguments,
      parser.ParseCommandLine config os oO oG =
        { parser := (p2.extractYayOptions config oO oG).parser,
          config := (p2.extractYayOptions config oO oG).config,
          rpcAURURL := some (p2.extractYayOptions config oO oG).rpcAURURL,
          err := none } ∧
      p2.Op = (defaultOp p1).Op ∧
      p2.Options = p1.Options.delete "-" ∧
      p2.Globals = p1.Globals.delete "-" ∧
      (p2.Targets = p1.Targets ∨
        (p1.ExistsArg ["-"] = true ∧ p2.Targets = p1.Targets ++ os.StdinLines)) := by
  have hdo : (defaultOp p1).Options = p1.Options := by unfold defaultOp; split <;> rfl
  have hdg : (defaultOp p1).Globals = p1.Globals := by unfold defaultOp; split <;> rfl
  have hdt : (defaultOp p1).Targets = p1.Targets := by unfold defaultOp; split <;> rfl
  have hex : (defaultOp p1).ExistsArg ["-"] = p1.ExistsArg ["-"] := by
    simp [Arguments.ExistsArg, hdo, hdg]
  by_cases hx : (defaultOp p1).ExistsArg ["-"] = true
  · cases hc : os.StdinClose with
    | some e =>
      exfalso
      revert hok
      unfold defaultOp at hx
      simp [Arguments.ParseCommandLine, h, hx, Arguments.parseStdin, hc]
    | none =>
      cases ht : os.OpenTty with
      | some e =>
        exfalso
        revert hok
        unfold defaultOp at hx
        simp [Arguments.ParseCommandLine, h, hx, Arguments.parseStdin, hc, ht]
      | none =>
        refine ⟨((defaultOp p1).parseStdin os).1.DelArg ["-"],
          ParseCommandLine_of_stdin _ _ _ _ _ _ h hx hc ht, ?_, ?_, ?_, Or.inr ⟨?_, ?_⟩⟩
        · rw [DelArg_single, parseStdin_fst]
        · rw [DelArg_single, parseStdin_fst, ← hdo]
        · rw [DelArg_single, parseStdin_fst, ← hdg]
        · rw [← hex]; exact hx
        · rw [DelArg_single, parseStdin_fst, ← hdt]
  · have hx : (defaultOp p1).ExistsArg ["-"] = false := by simpa using hx
    have hk : ¬ ("-" ∈ p1.Options.keys ∨ "-" ∈ p1.Globals.keys) := by
      rw [← ExistsArg_single, ← hex, hx]; simp
    refine ⟨defaultOp p1, ParseCommandLine_of_no_stdin _ _ _ _ _ _ h hx, rfl, ?_, ?_, Or.inl hdt⟩
    · rw [hdo, OptionMap.delete_of_not_mem _ _ (fun h => hk (Or.inl h))]
    · rw [hdg, OptionMap.delete_of_not_mem _ _ (fun h => hk (Or.inr h))]

/-! ## Blocks of the reference serialization -/

theorem formatBlock_infix (entries : OptionMap) (k : String) (o : Option)
    (h : (k, o) ∈ entries) : formatBlock k o <:+: formatGlobalsSpec entries := by
  unfold formatGlobalsSpec List.flatMap
  exact List.infix_of_mem_flatten (List.mem_map.2 ⟨(k, o), h, rfl⟩)

/-! ## The entries kept by the extraction loops -/

theorem extractLoop_sublist (entries : OptionMap) (config : Configuration) (parser : Arguments) :
    List.Sublist (extractLoop entries config parser).2.Options parser.Options ∧
    List.Sublist (extractLoop entries config parser).2.Globals parser.Globals := by
  induction entries generalizing config parser with
  | nil => exact ⟨List.Sublist.refl _, List.Sublist.refl _⟩
  | cons e es ih =>
    rw [extractLoop_cons]
    split
    · rw [DelArg_single]
      obtain ⟨h1, h2⟩ := ih (handleConfig config e.1 e.2.First).1
        { parser with Options := parser.Options.delete e.1,
                      Globals := parser.Globals.delete e.1 }
      exact ⟨h1.trans (List.filter_sublist _), h2.trans (List.filter_sublist _)⟩
    · exact ih _ _

theorem NodupKeys.sublist {m1 m2 : OptionMap} (h : List.Sublist m1 m2) (hn : NodupKeys m2) :
    NodupKeys m1 := by
  unfold NodupKeys at hn ⊢
  exact (h.map Prod.fst).nodup hn

theorem NodupKeys.perm {m1 m2 : OptionMap} (h : List.Perm m1 m2) (hn : NodupKeys m2) :
    NodupKeys m1 := by
  unfold NodupKeys at hn ⊢
  exact ((h.map Prod.fst).nodup_iff).2 hn

theorem OptionMap.get_of_mem (m : OptionMap) (k : String) (o : Option) (hn : NodupKeys m)
    (h : (k, o) ∈ m) : m.get k = some o := by
  unfold OptionMap.get
  induction m with
  | nil => simp at h
  | cons e es ih =>
    unfold NodupKeys at hn
    simp only [List.map_cons, List.nodup_cons] at hn
    rcases e with ⟨k1, o1⟩
    rcases List.mem_cons.1 h with heq | htail
    · cases heq
      simp [List.lookup]
    · have hne : k ≠ k1 := fun hh => hn.1 (List.mem_map.2 ⟨(k, o), htail, hh⟩)
      have h2 : (k == k1) = false := by simpa using hne
      simp only [List.lookup, h2]
      exact ih hn.2 htail

/-- Witness of C3 at the state of a fresh parser, the token `--` and the rest
`["-notaflag", "pkg"]`. -/
theorem separator_freezes_targets_witness :
    (parseToken MakeArguments "--" (["-notaflag", "pkg"].headD "")).err = none ∧
    (parseToken MakeArguments "--" (["-notaflag", "pkg"].headD "")).parser.ExistsArg ["--"]
      = true ∧
    parseLoop MakeArguments false ["--", "-notaflag", "pkg"] =
      ({ Op := "", Options := [("--", { Args := [""] })], Globals := [],
         Targets := ["-notaflag", "pkg"] }, none) :=
  ⟨by decide, by decide,
   (separator_freezes_targets.1 MakeArguments "--" ["-notaflag", "pkg"] (by decide)
      (by decide)).trans (by decide)⟩

/-! ## The shape of reachable arguments -/

theorem WellFormed_MakeArguments : WellFormed MakeArguments :=
  { nodupOptions := by simp [MakeArguments, NodupKeys]
    nodupGlobals := by simp [MakeArguments, NodupKeys]
    options := by simp [MakeArguments]
    globals := by simp [MakeArguments]
    op := Or.inl rfl }

theorem Option.Add_ne_nil (o : Option) (arg : String) : (o.Add arg).Args ≠ [] := by
  unfold Option.Add
  split <;> simp

theorem OptionMap.mem_add (m : OptionMap) (key arg : String) (e : String × Option)
    (h : e ∈ m.add key arg) : (e.1 = key ∧ e.2.Args ≠ []) ∨ e ∈ m := by
  unfold OptionMap.add at h
  simp only [List.mem_map] at h
  obtain ⟨e0, he0, rfl⟩ := h
  by_cases hk : e0.1 = key
  · left
    simp only [hk, if_true]
    exact ⟨trivial, Option.Add_ne_nil _ _⟩
  · right
    simp only [hk, if_false]
    split at he0
    · rcases List.mem_append.1 he0 with h1 | h1
      · exact h1
      · simp only [List.mem_singleton] at h1
        rw [h1] at hk
        exact absurd rfl hk
    · exact he0

theorem NodupKeys.add (m : OptionMap) (key arg : String) (h : NodupKeys m) :
    NodupKeys (m.add key arg) := by
  have hk := OptionMap.keys_add m key arg
  unfold OptionMap.keys at hk
  unfold NodupKeys at h ⊢
  rw [hk]
  split
  · exact h
  · rename_i hn
    exact List.Nodup.append h (List.nodup_singleton _) (by
      intro a ha hb
      simp only [List.mem_singleton] at hb
      exact hn (hb ▸ ha))

theorem isGlobal_not_op (k : String) (h : isGlobal k = true) : isOp k = false := by
  have h1 : ∀ x ∈ isGlobalCases, x ∉ isOpCases := by decide
  simp only [isGlobal, isOp, decide_eq_true_eq, decide_eq_false_iff_not] at h ⊢
  exact h1 k h

theorem WellFormed.addParam (p : Arguments) (option arg : String) (h : WellFormed p) :
    WellFormed (p.addParam option arg).1 := by
  by_cases h1 : isArg option = true
  · by_cases h2 : isOp option = true
    · rw [addParam_op _ _ _ h2]
      unfold Arguments.addOP
      split
      · exact h
      · exact { h with op := Or.inr h2 }
    · have h2 : isOp option = false := by simpa using h2
      by_cases h3 : isGlobal option = true
      · rw [addParam_global _ _ _ h1 h2 h3]
        exact { h with
          nodupGlobals := NodupKeys.add _ _ _ h.nodupGlobals
          globals := by
            intro e he
            rcases OptionMap.mem_add _ _ _ _ he with ⟨hk, hv⟩ | hm
            · exact ⟨hk ▸ h3, hv⟩
            · exact h.globals e hm }
      · have h3 : isGlobal option = false := by simpa using h3
        rw [addParam_option _ _ _ h1 h2 h3]
        exact { h with
          nodupOptions := NodupKeys.add _ _ _ h.nodupOptions
          options := by
            intro e he
            rcases OptionMap.mem_add _ _ _ _ he with ⟨hk, hv⟩ | hm
            · exact ⟨hk ▸ h1, hk ▸ h2, hk ▸ h3, hv⟩
            · exact h.options e hm }
  · rw [addParam_invalid _ _ _ (by simpa using h1)]
    exact h

theorem WellFormed.parseShortLoop (param : String) (chars : List Char) (p : Arguments)
    (h : WellFormed p) : WellFormed (parseShortLoop param p chars).parser := by
  induction chars generalizing p with
  | nil => exact h
  | cons c rest ih =>
    unfold settings.parseShortLoop
    simp only
    split
    · split
      · exact WellFormed.addParam _ _ _ h
      · exact WellFormed.addParam _ _ _ h
    · rw [AddArg_single]
      have hw := WellFormed.addParam p (String.singleton c) "" h
      rcases hr : p.addParam (String.singleton c) "" with ⟨p1, _ | e⟩
      · rw [hr] at hw
        exact ih p1 hw
      · rw [hr] at hw
        exact hw

theorem WellFormed.AddTarget (p : Arguments) (ts : List String) (h : WellFormed p) :
    WellFormed (p.AddTarget ts) :=
  { nodupOptions := h.nodupOptions, nodupGlobals := h.nodupGlobals, options := h.options,
    globals := h.globals, op := h.op }

theorem WellFormed.parseToken (p : Arguments) (arg nextArg : String) (h : WellFormed p) :
    WellFormed (parseToken p arg nextArg).parser := by
  unfold settings.parseToken
  split
  · exact WellFormed.AddTarget _ _ h
  · split
    · unfold Arguments.parseLongOption
      split
      · rw [AddArg_single]; exact WellFormed.addParam _ _ _ h
      · simp only
        split
        · exact WellFormed.addParam _ _ _ h
        · split
          · exact WellFormed.addParam _ _ _ h
          · rw [AddArg_single]; exact WellFormed.addParam _ _ _ h
    · split
      · unfold Arguments.parseShortOption
        split
        · rw [AddArg_single]; exact WellFormed.addParam _ _ _ h
        · exact WellFormed.parseShortLoop _ _ _ h
      · exact WellFormed.AddTarget _ _ h

theorem WellFormed.parseLoop (args : List String) (p : Arguments) (usedNext : Bool)
    (h : WellFormed p) : WellFormed (parseLoop p usedNext args).1 := by
  induction args generalizing p usedNext with
  | nil => exact h
  | cons a rest ih =>
    unfold settings.parseLoop
    split
    · exact ih _ _ h
    · simp only
      have hw := WellFormed.parseToken p a (rest.headD "") h
      split
      · exact hw
      · exact ih _ _ hw

theorem WellFormed.parseArgs (args : List String) (p : Arguments) (h : WellFormed p) :
    WellFormed (p.parseArgs args).1 := by
  unfold Arguments.parseArgs
  split
  · unfold Arguments.parseShortOption
    simp only
    split
    · rw [AddArg_single]; exact WellFormed.addParam _ _ _ h
    · exact WellFormed.parseShortLoop _ _ _ h
  · exact WellFormed.parseLoop _ _ _ h

theorem WellFormed.of_sublist (p q : Arguments) (h : WellFormed p)
    (hO : List.Sublist q.Options p.Options) (hG : List.Sublist q.Globals p.Globals)
    (hop : q.Op = "" ∨ isOp q.Op = true) : WellFormed q :=
  { nodupOptions := NodupKeys.sublist hO h.nodupOptions
    nodupGlobals := NodupKeys.sublist hG h.nodupGlobals
    options := fun e he => h.options e (hO.subset he)
    globals := fun e he => h.globals e (hG.subset he)
    op := hop }

theorem defaultOp_op (p : Arguments) (h : p.Op = "" ∨ isOp p.Op = true) :
    isOp (defaultOp p).Op = true := by
  unfold defaultOp
  split
  · show isOp "Y" = true
    decide
  · rcases h with h | h
    · rename_i hne; exact absurd h hne
    · exact h

/-- The arguments left by a successful `ParseCommandLine` on a fresh parser:
well formed, with an operation, without the flag `-` and without any flag
recognised by `handleConfig`. -/
theorem ParseCommandLine_shape (config : Configuration) (os : Process) (oO oG : RangeOrder)
    (hok : (MakeArguments.ParseCommandLine config os oO oG).err = none) :
    WellFormed (MakeArguments.ParseCommandLine config os oO oG).parser ∧
    isOp (MakeArguments.ParseCommandLine config os oO oG).parser.Op = true ∧
    (∀ e ∈ (MakeArguments.ParseCommandLine config os oO oG).parser.Options,
      e.1 ≠ "-" ∧ isConfigOption e.1 = false) ∧
    (∀ e ∈ (MakeArguments.ParseCommandLine config os oO oG).parser.Globals,
      e.1 ≠ "-" ∧ isConfigOption e.1 = false) := by
  rcases hl : MakeArguments.parseArgs os.Args with ⟨p1, _ | e⟩
  · have hw1 : WellFormed p1 := by
      have := WellFormed.parseArgs os.Args MakeArguments WellFormed_MakeArguments
      rwa [hl] at this
    obtain ⟨p2, hp, hop, hO, hG, _⟩ :=
      ParseCommandLine_success MakeArguments p1 config os oO oG hl hok
    obtain ⟨s1, _, s3, _⟩ := extractYayOptions_spec p2 config oO oG
    have hsub : List.Sublist (p2.extractYayOptions config oO oG).parser.Options p2.Options ∧
        List.Sublist (p2.extractYayOptions config oO oG).parser.Globals p2.Globals := by
      unfold Arguments.extractYayOptions
      simp only
      have a := extractLoop_sublist (oO.visit p2.Options) config p2
      have b := extractLoop_sublist
        (oG.visit (extractLoop (oO.visit p2.Options) config p2).2.Globals)
        (extractLoop (oO.visit p2.Options) config p2).1
        (extractLoop (oO.visit p2.Options) config p2).2
      exact ⟨b.1.trans a.1, b.2.trans a.2⟩
    have hopv : isOp p2.Op = true := by rw [hop]; exact defaultOp_op p1 hw1.op
    have hO2 : List.Sublist (p2.extractYayOptions config oO oG).parser.Options p1.Options := by
      refine hsub.1.trans ?_
      rw [hO]; exact List.filter_sublist _
    have hG2 : List.Sublist (p2.extractYayOptions config oO oG).parser.Globals p1.Globals := by
      refine hsub.2.trans ?_
      rw [hG]; exact List.filter_sublist _
    rw [hp]
    simp only
    refine ⟨WellFormed.of_sublist p1 _ hw1 hO2 hG2 (Or.inr (by rw [s1]; exact hopv)),
      by rw [s1]; exact hopv, ?_, ?_⟩
    · intro e he
      constructor
      · intro hd
        have h1 := hsub.1.subset he
        rw [hO] at h1
        exact ((OptionMap.mem_delete _ _ _).1 h1).2 hd
      · cases hc : isConfigOption e.1 with
        | false => rfl
        | true => exact absurd (List.mem_map.2 ⟨e, he, rfl⟩) (s3 e.1 hc).1
    · intro e he
      constructor
      · intro hd
        have h1 := hsub.2.subset he
        rw [hG] at h1
        exact ((OptionMap.mem_delete _ _ _).1 h1).2 hd
      · cases hc : isConfigOption e.1 with
        | false => rfl
        | true => exact absurd (List.mem_map.2 ⟨e, he, rfl⟩) (s3 e.1 hc).2
  · rw [ParseCommandLine_of_loop_err _ _ _ _ _ _ _ hl] at hok
    simp at hok

/-! ## Parsing the serialized form of a flag -/

theorem HasPrefix_long (k : String) : HasPrefix ("--" ++ k) "--" = true := by
  rcases k with ⟨l⟩
  show List.isPrefixOf ['-', '-'] ('-' :: '-' :: l) = true
  simp [List.isPrefixOf]

theorem sliceFrom_long (k : String) : sliceFrom ("--" ++ k) 2 = k := by
  rcases k with ⟨l⟩
  rfl

theorem long_ne_separator (k : String) (h : k ≠ "") : "--" ++ k ≠ "--" := by
  rcases k with ⟨l⟩
  intro h2
  have h3 : ('-' :: '-' :: l) = ['-', '-'] := congrArg String.data h2
  simp only [List.cons.injEq, true_and] at h3
  exact h (by rw [h3])

theorem SplitN_of_no_eq (k : String) (h : '=' ∉ k.data) : SplitN k = [k] := by
  unfold SplitN
  have hs : ∀ l : List Char, '=' ∉ l → l.span (fun c => c != '=') = (l, []) := by
    intro l hl
    rw [List.span_eq_take_drop]
    have hall : ∀ c ∈ l, (c != '=') = true := by
      intro c hc
      have : c ≠ '=' := fun hh => hl (hh ▸ hc)
      simpa using this
    rw [List.takeWhile_eq_self_iff.2 hall, List.dropWhile_eq_nil_iff.2 hall]
  rw [hs _ h]

set_option maxRecDepth 100000 in
/-- The shape of a valid flag name other than `-` and `--`: several bytes
with no `=`, or one character that is not `-`. -/
theorem isArg_shape (k : String) (h : isArg k = true) (h1 : k ≠ "-") (h2 : k ≠ "--") :
    (len k > 1 ∧ k ≠ "" ∧ '=' ∉ k.data) ∨
    (¬ len k > 1 ∧ ∃ c : Char, c ≠ '-' ∧ k = String.singleton c) := by
  have ht : ∀ x ∈ isArgCases, x = "-" ∨ x = "--" ∨
      (len x > 1 ∧ x ≠ "" ∧ '=' ∉ x.data) ∨
      (¬ len x > 1 ∧ x.data.length = 1 ∧ '-' ∉ x.data) := by decide
  have hk : k ∈ isArgCases := by simpa [isArg] using h
  rcases ht k hk with h | h | h | ⟨ha, hb, hc⟩
  · exact absurd h h1
  · exact absurd h h2
  · exact Or.inl h
  · right
    refine ⟨ha, ?_⟩
    rcases k with ⟨l⟩
    match l, hb, hc with
    | [c], _, hc =>
      refine ⟨c, ?_, rfl⟩
      intro hh
      exact hc (by simp [hh])

/-- Parsing the serialized form of a flag registers the flag: with the
lookahead as its value when it takes one, as a switch otherwise. -/
theorem parseToken_formatArg (k : String) (h : isArg k = true) (h1 : k ≠ "-") (h2 : k ≠ "--")
    (p : Arguments) (next : String) (hsep : p.ExistsArg ["--"] = false) :
    parseToken p (formatArg k) next =
      if hasParam k then
        { parser := (p.addParam k next).1, usedNext := true, err := (p.addParam k next).2 }
      else
        { parser := (p.addParam k "").1, usedNext := false, err := (p.addParam k "").2 } := by
  rcases isArg_shape k h h1 h2 with ⟨ha, hb, hc⟩ | ⟨ha, c, hc, rfl⟩
  · simp only [formatArg, ha, if_true, parseToken, hsep, Bool.false_eq_true, if_false,
      HasPrefix_long, Arguments.parseLongOption, long_ne_separator k hb, sliceFrom_long,
      SplitN_of_no_eq k hc, AddArg_single]
  · have e1 : formatArg (String.singleton c) = String.mk ['-', c] := by
      simp only [formatArg, ha, if_false]
      rfl
    have e2 : HasPrefix (String.mk ['-', c]) "--" = false := by
      simp [HasPrefix, List.isPrefixOf]
      exact fun hh => hc hh.symm
    have e3 : HasPrefix (String.mk ['-', c]) "-" = true := by
      simp [HasPrefix, List.isPrefixOf]
    have e4 : (sliceFrom (String.mk ['-', c]) 1).data = [c] := rfl
    simp only [e1, parseToken, hsep, Bool.false_eq_true, if_false, e2, e3, if_true,
      Arguments.parseShortOption, String_mk_ne_dash, e4, parseShortLoop, AddArg_single]
    by_cases hp : hasParam (String.singleton c) = true
    · simp [hp]
    · have hp : hasParam (String.singleton c) = false := by simpa using hp
      simp only [hp, Bool.false_eq_true, if_false]
      rcases hr : p.addParam (String.singleton c) "" with ⟨p1, _ | e⟩
      · simp [parseShortLoop]
      · simp

/-! ## Parsing the serialized form of the arguments -/

theorem addParam_targets (p : Arguments) (k v : String) :
    (p.addParam k v).1.Targets = p.Targets := by
  unfold Arguments.addParam Arguments.addOP
  split
  · rfl
  · split
    · split <;> rfl
    · split <;> rfl

theorem addParam_no_separator (p : Arguments) (k v : String) (hk : k ≠ "--")
    (hsep : p.ExistsArg ["--"] = false) : (p.addParam k v).1.ExistsArg ["--"] = false := by
  cases hx : (p.addParam k v).1.ExistsArg ["--"] with
  | false => rfl
  | true =>
    exfalso
    rcases addParam_keys p k v "--" ((ExistsArg_single _ _).1 hx) with h | h
    · exact hk h.symm
    · have := (ExistsArg_single p "--").2 h
      rw [hsep] at this
      exact absurd this (by simp)

/-- Registering again the values `values` of the flag `k`. -/
theorem parseLoop_values (k : String) (h : isArg k = true) (hop : isOp k = false)
    (h1 : k ≠ "-") (h2 : k ≠ "--") (values : List String) (rest : List String) (p : Arguments)
    (hsep : p.ExistsArg ["--"] = false) :
    parseLoop p false
        (values.flatMap
          (fun value => if hasParam k then [formatArg k, value] else [formatArg k]) ++ rest) =
      parseLoop
        (values.foldl (fun p value => (p.addParam k (if hasParam k then value else "")).1) p)
        false rest ∧
    (values.foldl (fun p value => (p.addParam k (if hasParam k then value else "")).1)
        p).ExistsArg ["--"] = false := by
  induction values generalizing p with
  | nil => exact ⟨rfl, hsep⟩
  | cons v vs ih =>
    simp only [List.flatMap_cons, List.foldl_cons]
    by_cases hp : hasParam k = true
    · have hn := addParam_not_op p k v h hop
      have hs := addParam_no_separator p k v h2 hsep
      obtain ⟨ih1, ih2⟩ := ih (p.addParam k v).1 hs
      simp only [hp, if_true] at ih1 ih2 ⊢
      refine ⟨?_, ih2⟩
      rw [← ih1]
      simp only [List.cons_append, List.nil_append]
      rw [parseLoop]
      simp only [Bool.false_eq_true, if_false, List.headD_cons,
        parseToken_formatArg k h h1 h2 p v hsep, hp, if_true, hn.1]
      rw [parseLoop]
      simp
    · have hp : hasParam k = false := by simpa using hp
      have hn := addParam_not_op p k "" h hop
      have hs := addParam_no_separator p k "" h2 hsep
      obtain ⟨ih1, ih2⟩ := ih (p.addParam k "").1 hs
      simp only [hp, Bool.false_eq_true, if_false] at ih1 ih2 ⊢
      refine ⟨?_, ih2⟩
      rw [← ih1]
      simp only [List.cons_append, List.nil_append]
      rw [parseLoop]
      simp only [Bool.false_eq_true, if_false,
        parseToken_formatArg k h h1 h2 p _ hsep, hp, hn.1]

/-- Parsing the blocks of the visited entries registers again all their values. -/
theorem parseLoop_blocks (entries : OptionMap) (rest : List String) (p : Arguments)
    (hvalid : ∀ e ∈ entries, isArg e.1 = true ∧ isOp e.1 = false ∧ e.1 ≠ "-" ∧ e.1 ≠ "--")
    (hsep : p.ExistsArg ["--"] = false) :
    parseLoop p false (entries.flatMap (fun e => formatBlock e.1 e.2) ++ rest) =
      parseLoop (replay entries p) false rest ∧
    (replay entries p).ExistsArg ["--"] = false := by
  induction entries generalizing p with
  | nil => exact ⟨rfl, hsep⟩
  | cons e es ih =>
    obtain ⟨v1, v2, v3, v4⟩ := hvalid e (List.mem_cons_self _ _)
    have hb := parseLoop_values e.1 v1 v2 v3 v4 e.2.Args
      (es.flatMap (fun e => formatBlock e.1 e.2) ++ rest) p hsep
    obtain ⟨ih1, ih2⟩ := ih (replayEntry p e)
      (fun x hx => hvalid x (List.mem_cons_of_mem _ hx)) hb.2
    refine ⟨?_, ih2⟩
    simp only [List.flatMap_cons, List.append_assoc]
    show parseLoop p false (formatBlock e.1 e.2 ++ _) = parseLoop (replay es (replayEntry p e)) false rest
    rw [← ih1]
    exact hb.1

theorem HasPrefix_long_of_short (t : String) (h : HasPrefix t "-" = false) :
    HasPrefix t "--" = false := by
  rcases t with ⟨l⟩
  cases l with
  | nil => rfl
  | cons c cs =>
    have hc : c ≠ '-' := by
      intro hh
      subst hh
      simp [HasPrefix, List.isPrefixOf] at h
    have hb : ('-' == c) = false := by simpa using fun hh : '-' = c => hc hh.symm
    show List.isPrefixOf ['-', '-'] (c :: cs) = false
    simp [List.isPrefixOf, hb]

/-- Tokens that do not start with `-` are appended to the targets. -/
theorem parseLoop_targets (targets : List String) (p : Arguments)
    (hsep : p.ExistsArg ["--"] = false)
    (ht : ∀ t ∈ targets, HasPrefix t "-" = false) :
    parseLoop p false targets = ({ p with Targets := p.Targets ++ targets }, none) := by
  induction targets generalizing p with
  | nil => simp [parseLoop]
  | cons t ts ih =>
    have h1 := ht t (List.mem_cons_self _ _)
    have h2 := HasPrefix_long_of_short t h1
    have hs : (p.AddTarget [t]).ExistsArg ["--"] = false := by
      simpa [Arguments.AddTarget, Arguments.ExistsArg] using hsep
    simp only [parseLoop, Bool.false_eq_true, if_false, parseToken, hsep, h1, h2]
    rw [ih _ hs (fun x hx => ht x (List.mem_cons_of_mem _ hx))]
    simp [Arguments.AddTarget]

/-! ## Counting the values after a replay -/

theorem Option.Add_length (o : Option) (arg : String) :
    (o.Add arg).Args.length = o.Args.length + 1 := by
  unfold Option.Add
  split
  · rename_i h; simp [h]
  · simp

theorem lookup_map_value (f : String → Option → Option) (l : OptionMap) (k : String) :
    List.lookup k (l.map (fun e => (e.1, f e.1 e.2))) =
      match List.lookup k l with
      | some o => some (f k o)
      | none => none := by
  induction l with
  | nil => rfl
  | cons e es ih =>
    rcases e with ⟨k1, o⟩
    by_cases h : k = k1
    · subst h
      simp [List.lookup]
    · have hb : (k == k1) = false := by simpa using h
      simp only [List.map_cons, List.lookup, hb]
      exact ih

theorem OptionMap.get_add (m : OptionMap) (key arg k : String) :
    (m.add key arg).get k =
      if k = key then
        match m.get key with
        | some o => some (o.Add arg)
        | none => some { Args := [arg] }
      else m.get k := by
  have hf : (fun e : String × Option => if e.1 = key then (e.1, e.2.Add arg) else e) =
      (fun e => (e.1, (fun k o => if k = key then o.Add arg else o) e.1 e.2)) := by
    funext e
    by_cases he : e.1 = key <;> simp [he]
  have hm : ∀ l : OptionMap,
      List.lookup k (l.map (fun e => if e.1 = key then (e.1, e.2.Add arg) else e)) =
        match List.lookup k l with
        | some o => some (if k = key then o.Add arg else o)
        | none => none := by
    intro l
    rw [hf]
    exact lookup_map_value (fun k o => if k = key then o.Add arg else o) l k
  unfold OptionMap.add OptionMap.get
  simp only [hm]
  cases hl : List.lookup key m with
  | none =>
    by_cases hk : k = key
    · subst hk
      simp [List.lookup_append, hl, List.lookup, Option.Add]
    · have hb : (k == key) = false := by simpa using hk
      simp only [hk, if_false]
      cases hl2 : List.lookup k m with
      | none => simp [List.lookup_append, hl2, List.lookup, hb]
      | some o => simp [List.lookup_append, hl2, hk]
  | some o0 =>
    by_cases hk : k = key
    · subst hk
      simp [hl]
    · simp only [hk, if_false]
      cases hl2 : List.lookup k m with
      | none => simp [hl2]
      | some o => simp [hl2, hk]

theorem valueCount_add_other (m : OptionMap) (key arg k : String) (h : k ≠ key) :
    valueCount (m.add key arg) k = valueCount m k := by
  unfold valueCount
  rw [OptionMap.get_add, if_neg h]

theorem valueCount_add_same (m : OptionMap) (key arg : String) :
    valueCount (m.add key arg) key = valueCount m key + 1 := by
  unfold valueCount
  rw [OptionMap.get_add, if_pos rfl]
  cases hl : m.get key with
  | none => rfl
  | some o => exact Option.Add_length o arg

/-- The counts after registering one flag that is not an operation. -/
theorem addParam_counts (p : Arguments) (key arg : String) (h : isArg key = true)
    (hop : isOp key = false) (k : String) :
    valueCount (p.addParam key arg).1.Options k =
      valueCount p.Options k + (if k = key ∧ isGlobal key = false then 1 else 0) ∧
    valueCount (p.addParam key arg).1.Globals k =
      valueCount p.Globals k + (if k = key ∧ isGlobal key = true then 1 else 0) := by
  by_cases hg : isGlobal key = true
  · rw [addParam_global _ _ _ h hop hg]
    by_cases hk : k = key
    · subst hk
      simp [hg, valueCount_add_same]
    · simp [hk, valueCount_add_other _ _ _ _ hk]
  · have hg : isGlobal key = false := by simpa using hg
    rw [addParam_option _ _ _ h hop hg]
    by_cases hk : k = key
    · subst hk
      simp [hg, valueCount_add_same]
    · simp [hk, valueCount_add_other _ _ _ _ hk]

/-- What replaying the values of one flag leaves. -/
theorem replay_values (key : String) (h : isArg key = true) (hop : isOp key = false)
    (values : List String) (p : Arguments) (k : String) :
    (values.foldl (fun p value => (p.addParam key (if hasParam key then value else "")).1)
        p).Op = p.Op ∧
    (values.foldl (fun p value => (p.addParam key (if hasParam key then value else "")).1)
        p).Targets = p.Targets ∧
    valueCount (values.foldl
        (fun p value => (p.addParam key (if hasParam key then value else "")).1) p).Options k =
      valueCount p.Options k + (if k = key ∧ isGlobal key = false then values.length else 0) ∧
    valueCount (values.foldl
        (fun p value => (p.addParam key (if hasParam key then value else "")).1) p).Globals k =
      valueCount p.Globals k + (if k = key ∧ isGlobal key = true then values.length else 0) := by
  induction values generalizing p with
  | nil => simp
  | cons v vs ih =>
    simp only [List.foldl_cons, List.length_cons]
    obtain ⟨i1, i2, i3, i4⟩ := ih (p.addParam key (if hasParam key then v else "")).1
    obtain ⟨c1, c2⟩ := addParam_counts p key (if hasParam key then v else "") h hop k
    refine ⟨i1.trans (addParam_not_op _ _ _ h hop).2, i2.trans (addParam_targets _ _ _), ?_, ?_⟩
    · rw [i3, c1]
      split <;> omega
    · rw [i4, c2]
      split <;> omega

theorem valueCount_cons (e : String × Option) (es : OptionMap) (k : String) :
    valueCount (e :: es) k = if k = e.1 then e.2.Args.length else valueCount es k := by
  unfold valueCount OptionMap.get
  rcases e with ⟨k1, o⟩
  by_cases hk : k = k1
  · subst hk; simp [List.lookup]
  · have hb : (k == k1) = false := by simpa using hk
    simp [List.lookup, hb, hk]

theorem valueCount_of_not_mem (m : OptionMap) (k : String) (h : k ∉ m.keys) :
    valueCount m k = 0 := by
  unfold valueCount
  rw [(OptionMap.get_eq_none_iff m k).2 h]

/-- What replaying the visited entries leaves: operation and targets as they
were, and the counts of the entries added to the map their flag belongs to. -/
theorem replay_counts (entries : OptionMap) (p : Arguments)
    (hvalid : ∀ e ∈ entries, isArg e.1 = true ∧ isOp e.1 = false)
    (hnd : NodupKeys entries) (k : String) :
    (replay entries p).Op = p.Op ∧
    (replay entries p).Targets = p.Targets ∧
    valueCount (replay entries p).Options k =
      valueCount p.Options k + (if isGlobal k = false then valueCount entries k else 0) ∧
    valueCount (replay entries p).Globals k =
      valueCount p.Globals k + (if isGlobal k = true then valueCount entries k else 0) := by
  induction entries generalizing p with
  | nil => simp [replay, valueCount, OptionMap.get]
  | cons e es ih =>
    unfold NodupKeys at hnd
    simp only [List.map_cons, List.nodup_cons] at hnd
    obtain ⟨v1, v2⟩ := hvalid e (List.mem_cons_self _ _)
    obtain ⟨r1, r2, r3, r4⟩ := replay_values e.1 v1 v2 e.2.Args p k
    obtain ⟨i1, i2, i3, i4⟩ := ih (replayEntry p e)
      (fun x hx => hvalid x (List.mem_cons_of_mem _ hx)) hnd.2
    have hr : replay (e :: es) p = replay es (replayEntry p e) := rfl
    rw [hr, valueCount_cons]
    refine ⟨i1.trans r1, i2.trans r2, ?_, ?_⟩
    · rw [i3]
      unfold replayEntry
      rw [r3]
      by_cases hk : k = e.1
      · have h0 : valueCount es k = 0 := valueCount_of_not_mem es k (hk ▸ hnd.1)
        subst hk
        rw [h0]
        cases hg : isGlobal e.1 <;> simp
      · simp [hk]
    · rw [i4]
      unfold replayEntry
      rw [r4]
      by_cases hk : k = e.1
      · have h0 : valueCount es k = 0 := valueCount_of_not_mem es k (hk ▸ hnd.1)
        subst hk
        rw [h0]
        cases hg : isGlobal e.1 <;> simp
      · simp [hk]

theorem replay_keys (entries : OptionMap) (p : Arguments) (k : String)
    (h : k ∈ (replay entries p).Options.keys ∨ k ∈ (replay entries p).Globals.keys) :
    k ∈ entries.keys ∨ k ∈ p.Options.keys ∨ k ∈ p.Globals.keys := by
  induction entries generalizing p with
  | nil => exact Or.inr h
  | cons e es ih =>
    have hr : replay (e :: es) p = replay es (replayEntry p e) := rfl
    rw [hr] at h
    have hv : ∀ (values : List String) (q : Arguments),
        (k ∈ (values.foldl
            (fun p value => (p.addParam e.1 (if hasParam e.1 then value else "")).1)
            q).Options.keys ∨
         k ∈ (values.foldl
            (fun p value => (p.addParam e.1 (if hasParam e.1 then value else "")).1)
            q).Globals.keys) →
        k = e.1 ∨ k ∈ q.Options.keys ∨ k ∈ q.Globals.keys := by
      intro values
      induction values with
      | nil => intro q hq; exact Or.inr hq
      | cons v vs ihv =>
        intro q hq
        simp only [List.foldl_cons] at hq
        rcases ihv _ hq with h1 | h1
        · exact Or.inl h1
        · exact addParam_keys _ _ _ _ h1
    rcases ih (replayEntry p e) h with h1 | h1
    · exact Or.inl (List.mem_cons_of_mem _ h1)
    · rcases hv e.2.Args p h1 with h2 | h2
      · exact Or.inl (by rw [h2]; exact List.mem_cons_self _ _)
      · exact Or.inr h2

theorem valueCount_perm (m1 m2 : OptionMap) (h : List.Perm m1 m2) (hn : NodupKeys m2)
    (k : String) : valueCount m1 k = valueCount m2 k := by
  have hn1 := NodupKeys.perm h hn
  unfold valueCount
  cases h1 : m1.get k with
  | some o =>
    have := OptionMap.get_of_mem m2 k o hn (h.mem_iff.1 (OptionMap.mem_of_get _ _ _ h1))
    rw [this]
  | none =>
    cases h2 : m2.get k with
    | none => rfl
    | some o =>
      have := OptionMap.get_of_mem m1 k o hn1 (h.mem_iff.2 (OptionMap.mem_of_get _ _ _ h2))
      rw [h1] at this
      simp at this

/-! ## C1 -/

theorem isOp_shape (k : String) (h : isOp k = true) :
    isArg k = true ∧ k ≠ "-" ∧ k ≠ "--" ∧ k ≠ "" ∧ hasParam k = false ∧ isGlobal k = false ∧
      isConfigOption k = false := by
  have h1 : ∀ x ∈ isOpCases, x ∈ isArgCases ∧ x ≠ "-" ∧ x ≠ "--" ∧ x ≠ "" ∧
      x ∉ hasParamCases ∧ x ∉ isGlobalCases ∧ isConfigOption x = false := by decide
  have hk : k ∈ isOpCases := by simpa [isOp] using h
  simpa [isArg, hasParam, isGlobal] using h1 k hk

theorem isGlobal_shape (k : String) (h : isGlobal k = true) :
    isArg k = true ∧ isOp k = false := by
  have h1 : ∀ x ∈ isGlobalCases, x ∈ isArgCases ∧ x ∉ isOpCases := by decide
  have hk : k ∈ isGlobalCases := by simpa [isGlobal] using h
  simpa [isArg, isOp] using h1 k hk

theorem no_separator_key (p : Arguments) (hsep : p.ExistsArg ["--"] = false) :
    "--" ∉ p.Options.keys ∧ "--" ∉ p.Globals.keys := by
  have := (ExistsArg_single p "--").not
  rw [hsep] at this
  simp only [Bool.false_eq_true, not_false_eq_true, true_iff, not_or] at this
  exact this

/-- The serialized form of well-formed arguments without the separator. -/
theorem serialize_eq (A : Arguments) (hop : A.Op ≠ "") (hsep : A.ExistsArg ["--"] = false)
    (oA oF : RangeOrder) :
    serialize A oA oF =
      formatArg A.Op ::
        ((oA.visit A.Options).flatMap (fun e => formatBlock e.1 e.2) ++
          ((oF.visit A.Globals).flatMap (fun e => formatBlock e.1 e.2) ++ A.Targets)) := by
  have hf : (oA.visit A.Options).filter (fun e => e.1 != "--") = oA.visit A.Options := by
    rw [List.filter_eq_self]
    intro e he
    have hk : e.1 ∈ A.Options.keys :=
      (RangeOrder.mem_keys_visit oA _ _).1 (List.mem_map.2 ⟨e, he, rfl⟩)
    have hne : e.1 ≠ "--" := fun hh => (no_separator_key A hsep).1 (hh ▸ hk)
    simpa using hne
  unfold serialize
  rw [FormatArgs_eq, FormatGlobals_eq]
  simp only [formatArgsSpec, formatGlobalsSpec, hf, formatOp_eq, hop, ne_eq, not_false_eq_true,
    if_true, List.cons_append, List.append_assoc]

/-- Parsing the serialized form of arguments that are well formed, have an
operation, no separator, no flag `-`, no configuration flag and no target
starting with `-`. -/
theorem reparse_serialized (A : Arguments) (hw : WellFormed A) (hop : isOp A.Op = true)
    (hO : ∀ e ∈ A.Options, e.1 ≠ "-" ∧ isConfigOption e.1 = false)
    (hG : ∀ e ∈ A.Globals, e.1 ≠ "-" ∧ isConfigOption e.1 = false)
    (hsep : A.ExistsArg ["--"] = false)
    (ht : ∀ t ∈ A.Targets, HasPrefix t "-" = false)
    (oA oF : RangeOrder) (config : Configuration) (lines : List String)
    (closeErr ttyErr : Maybe Error) (oO oG : RangeOrder) :
    (MakeArguments.ParseCommandLine config
        { Args := serialize A oA oF, StdinLines := lines, StdinClose := closeErr,
          OpenTty := ttyErr } oO oG).err = none ∧
    (MakeArguments.ParseCommandLine config
        { Args := serialize A oA oF, StdinLines := lines, StdinClose := closeErr,
          OpenTty := ttyErr } oO oG).parser.Op = A.Op ∧
    (MakeArguments.ParseCommandLine config
        { Args := serialize A oA oF, StdinLines := lines, StdinClose := closeErr,
          OpenTty := ttyErr } oO oG).parser.Targets = A.Targets ∧
    ∀ k,
      valueCount (MakeArguments.ParseCommandLine config
        { Args := serialize A oA oF, StdinLines := lines, StdinClose := closeErr,
          OpenTty := ttyErr } oO oG).parser.Options k = valueCount A.Options k ∧
      valueCount (MakeArguments.ParseCommandLine config
        { Args := serialize A oA oF, StdinLines := lines, StdinClose := closeErr,
          OpenTty := ttyErr } oO oG).parser.Globals k = valueCount A.Globals k := by
  obtain ⟨a1, a2, a3, a4, a5, _, _⟩ := isOp_shape A.Op hop
  obtain ⟨n1, n2⟩ := no_separator_key A hsep
  -- the visited entries
  have hvO : ∀ e ∈ oA.visit A.Options,
      isArg e.1 = true ∧ isOp e.1 = false ∧ e.1 ≠ "-" ∧ e.1 ≠ "--" := by
    intro e he
    have hm := (oA.perm _).mem_iff.1 he
    obtain ⟨w1, w2, _, _⟩ := hw.options e hm
    exact ⟨w1, w2, (hO e hm).1, fun hh => n1 (hh ▸ List.mem_map.2 ⟨e, hm, rfl⟩)⟩
  have hvG : ∀ e ∈ oF.visit A.Globals,
      isArg e.1 = true ∧ isOp e.1 = false ∧ e.1 ≠ "-" ∧ e.1 ≠ "--" := by
    intro e he
    have hm := (oF.perm _).mem_iff.1 he
    obtain ⟨w1, w2⟩ := isGlobal_shape e.1 (hw.globals e hm).1
    exact ⟨w1, w2, (hG e hm).1, fun hh => n2 (hh ▸ List.mem_map.2 ⟨e, hm, rfl⟩)⟩
  -- the token loop
  let p0 : Arguments := { Op := A.Op, Options := [], Globals := [], Targets := [] }
  have hp0 : MakeArguments.addParam A.Op "" = (p0, none) := by
    rw [addParam_op _ _ _ hop]
    simp [Arguments.addOP, MakeArguments, p0]
  have hs0 : p0.ExistsArg ["--"] = false := by
    simp [p0, Arguments.ExistsArg, OptionMap.has, OptionMap.get]
  obtain ⟨b1, b2⟩ := parseLoop_blocks (oA.visit A.Options)
    ((oF.visit A.Globals).flatMap (fun e => formatBlock e.1 e.2) ++ A.Targets) p0
    hvO hs0
  obtain ⟨c1, c2⟩ := parseLoop_blocks (oF.visit A.Globals) A.Targets
    (replay (oA.visit A.Options) p0) hvG b2
  have d1 := parseLoop_targets A.Targets (replay (oF.visit A.Globals)
    (replay (oA.visit A.Options) p0)) c2 ht
  let pR : Arguments := replay (oF.visit A.Globals) (replay (oA.visit A.Options) p0)
  have hloop : MakeArguments.parseArgs (serialize A oA oF) =
      ({ pR with Targets := pR.Targets ++ A.Targets }, none) := by
    rw [serialize_eq A a4 hsep]
    unfold Arguments.parseArgs
    simp only [List.length_cons, Nat.lt_one_iff, Nat.add_one_ne_zero, if_false]
    rw [parseLoop]
    have hsm : MakeArguments.ExistsArg ["--"] = false := by decide
    simp only [Bool.false_eq_true, if_false,
      parseToken_formatArg A.Op a1 a2 a3 MakeArguments _ hsm, a5, hp0]
    rw [b1, c1, d1]
  -- what the replay leaves
  have hndO : NodupKeys (oA.visit A.Options) := NodupKeys.perm (oA.perm _) hw.nodupOptions
  have hndG : NodupKeys (oF.visit A.Globals) := NodupKeys.perm (oF.perm _) hw.nodupGlobals
  have hcO := fun k => replay_counts (oA.visit A.Options) p0
    (fun e he => ⟨(hvO e he).1, (hvO e he).2.1⟩) hndO k
  have hcG := fun k => replay_counts (oF.visit A.Globals) (replay (oA.visit A.Options) p0)
    (fun e he => ⟨(hvG e he).1, (hvG e he).2.1⟩) hndG k
  have hRop : pR.Op = A.Op := ((hcG "").1).trans (hcO "").1
  have hRt : pR.Targets = [] := ((hcG "").2.1).trans (hcO "").2.1
  have hkeys : ∀ k, (k ∈ pR.Options.keys ∨ k ∈ pR.Globals.keys) →
      k ∈ A.Options.keys ∨ k ∈ A.Globals.keys := by
    intro k hk
    rcases replay_keys _ _ k hk with h | h
    · exact Or.inr ((RangeOrder.mem_keys_visit oF _ _).1 h)
    · rcases replay_keys _ _ k h with h | h
      · exact Or.inl ((RangeOrder.mem_keys_visit oA _ _).1 h)
      · simp [p0, OptionMap.keys] at h
  have hAkey : ∀ k, (k ∈ A.Options.keys ∨ k ∈ A.Globals.keys) →
      k ≠ "-" ∧ isConfigOption k = false := by
    intro k hk
    rcases hk with h | h
    · obtain ⟨e, he, rfl⟩ := List.mem_map.1 h
      exact hO e he
    · obtain ⟨e, he, rfl⟩ := List.mem_map.1 h
      exact hG e he
  -- after the loop
  have hd : defaultOp { pR with Targets := pR.Targets ++ A.Targets } =
      { pR with Targets := pR.Targets ++ A.Targets } := by
    unfold defaultOp
    simp only [hRop, a4, if_false]
  have hx : (defaultOp { pR with Targets := pR.Targets ++ A.Targets }).ExistsArg ["-"]
      = false := by
    rw [hd]
    cases hh : Arguments.ExistsArg { pR with Targets := pR.Targets ++ A.Targets } ["-"] with
    | false => rfl
    | true =>
      exfalso
      have := (ExistsArg_single _ _).1 hh
      exact (hAkey "-" (hkeys "-" this)).1 rfl
  have hex := extractYayOptions_noop { pR with Targets := pR.Targets ++ A.Targets } config oO oG
    (fun e he => (hAkey e.1 (hkeys e.1 (Or.inl (List.mem_map.2 ⟨e, he, rfl⟩)))).2)
    (fun e he => (hAkey e.1 (hkeys e.1 (Or.inr (List.mem_map.2 ⟨e, he, rfl⟩)))).2)
  rw [ParseCommandLine_of_no_stdin _ _ _ _ _ _ hloop hx, hd, hex]
  refine ⟨rfl, hRop, by simp [hRt], fun k => ?_⟩
  have e0 : valueCount p0.Options k = 0 := rfl
  have e1 : valueCount p0.Globals k = 0 := rfl
  have pO := valueCount_perm _ _ (oA.perm A.Options) hw.nodupOptions k
  have pG := valueCount_perm _ _ (oF.perm A.Globals) hw.nodupGlobals k
  obtain ⟨_, _, o3, o4⟩ := hcO k
  obtain ⟨_, _, g3, g4⟩ := hcG k
  show valueCount pR.Options k = _ ∧ valueCount pR.Globals k = _
  rw [g3, g4, o3, o4, pO, pG]
  simp only [e0, e1, Nat.zero_add]
  cases hg : isGlobal k with
  | true =>
    have hz : valueCount A.Options k = 0 := by
      apply valueCount_of_not_mem
      intro hm
      obtain ⟨e, he, rfl⟩ := List.mem_map.1 hm
      have := (hw.options e he).2.2.1
      rw [hg] at this
      simp at this
    simp [hz]
  | false =>
    have hz : valueCount A.Globals k = 0 := by
      apply valueCount_of_not_mem
      intro hm
      obtain ⟨e, he, rfl⟩ := List.mem_map.1 hm
      have := (hw.globals e he).1
      rw [hg] at this
      simp at this
    simp [hz]

theorem occurrences_eq_of_valueCount (m1 m2 : OptionMap) (k : String)
    (h1 : ∀ e ∈ m1, e.2.Args ≠ []) (h2 : ∀ e ∈ m2, e.2.Args ≠ [])
    (h : valueCount m1 k = valueCount m2 k) : occurrences m1 k = occurrences m2 k := by
  unfold valueCount at h
  unfold occurrences
  cases g1 : m1.get k with
  | none =>
    cases g2 : m2.get k with
    | none => rfl
    | some o2 =>
      rw [g1, g2] at h
      have := h2 _ (OptionMap.mem_of_get _ _ _ g2)
      simp only at h this
      exact absurd (List.length_eq_zero.1 h.symm) this
  | some o1 =>
    cases g2 : m2.get k with
    | none =>
      rw [g1, g2] at h
      have := h1 _ (OptionMap.mem_of_get _ _ _ g1)
      simp only at h this
      exact absurd (List.length_eq_zero.1 h) this
    | some o2 =>
      rw [g1, g2] at h
      simp only at h
      simp [h]

/-- C1 as stated fails.  The vector `["--"]` parses to arguments in which `--`
is a recorded flag; their serialization is `["-Y"]`, and parsing it again gives
no flag at all.  The vector `["-"]` with the line `-q` on standard input parses
to arguments whose only target is `-q`; their serialization is `["-Y", "-q"]`,
and parsing it again gives the flag `q` and no target. -/
theorem serialize_reparse_counterexample :
    ((MakeArguments.ParseCommandLine blankConfiguration
        { Args := ["--"], StdinLines := [], StdinClose := none, OpenTty := none }
        RangeOrder.inOrder RangeOrder.inOrder).err = none ∧
      occurrences (MakeArguments.ParseCommandLine blankConfiguration
        { Args := ["--"], StdinLines := [], StdinClose := none, OpenTty := none }
        RangeOrder.inOrder RangeOrder.inOrder).parser.Options "--" = some 1 ∧
      serialize (MakeArguments.ParseCommandLine blankConfiguration
        { Args := ["--"], StdinLines := [], StdinClose := none, OpenTty := none }
        RangeOrder.inOrder RangeOrder.inOrder).parser RangeOrder.inOrder RangeOrder.inOrder
        = ["-Y"] ∧
      (MakeArguments.ParseCommandLine blankConfiguration
        { Args := ["-Y"], StdinLines := [], StdinClose := none, OpenTty := none }
        RangeOrder.inOrder RangeOrder.inOrder).err = none ∧
      occurrences (MakeArguments.ParseCommandLine blankConfiguration
        { Args := ["-Y"], StdinLines := [], StdinClose := none, OpenTty := none }
        RangeOrder.inOrder RangeOrder.inOrder).parser.Options "--" = none) ∧
    ((MakeArguments.ParseCommandLine blankConfiguration
        { Args := ["-"], StdinLines := ["-q"], StdinClose := none, OpenTty := none }
        RangeOrder.inOrder RangeOrder.inOrder).err = none ∧
      (MakeArguments.ParseCommandLine blankConfiguration
        { Args := ["-"], StdinLines := ["-q"], StdinClose := none, OpenTty := none }
        RangeOrder.inOrder RangeOrder.inOrder).parser =
        { Op := "Y", Options := [], Globals := [], Targets := ["-q"] } ∧
      serialize (MakeArguments.ParseCommandLine blankConfiguration
        { Args := ["-"], StdinLines := ["-q"], StdinClose := none, OpenTty := none }
        RangeOrder.inOrder RangeOrder.inOrder).parser RangeOrder.inOrder RangeOrder.inOrder
        = ["-Y", "-q"] ∧
      (MakeArguments.ParseCommandLine blankConfiguration
        { Args := ["-Y", "-q"], StdinLines := [], StdinClose := none, OpenTty := none }
        RangeOrder.inOrder RangeOrder.inOrder).parser =
        { Op := "Y", Options := [("q", { Args := [""] })], Globals := [], Targets := [] }) := by
  decide

/-- C1, amended: take an argument vector that `ParseCommandLine` parses
successfully, on a fresh parser, into arguments `A` in which the separator `--`
is not a recorded flag and no target starts with `-`.  Parsing again, on a
fresh parser, the token vector that serializes `A` (`FormatArgs`, then
`FormatGlobals`, then the targets, the maps visited in any order) succeeds and
gives arguments with the same `Op`, the same flag names in `Options` and in
`Globals`, each with the same number of recorded values, and the same
`Targets` as `A`. -/
theorem serialize_reparse_roundtrip (config : Configuration) (os : Process)
    (oO oG : RangeOrder)
    (hok : (MakeArguments.ParseCommandLine config os oO oG).err = none)
    (hsep : (MakeArguments.ParseCommandLine config os oO oG).parser.ExistsArg ["--"] = false)
    (ht : ∀ t ∈ (MakeArguments.ParseCommandLine config os oO oG).parser.Targets,
      HasPrefix t "-" = false)
    (oA oF : RangeOrder) (config2 : Configuration) (lines2 : List String)
    (closeErr2 ttyErr2 : Maybe Error) (oO2 oG2 : RangeOrder) :
    (MakeArguments.ParseCommandLine config2
        { Args := serialize (MakeArguments.ParseCommandLine config os oO oG).parser oA oF,
          StdinLines := lines2, StdinClose := closeErr2, OpenTty := ttyErr2 } oO2 oG2).err
      = none ∧
    (MakeArguments.ParseCommandLine config2
        { Args := serialize (MakeArguments.ParseCommandLine config os oO oG).parser oA oF,
          StdinLines := lines2, StdinClose := closeErr2, OpenTty := ttyErr2 } oO2 oG2).parser.Op
      = (MakeArguments.ParseCommandLine config os oO oG).parser.Op ∧
    (MakeArguments.ParseCommandLine config2
        { Args := serialize (MakeArguments.ParseCommandLine config os oO oG).parser oA oF,
          StdinLines := lines2, StdinClose := closeErr2, OpenTty := ttyErr2 }
        oO2 oG2).parser.Targets
      = (MakeArguments.ParseCommandLine config os oO oG).parser.Targets ∧
    ∀ k,
      occurrences (MakeArguments.ParseCommandLine config2
        { Args := serialize (MakeArguments.ParseCommandLine config os oO oG).parser oA oF,
          StdinLines := lines2, StdinClose := closeErr2, OpenTty := ttyErr2 }
        oO2 oG2).parser.Options k
        = occurrences (MakeArguments.ParseCommandLine config os oO oG).parser.Options k ∧
      occurrences (MakeArguments.ParseCommandLine config2
        { Args := serialize (MakeArguments.ParseCommandLine config os oO oG).parser oA oF,
          StdinLines := lines2, StdinClose := closeErr2, OpenTty := ttyErr2 }
        oO2 oG2).parser.Globals k
        = occurrences (MakeArguments.ParseCommandLine config os oO oG).parser.Globals k := by
  obtain ⟨hw, hop, hO, hG⟩ := ParseCommandLine_shape config os oO oG hok
  obtain ⟨r1, r2, r3, r4⟩ := reparse_serialized _ hw hop hO hG hsep ht oA oF config2 lines2
    closeErr2 ttyErr2 oO2 oG2
  obtain ⟨hw2, _, _, _⟩ := ParseCommandLine_shape config2 _ oO2 oG2 r1
  refine ⟨r1, r2, r3, fun k => ⟨?_, ?_⟩⟩
  · exact occurrences_eq_of_valueCount _ _ k (fun e he => (hw2.options e he).2.2.2)
      (fun e he => (hw.options e he).2.2.2) (r4 k).1
  · exact occurrences_eq_of_valueCount _ _ k (fun e he => (hw2.globals e he).2)
      (fun e he => (hw.globals e he).2) (r4 k).2

/-- Witness of C1 (amended) at the vector `["-S", "-dd", "--dbpath", "/tmp", "pkg"]`. -/
theorem serialize_reparse_roundtrip_witness :
    (MakeArguments.ParseCommandLine blankConfiguration
        { Args := ["-S", "-dd", "--dbpath", "/tmp", "pkg"], StdinLines := [],
          StdinClose := none, OpenTty := none }
        RangeOrder.inOrder RangeOrder.inOrder).parser =
      { Op := "S", Options := [("d", { Args := ["", ""] })],
        Globals := [("dbpath", { Args := ["/tmp"] })], Targets := ["pkg"] } ∧
    (MakeArguments.ParseCommandLine blankConfiguration
        { Args := serialize (MakeArguments.ParseCommandLine blankConfiguration
            { Args := ["-S", "-dd", "--dbpath", "/tmp", "pkg"], StdinLines := [],
              StdinClose := none, OpenTty := none }
            RangeOrder.inOrder RangeOrder.inOrder).parser
            RangeOrder.backwards RangeOrder.inOrder,
          StdinLines := [], StdinClose := none, OpenTty := none }
        RangeOrder.inOrder RangeOrder.inOrder).parser.Targets =
      (MakeArguments.ParseCommandLine blankConfiguration
        { Args := ["-S", "-dd", "--dbpath", "/tmp", "pkg"], StdinLines := [],
          StdinClose := none, OpenTty := none }
        RangeOrder.inOrder RangeOrder.inOrder).parser.Targets :=
  ⟨by decide,
   (serialize_reparse_roundtrip blankConfiguration
      { Args := ["-S", "-dd", "--dbpath", "/tmp", "pkg"], StdinLines := [],
        StdinClose := none, OpenTty := none }
      RangeOrder.inOrder RangeOrder.inOrder (by decide) (by decide) (by decide)
      RangeOrder.backwards RangeOrder.inOrder blankConfiguration [] none none
      RangeOrder.inOrder RangeOrder.inOrder).2.2.1⟩

/-! ## Registering a flag -/

theorem Option.Add_args (o : Option) (arg : String) : (o.Add arg).Args = o.Args ++ [arg] := by
  unfold Option.Add
  by_cases h : o.Args = []
  · simp [h]
  · simp [h]

theorem OptionMap.values_add (m : OptionMap) (key arg : String) :
    (m.add key arg).values key = m.values key ++ [arg] := by
  unfold OptionMap.values
  rw [OptionMap.get_add]
  simp only [if_true]
  cases hg : m.get key with
  | none => rfl
  | some o => exact Option.Add_args o arg

theorem OptionMap.get_add_ne (m : OptionMap) (key arg k : String) (h : k ≠ key) :
    (m.add key arg).get k = m.get k := by
  rw [OptionMap.get_add]
  simp [h]

/-- C12: the operation is set at most once. For an operation name `o`,
`addParam o v` on arguments with an empty `Op` succeeds and sets `Op` to `o`,
leaving `Options`, `Globals` and `Targets` as they were, whatever `v` is; on
arguments with a non-empty `Op` it returns the "only one operation may be
used at a time" error and leaves the arguments as they were. -/
theorem operation_set_at_most_once (p : Arguments) (o v : String) (h : isOp o = true) :
    (p.Op = "" →
      p.addParam o v =
        ({ Op := o, Options := p.Options, Globals := p.Globals, Targets := p.Targets }, none)) ∧
    (p.Op ≠ "" →
      p.addParam o v = (p, some "only one operation may be used at a time")) := by
  rw [addParam_op p o v h]
  unfold Arguments.addOP
  constructor
  · intro h0
    simp [h0]
  · intro h0
    simp [h0, errOnlyOneOperation]

theorem operation_set_at_most_once_witness :
    (MakeArguments.Op = "" →
      MakeArguments.addParam "S" "x" =
        ({ Op := "S", Options := MakeArguments.Options, Globals := MakeArguments.Globals,
           Targets := MakeArguments.Targets }, none)) ∧
    (MakeArguments.Op ≠ "" →
      MakeArguments.addParam "S" "x" =
        (MakeArguments, some "only one operation may be used at a time")) :=
  operation_set_at_most_once MakeArguments "S" "x" (by decide)

/-- C13: registering a flag fails exactly on grammar errors. `addParam`
returns an error if and only if the name is not a valid flag, which gives the
invalid-option error, or it is an operation and `Op` is already set; on an
error the arguments are unchanged; on success for a flag that is not an
operation the value is appended at the end of the values recorded for the
flag, in `Globals` when the flag is global and in `Options` otherwise, and
the operation, the targets, the other map and every other entry of the map
are unchanged. -/
theorem addParam_fails_exactly_on_grammar_errors (p : Arguments) (option arg : String) :
    ((p.addParam option arg).2 ≠ none ↔
      (isArg option = false ∨ (isOp option = true ∧ p.Op ≠ ""))) ∧
    (isArg option = false → (p.addParam option arg).2 = some (errInvalidOption option)) ∧
    ((p.addParam option arg).2 ≠ none → (p.addParam option arg).1 = p) ∧
    ((p.addParam option arg).2 = none → isOp option = false →
      (p.addParam option arg).1.Op = p.Op ∧
      (p.addParam option arg).1.Targets = p.Targets ∧
      (isGlobal option = true →
        (p.addParam option arg).1.Options = p.Options ∧
        (p.addParam option arg).1.Globals.values option = p.Globals.values option ++ [arg] ∧
        ∀ k, k ≠ option → (p.addParam option arg).1.Globals.get k = p.Globals.get k) ∧
      (isGlobal option = false →
        (p.addParam option arg).1.Globals = p.Globals ∧
        (p.addParam option arg).1.Options.values option = p.Options.values option ++ [arg] ∧
        ∀ k, k ≠ option → (p.addParam option arg).1.Options.get k = p.Options.get k)) := by
  cases ha : isArg option with
  | false =>
    rw [addParam_invalid p option arg ha]
    simp
  | true =>
    cases ho : isOp option with
    | true =>
      rw [addParam_op p option arg ho]
      unfold Arguments.addOP
      by_cases h0 : p.Op = ""
      · simp [h0]
      · simp [h0]
    | false =>
      cases hg : isGlobal option with
      | true =>
        rw [addParam_global p option arg ha ho hg]
        simp only [ne_eq, not_true_eq_false, Bool.true_eq_false, Bool.false_eq_true, false_and,
          or_self, false_implies, true_implies, true_and, and_true]
        exact ⟨OptionMap.values_add _ _ _, fun k hk => OptionMap.get_add_ne _ _ _ _ hk⟩
      | false =>
        rw [addParam_option p option arg ha ho hg]
        simp only [ne_eq, not_true_eq_false, Bool.true_eq_false, Bool.false_eq_true, false_and,
          or_self, false_implies, true_implies, true_and, and_true]
        exact ⟨OptionMap.values_add _ _ _, fun k hk => OptionMap.get_add_ne _ _ _ _ hk⟩

/-! ## Presence of a flag -/

theorem ExistsArg_iff (p : Arguments) (names : List String) :
    p.ExistsArg names = true ↔ ∃ n ∈ names, n ∈ p.Options.keys ∨ n ∈ p.Globals.keys := by
  induction names with
  | nil => simp [Arguments.ExistsArg]
  | cons n ns ih =>
    unfold Arguments.ExistsArg
    cases h1 : p.Options.has n with
    | true =>
      simp only [if_true, true_iff]
      exact ⟨n, List.mem_cons_self _ _, Or.inl ((OptionMap.has_iff _ _).1 h1)⟩
    | false =>
      cases h2 : p.Globals.has n with
      | true =>
        simp only [if_true, Bool.false_eq_true, if_false, true_iff]
        exact ⟨n, List.mem_cons_self _ _, Or.inr ((OptionMap.has_iff _ _).1 h2)⟩
      | false =>
        simp only [Bool.false_eq_true, if_false, ih]
        have n1 : n ∉ p.Options.keys := fun hk => by
          rw [(OptionMap.has_iff _ _).2 hk] at h1
          exact Bool.noConfusion h1
        have n2 : n ∉ p.Globals.keys := fun hk => by
          rw [(OptionMap.has_iff _ _).2 hk] at h2
          exact Bool.noConfusion h2
        constructor
        · rintro ⟨m, hm, hk⟩
          exact ⟨m, List.mem_cons_of_mem _ hm, hk⟩
        · rintro ⟨m, hm, hk⟩
          rcases List.mem_cons.1 hm with rfl | hm
          · rcases hk with hk | hk
            · exact absurd hk n1
            · exact absurd hk n2
          · exact ⟨m, hm, hk⟩

theorem ExistsArg_eq_false_iff (p : Arguments) (names : List String) :
    p.ExistsArg names = false ↔ ∀ n ∈ names, n ∉ p.Options.keys ∧ n ∉ p.Globals.keys := by
  rw [← Bool.not_eq_true, ExistsArg_iff]
  constructor
  · intro h n hn
    exact ⟨fun hk => h ⟨n, hn, Or.inl hk⟩, fun hk => h ⟨n, hn, Or.inr hk⟩⟩
  · rintro h ⟨n, hn, hk | hk⟩
    · exact (h n hn).1 hk
    · exact (h n hn).2 hk

theorem DelArg_fields (names : List String) (p : Arguments) :
    (p.DelArg names).Op = p.Op ∧ (p.DelArg names).Targets = p.Targets ∧
    List.Sublist (p.DelArg names).Options p.Options ∧
    List.Sublist (p.DelArg names).Globals p.Globals ∧
    (∀ k, k ∈ (p.DelArg names).Options.keys ↔ k ∈ p.Options.keys ∧ k ∉ names) ∧
    (∀ k, k ∈ (p.DelArg names).Globals.keys ↔ k ∈ p.Globals.keys ∧ k ∉ names) := by
  induction names generalizing p with
  | nil => simp [Arguments.DelArg]
  | cons n ns ih =>
    unfold Arguments.DelArg
    obtain ⟨a, b, c, d, e, f⟩ := ih
      { p with Options := p.Options.delete n, Globals := p.Globals.delete n }
    refine ⟨a, b, c.trans (List.filter_sublist _), d.trans (List.filter_sublist _), ?_, ?_⟩
    · intro k
      rw [e k]
      simp only [OptionMap.mem_keys_delete, List.mem_cons, not_or]
      tauto
    · intro k
      rw [f k]
      simp only [OptionMap.mem_keys_delete, List.mem_cons, not_or]
      tauto

/-- C16: `ExistsArg` is a logical OR across the names: it is true if and only
if one of the names is a key of `Options` or of `Globals`; it is false for the
empty list, it does not depend on the order of the names, and it is false for
every name just removed with `DelArg`. -/
theorem ExistsArg_is_or_across_aliases (p : Arguments) (names : List String) :
    (p.ExistsArg names = true ↔ ∃ n ∈ names, n ∈ p.Options.keys ∨ n ∈ p.Globals.keys) ∧
    p.ExistsArg [] = false ∧
    (∀ reordered : List String, names.Perm reordered →
      p.ExistsArg reordered = p.ExistsArg names) ∧
    (∀ n ∈ names, (p.DelArg names).ExistsArg [n] = false) ∧
    (p.DelArg names).ExistsArg names = false := by
  refine ⟨ExistsArg_iff p names, rfl, ?_, ?_, ?_⟩
  · intro reordered hperm
    rw [Bool.eq_iff_iff, ExistsArg_iff, ExistsArg_iff]
    constructor
    · rintro ⟨n, hn, hk⟩
      exact ⟨n, hperm.mem_iff.2 hn, hk⟩
    · rintro ⟨n, hn, hk⟩
      exact ⟨n, hperm.mem_iff.1 hn, hk⟩
  · intro n hn
    obtain ⟨_, _, _, _, e, f⟩ := DelArg_fields names p
    rw [ExistsArg_eq_false_iff]
    intro m hm
    rw [List.mem_singleton] at hm
    subst hm
    exact ⟨fun hk => ((e m).1 hk).2 hn, fun hk => ((f m).1 hk).2 hn⟩
  · obtain ⟨_, _, _, _, e, f⟩ := DelArg_fields names p
    rw [ExistsArg_eq_false_iff]
    intro m hm
    exact ⟨fun hk => ((e m).1 hk).2 hm, fun hk => ((f m).1 hk).2 hm⟩

/-! ## Every outcome of `ParseCommandLine` -/

theorem WellFormed.AddArg (options : List String) (p : Arguments) (h : WellFormed p) :
    WellFormed (p.AddArg options).1 := by
  induction options generalizing p with
  | nil => exact h
  | cons o os ih =>
    unfold Arguments.AddArg
    have hw := WellFormed.addParam p o "" h
    rcases hr : p.addParam o "" with ⟨p1, _ | e⟩
    · rw [hr] at hw
      exact ih p1 hw
    · rw [hr] at hw
      exact hw

theorem WellFormed.DelArg (options : List String) (p : Arguments) (h : WellFormed p) :
    WellFormed (p.DelArg options) := by
  obtain ⟨a, _, c, d, _, _⟩ := DelArg_fields options p
  exact WellFormed.of_sublist p _ h c d (by rw [a]; exact h.op)

theorem WellFormed.of_Built (p : Arguments) (h : Built p) : WellFormed p := by
  induction h with
  | make => exact WellFormed_MakeArguments
  | addParam p option arg _ ih => exact WellFormed.addParam p option arg ih
  | AddArg p options _ ih => exact WellFormed.AddArg options p ih
  | DelArg p options _ ih => exact WellFormed.DelArg options p ih

theorem WellFormed.defaultOp (p : Arguments) (h : WellFormed p) : WellFormed (defaultOp p) :=
  WellFormed.of_sublist p _ h
    (by unfold settings.defaultOp; split <;> exact List.Sublist.refl _)
    (by unfold settings.defaultOp; split <;> exact List.Sublist.refl _)
    (Or.inr (defaultOp_op p h.op))

theorem WellFormed.parseStdin (p : Arguments) (os : Process) (h : WellFormed p) :
    WellFormed (p.parseStdin os).1 := by
  rw [parseStdin_fst]
  exact WellFormed.of_sublist p _ h (List.Sublist.refl _) (List.Sublist.refl _) h.op

theorem WellFormed.extractYayOptions (p : Arguments) (config : Configuration)
    (oO oG : RangeOrder) (h : WellFormed p) :
    WellFormed (p.extractYayOptions config oO oG).parser := by
  obtain ⟨s1, _, _, _⟩ := extractYayOptions_spec p config oO oG
  have hsub : List.Sublist (p.extractYayOptions config oO oG).parser.Options p.Options ∧
      List.Sublist (p.extractYayOptions config oO oG).parser.Globals p.Globals := by
    unfold Arguments.extractYayOptions
    simp only
    have a := extractLoop_sublist (oO.visit p.Options) config p
    have b := extractLoop_sublist
      (oG.visit (extractLoop (oO.visit p.Options) config p).2.Globals)
      (extractLoop (oO.visit p.Options) config p).1
      (extractLoop (oO.visit p.Options) config p).2
    exact ⟨b.1.trans a.1, b.2.trans a.2⟩
  exact WellFormed.of_sublist p _ h hsub.1 hsub.2 (by rw [s1]; exact h.op)

/-- The outcomes of `ParseCommandLine`: an error of the token loop, an error of
closing standard input, an error of opening the terminal, or success. -/
theorem ParseCommandLine_cases (parser : Arguments) (config : Configuration) (os : Process)
    (oO oG : RangeOrder) :
    (∃ e, (parser.parseArgs os.Args).2 = some e ∧
      parser.ParseCommandLine config os oO oG =
        { parser := (parser.parseArgs os.Args).1, config := config, rpcAURURL := none,
          err := some e }) ∨
    (∃ e, (parser.parseArgs os.Args).2 = none ∧
      (defaultOp (parser.parseArgs os.Args).1).ExistsArg ["-"] = true ∧
      os.StdinClose = some e ∧
      parser.ParseCommandLine config os oO oG =
        { parser := ((defaultOp (parser.parseArgs os.Args).1).parseStdin os).1,
          config := config, rpcAURURL := none, err := some e }) ∨
    (∃ e, (parser.parseArgs os.Args).2 = none ∧
      (defaultOp (parser.parseArgs os.Args).1).ExistsArg ["-"] = true ∧
      os.StdinClose = none ∧ os.OpenTty = some e ∧
      parser.ParseCommandLine config os oO oG =
        { parser := ((defaultOp (parser.parseArgs os.Args).1).parseStdin os).1.DelArg ["-"],
          config := config, rpcAURURL := none, err := some e }) ∨
    (∃ p2 : Arguments, (parser.parseArgs os.Args).2 = none ∧
      (p2 = defaultOp (parser.parseArgs os.Args).1 ∨
        p2 = ((defaultOp (parser.parseArgs os.Args).1).parseStdin os).1.DelArg ["-"]) ∧
      parser.ParseCommandLine config os oO oG =
        { parser := (p2.extractYayOptions config oO oG).parser,
          config := (p2.extractYayOptions config oO oG).config,
          rpcAURURL := some (p2.extractYayOptions config oO oG).rpcAURURL,
          err := none }) := by
  rcases hl : parser.parseArgs os.Args with ⟨p1, _ | e⟩
  · right
    cases hx : (defaultOp p1).ExistsArg ["-"] with
    | false =>
      right; right
      exact ⟨defaultOp p1, rfl, Or.inl rfl,
        ParseCommandLine_of_no_stdin parser p1 config os oO oG hl hx⟩
    | true =>
      cases hc : os.StdinClose with
      | some e =>
        left
        refine ⟨e, rfl, rfl, rfl, ?_⟩
        unfold defaultOp at hx
        simp only [Arguments.ParseCommandLine, hl, hx, defaultOp, Arguments.parseStdin, hc]
        simp
      | none =>
        cases ht : os.OpenTty with
        | some e =>
          right; left
          refine ⟨e, rfl, rfl, rfl, rfl, ?_⟩
          unfold defaultOp at hx
          simp only [Arguments.ParseCommandLine, hl, hx, defaultOp, Arguments.parseStdin, hc, ht]
          simp
        | none =>
          right; right
          exact ⟨((defaultOp p1).parseStdin os).1.DelArg ["-"], rfl, Or.inr rfl,
            ParseCommandLine_of_stdin parser p1 config os oO oG hl hx hc ht⟩
  · left
    exact ⟨e, rfl, ParseCommandLine_of_loop_err parser p1 config os oO oG e hl⟩

theorem WellFormed.ParseCommandLine (parser : Arguments) (config : Configuration)
    (os : Process) (oO oG : RangeOrder) (h : WellFormed parser) :
    WellFormed (parser.ParseCommandLine config os oO oG).parser := by
  have h1 := WellFormed.parseArgs os.Args parser h
  have h2 := WellFormed.defaultOp _ h1
  have h3 := WellFormed.parseStdin _ os h2
  have h4 := WellFormed.DelArg ["-"] _ h3
  rcases ParseCommandLine_cases parser config os oO oG with
    ⟨e, _, hp⟩ | ⟨e, _, _, _, hp⟩ | ⟨e, _, _, _, _, hp⟩ | ⟨p2, _, hp2, hp⟩
  · rw [hp]; exact h1
  · rw [hp]; exact h3
  · rw [hp]; exact h4
  · rw [hp]
    rcases hp2 with rfl | rfl
    · exact WellFormed.extractYayOptions _ config oO oG h2
    · exact WellFormed.extractYayOptions _ config oO oG h4

theorem WellFormed.keys (p : Arguments) (h : WellFormed p) :
    (∀ k ∈ p.Globals.keys, isGlobal k = true) ∧
    (∀ k ∈ p.Options.keys, isGlobal k = false ∧ isOp k = false) ∧
    (∀ k, ¬ (k ∈ p.Options.keys ∧ k ∈ p.Globals.keys)) := by
  have hG : ∀ k ∈ p.Globals.keys, isGlobal k = true := by
    intro k hk
    obtain ⟨e, he, rfl⟩ := List.mem_map.1 hk
    exact (h.globals e he).1
  have hO : ∀ k ∈ p.Options.keys, isGlobal k = false ∧ isOp k = false := by
    intro k hk
    obtain ⟨e, he, rfl⟩ := List.mem_map.1 hk
    exact ⟨(h.options e he).2.2.1, (h.options e he).2.1⟩
  refine ⟨hG, hO, ?_⟩
  rintro k ⟨h1, h2⟩
  have a := (hO k h1).1
  rw [hG k h2] at a
  exact Bool.noConfusion a

/-- C11: `Options` and `Globals` never share a key. In every arguments value
obtained from `MakeArguments` by a sequence of `addParam`, `AddArg` and
`DelArg` calls, and in the arguments left by every run of `ParseCommandLine`
on fresh arguments, every key of `Globals` satisfies `isGlobal`, no key of
`Options` satisfies `isGlobal` or `isOp`, and no name is a key of both. -/
theorem options_and_globals_never_share_a_key (p : Arguments)
    (h : Built p ∨ ∃ (config : Configuration) (os : Process) (oO oG : RangeOrder),
      p = (MakeArguments.ParseCommandLine config os oO oG).parser) :
    (∀ k ∈ p.Globals.keys, isGlobal k = true) ∧
    (∀ k ∈ p.Options.keys, isGlobal k = false ∧ isOp k = false) ∧
    (∀ k, ¬ (k ∈ p.Options.keys ∧ k ∈ p.Globals.keys)) := by
  apply WellFormed.keys
  rcases h with h | ⟨config, os, oO, oG, rfl⟩
  · exact WellFormed.of_Built p h
  · exact WellFormed.ParseCommandLine _ config os oO oG WellFormed_MakeArguments

/-- Witness of C11 at the arguments built by registering `b` with a value,
`color` as a switch and `y` as a switch, then deleting `y`. -/
theorem options_and_globals_never_share_a_key_witness :
    (∀ k ∈ ((((MakeArguments.addParam "b" "/db").1.AddArg ["color"]).1.AddArg
        ["y"]).1.DelArg ["y"]).Globals.keys, isGlobal k = true) ∧
    (∀ k ∈ ((((MakeArguments.addParam "b" "/db").1.AddArg ["color"]).1.AddArg
        ["y"]).1.DelArg ["y"]).Options.keys, isGlobal k = false ∧ isOp k = false) ∧
    (∀ k, ¬ (k ∈ ((((MakeArguments.addParam "b" "/db").1.AddArg ["color"]).1.AddArg
        ["y"]).1.DelArg ["y"]).Options.keys ∧
      k ∈ ((((MakeArguments.addParam "b" "/db").1.AddArg ["color"]).1.AddArg
        ["y"]).1.DelArg ["y"]).Globals.keys)) :=
  options_and_globals_never_share_a_key _
    (Or.inl (Built.DelArg _ ["y"] (Built.AddArg _ ["y"] (Built.AddArg _ ["color"]
      (Built.addParam _ "b" "/db" Built.make)))))

/-! ## The default operation -/

/-- C20: the default operation and the order of targets. For a non-empty
argument vector in which no token starts with `-`, `ParseCommandLine` on fresh
arguments succeeds with `Op` equal to `Y`, with `Options` and `Globals`
empty and with `Targets` equal to the vector, in the same order and with
duplicates kept; and after every successful parse `Op` is non-empty and is an
operation. -/
theorem default_operation_and_target_order (config : Configuration) (os : Process)
    (oO oG : RangeOrder) :
    (os.Args ≠ [] → (∀ t ∈ os.Args, HasPrefix t "-" = false) →
      (MakeArguments.ParseCommandLine config os oO oG).err = none ∧
      (MakeArguments.ParseCommandLine config os oO oG).parser =
        { Op := "Y", Options := [], Globals := [], Targets := os.Args }) ∧
    ((MakeArguments.ParseCommandLine config os oO oG).err = none →
      (MakeArguments.ParseCommandLine config os oO oG).parser.Op ≠ "" ∧
      isOp (MakeArguments.ParseCommandLine config os oO oG).parser.Op = true) := by
  constructor
  · intro hne ht
    have hl : MakeArguments.parseArgs os.Args =
        ({ Op := "", Options := [], Globals := [], Targets := os.Args }, none) := by
      unfold Arguments.parseArgs
      have hlen : ¬ os.Args.length < 1 := by
        cases hA : os.Args with
        | nil => exact absurd hA hne
        | cons a r => simp
      rw [if_neg hlen, parseLoop_targets os.Args MakeArguments (by decide) ht]
      simp [MakeArguments]
    have hd : defaultOp { Op := "", Options := [], Globals := [], Targets := os.Args } =
        { Op := "Y", Options := [], Globals := [], Targets := os.Args } := by
      simp [defaultOp]
    have hx : Arguments.ExistsArg
        (defaultOp { Op := "", Options := [], Globals := [], Targets := os.Args }) ["-"]
          = false := by
      rw [hd]
      rfl
    rw [ParseCommandLine_of_no_stdin MakeArguments _ config os oO oG hl hx, hd]
    have hex := extractYayOptions_noop
      { Op := "Y", Options := [], Globals := [], Targets := os.Args } config oO oG
      (by simp) (by simp)
    rw [hex]
    exact ⟨rfl, rfl⟩
  · intro hok
    have hs := (ParseCommandLine_shape config os oO oG hok).2.1
    refine ⟨?_, hs⟩
    intro h0
    rw [h0] at hs
    exact absurd hs (by decide)

/-- Witness of C20 at the vector `["pkg", "other", "pkg"]`. -/
theorem default_operation_and_target_order_witness :
    (MakeArguments.ParseCommandLine blankConfiguration
      { Args := ["pkg", "other", "pkg"], StdinLines := [], StdinClose := none, OpenTty := none }
      RangeOrder.inOrder RangeOrder.inOrder).err = none ∧
    (MakeArguments.ParseCommandLine blankConfiguration
      { Args := ["pkg", "other", "pkg"], StdinLines := [], StdinClose := none, OpenTty := none }
      RangeOrder.inOrder RangeOrder.inOrder).parser =
        { Op := "Y", Options := [], Globals := [], Targets := ["pkg", "other", "pkg"] } :=
  (default_operation_and_target_order blankConfiguration
    { Args := ["pkg", "other", "pkg"], StdinLines := [], StdinClose := none, OpenTty := none }
    RangeOrder.inOrder RangeOrder.inOrder).1 (by decide) (by decide)

/-! ## Flags given twice -/

theorem ExistsDouble_eq_GetArg (p : Arguments) (names : List String) :
    p.ExistsDouble names = (p.GetArg names).2.1 := by
  induction names with
  | nil => rfl
  | cons n ns ih =>
    unfold Arguments.ExistsDouble Arguments.GetArg
    cases h1 : p.Options.get n with
    | some o => rfl
    | none =>
      cases h2 : p.Globals.get n with
      | some o => rfl
      | none => exact ih

theorem ExistsDouble_sound (p : Arguments) (names : List String)
    (h : p.ExistsDouble names = true) :
    ∃ n ∈ names, 2 ≤ (p.Options.values n).length ∨ 2 ≤ (p.Globals.values n).length := by
  induction names with
  | nil => exact absurd h (by simp [Arguments.ExistsDouble])
  | cons n ns ih =>
    unfold Arguments.ExistsDouble at h
    cases h1 : p.Options.get n with
    | some o =>
      rw [h1] at h
      refine ⟨n, List.mem_cons_self _ _, Or.inl ?_⟩
      simpa [OptionMap.values, h1] using h
    | none =>
      rw [h1] at h
      cases h2 : p.Globals.get n with
      | some o =>
        rw [h2] at h
        refine ⟨n, List.mem_cons_self _ _, Or.inr ?_⟩
        simpa [OptionMap.values, h2] using h
      | none =>
        rw [h2] at h
        obtain ⟨m, hm, hk⟩ := ih h
        exact ⟨m, List.mem_cons_of_mem _ hm, hk⟩

/-- C17: `ExistsDouble` is decided by the first listed name that has an
entry, so it is not an OR over the names. After parsing
`-Sy --refresh --refresh` the name `refresh` has two recorded values, yet
`ExistsDouble("y", "refresh")` is false, while with the names in the other
order it is true. What does hold: `ExistsDouble` agrees with the `double`
result of `GetArg`, and when it is true one of the names has at least two
recorded values. -/
theorem ExistsDouble_decided_by_first_present_name :
    ((MakeArguments.parseArgs ["-Sy", "--refresh", "--refresh"]).1.Options.values "y" = [""] ∧
      (MakeArguments.parseArgs ["-Sy", "--refresh", "--refresh"]).1.Options.values "refresh"
        = ["", ""] ∧
      (MakeArguments.parseArgs ["-Sy", "--refresh", "--refresh"]).1.ExistsDouble
        ["y", "refresh"] = false ∧
      (MakeArguments.parseArgs ["-Sy", "--refresh", "--refresh"]).1.ExistsDouble
        ["refresh", "y"] = true) ∧
    (∀ (p : Arguments) (names : List String),
      p.ExistsDouble names = (p.GetArg names).2.1) ∧
    (∀ (p : Arguments) (names : List String), p.ExistsDouble names = true →
      ∃ n ∈ names, 2 ≤ (p.Options.values n).length ∨ 2 ≤ (p.Globals.values n).length) :=
  ⟨by decide, ExistsDouble_eq_GetArg, ExistsDouble_sound⟩

/-! ## The privilege predicate -/

theorem NeedRoot_help (p : Arguments) (runtime : Runtime)
    (h : p.ExistsArg ["h", "help"] = true) : p.NeedRoot runtime = false := by
  unfold Arguments.NeedRoot
  rw [if_pos h]

theorem NeedRoot_sync (p : Arguments) (runtime : Runtime) (hop : p.Op = "S" ∨ p.Op = "sync") :
    p.NeedRoot runtime =
      (!p.ExistsArg ["h", "help"] &&
        (p.ExistsArg ["y", "refresh"] ||
          !(p.ExistsArg ["p", "print", "print-format"] || p.ExistsArg ["s", "search"] ||
            p.ExistsArg ["l", "list"] || p.ExistsArg ["g", "groups"] ||
            p.ExistsArg ["i", "info"] ||
            (p.ExistsArg ["c", "clean"] && decide (runtime.Mode = TargetMode.ModeAUR))))) := by
  unfold Arguments.NeedRoot
  rcases hop with h | h <;> rw [h] <;>
    cases p.ExistsArg ["h", "help"] <;> cases p.ExistsArg ["y", "refresh"] <;>
    cases p.ExistsArg ["p", "print", "print-format"] <;> cases p.ExistsArg ["s", "search"] <;>
    cases p.ExistsArg ["l", "list"] <;> cases p.ExistsArg ["g", "groups"] <;>
    cases p.ExistsArg ["i", "info"] <;> cases p.ExistsArg ["c", "clean"] <;> simp

theorem NeedRoot_query (p : Arguments) (runtime : Runtime) (hop : p.Op = "Q" ∨ p.Op = "query") :
    p.NeedRoot runtime = (!p.ExistsArg ["h", "help"] && p.ExistsArg ["k", "check"]) := by
  unfold Arguments.NeedRoot
  rcases hop with h | h <;> rw [h] <;>
    cases p.ExistsArg ["h", "help"] <;> cases p.ExistsArg ["k", "check"] <;> simp

theorem NeedRoot_remove (p : Arguments) (runtime : Runtime)
    (hop : p.Op = "R" ∨ p.Op = "remove") :
    p.NeedRoot runtime =
      (!p.ExistsArg ["h", "help"] && !p.ExistsArg ["p", "print", "print-format"]) := by
  unfold Arguments.NeedRoot
  rcases hop with h | h <;> rw [h] <;>
    cases p.ExistsArg ["h", "help"] <;> cases p.ExistsArg ["p", "print", "print-format"] <;>
    simp

theorem NeedRoot_congr (p q : Arguments) (r1 r2 : Runtime) (hop : q.Op = p.Op)
    (hex : ∀ names, q.ExistsArg names = p.ExistsArg names) (hm : r2.Mode = r1.Mode) :
    q.NeedRoot r2 = p.NeedRoot r1 := by
  unfold Arguments.NeedRoot
  simp only [hop, hex, hm]

/-- Counterexample to C18: after parsing `-S --help` the operation is `S` and
none of the flags refresh, print, search, list, groups, info is present, yet
`NeedRoot` is false; and after parsing `-Sc` the result of `NeedRoot` is false
in the mode `ModeAUR` and true in another mode, so it is not a function of the
arguments alone. -/
theorem sync_privilege_counterexample :
    ((MakeArguments.parseArgs ["-S", "--help"]).1.Op = "S" ∧
      (MakeArguments.parseArgs ["-S", "--help"]).1.ExistsArg ["y", "refresh"] = false ∧
      (MakeArguments.parseArgs ["-S", "--help"]).1.ExistsArg ["p", "print", "print-format"]
        = false ∧
      (MakeArguments.parseArgs ["-S", "--help"]).1.ExistsArg ["s", "search"] = false ∧
      (MakeArguments.parseArgs ["-S", "--help"]).1.ExistsArg ["l", "list"] = false ∧
      (MakeArguments.parseArgs ["-S", "--help"]).1.ExistsArg ["g", "groups"] = false ∧
      (MakeArguments.parseArgs ["-S", "--help"]).1.ExistsArg ["i", "info"] = false ∧
      (MakeArguments.parseArgs ["-S", "--help"]).1.NeedRoot
        { Mode := TargetMode.ModeAny, SaveConfig := false } = false) ∧
    ((MakeArguments.parseArgs ["-Sc"]).1.NeedRoot
        { Mode := TargetMode.ModeAUR, SaveConfig := false } = false ∧
      (MakeArguments.parseArgs ["-Sc"]).1.NeedRoot
        { Mode := TargetMode.ModeAny, SaveConfig := false } = true) := by
  decide

/-- C18, amended: the sync privilege rule. For arguments whose `Op` is `S` or
`sync` and in which none of the flags refresh, print, search, list, groups,
info is present, `NeedRoot` is true exactly when help is absent and it is not
the case that clean is present in the mode `ModeAUR`; and the result of
`NeedRoot` is a function of `Op`, of the presence of flags and of the mode of
the runtime. -/
theorem sync_privilege_rule (p : Arguments) (runtime : Runtime)
    (hop : p.Op = "S" ∨ p.Op = "sync")
    (hrefresh : p.ExistsArg ["y", "refresh"] = false)
    (hprint : p.ExistsArg ["p", "print", "print-format"] = false)
    (hsearch : p.ExistsArg ["s", "search"] = false)
    (hlist : p.ExistsArg ["l", "list"] = false)
    (hgroups : p.ExistsArg ["g", "groups"] = false)
    (hinfo : p.ExistsArg ["i", "info"] = false) :
    (p.NeedRoot runtime = true ↔
      (p.ExistsArg ["h", "help"] = false ∧
        ¬ (p.ExistsArg ["c", "clean"] = true ∧ runtime.Mode = TargetMode.ModeAUR))) ∧
    (∀ (q : Arguments) (other : Runtime), q.Op = p.Op →
      (∀ names, q.ExistsArg names = p.ExistsArg names) → other.Mode = runtime.Mode →
      q.NeedRoot other = p.NeedRoot runtime) := by
  refine ⟨?_, fun q other h1 h2 h3 => NeedRoot_congr p q runtime other h1 h2 h3⟩
  rw [NeedRoot_sync p runtime hop, hrefresh, hprint, hsearch, hlist, hgroups, hinfo]
  cases p.ExistsArg ["h", "help"] <;> cases p.ExistsArg ["c", "clean"] <;> simp

/-- Witness of C18, amended, at the arguments parsed from `-Sc` in the mode
`ModeRepo`. -/
theorem sync_privilege_rule_witness :
    ((MakeArguments.parseArgs ["-Sc"]).1.NeedRoot
        { Mode := TargetMode.ModeRepo, SaveConfig := false } = true ↔
      ((MakeArguments.parseArgs ["-Sc"]).1.ExistsArg ["h", "help"] = false ∧
        ¬ ((MakeArguments.parseArgs ["-Sc"]).1.ExistsArg ["c", "clean"] = true ∧
          ({ Mode := TargetMode.ModeRepo, SaveConfig := false } : Runtime).Mode
            = TargetMode.ModeAUR))) ∧
    (∀ (q : Arguments) (other : Runtime), q.Op = (MakeArguments.parseArgs ["-Sc"]).1.Op →
      (∀ names, q.ExistsArg names = (MakeArguments.parseArgs ["-Sc"]).1.ExistsArg names) →
      other.Mode = ({ Mode := TargetMode.ModeRepo, SaveConfig := false } : Runtime).Mode →
      q.NeedRoot other = (MakeArguments.parseArgs ["-Sc"]).1.NeedRoot
        { Mode := TargetMode.ModeRepo, SaveConfig := false }) :=
  sync_privilege_rule (MakeArguments.parseArgs ["-Sc"]).1
    { Mode := TargetMode.ModeRepo, SaveConfig := false }
    (by decide) (by decide) (by decide) (by decide) (by decide) (by decide) (by decide)

/-- Counterexample to C19: after parsing `-R --help pkg` the operation is `R`
and no print flag is present, yet `NeedRoot` is false. -/
theorem remove_privilege_counterexample :
    (MakeArguments.parseArgs ["-R", "--help", "pkg"]).1.Op = "R" ∧
    (MakeArguments.parseArgs ["-R", "--help", "pkg"]).1.ExistsArg
      ["p", "print", "print-format"] = false ∧
    (MakeArguments.parseArgs ["-R", "--help", "pkg"]).1.NeedRoot
      { Mode := TargetMode.ModeAny, SaveConfig := false } = false := by
  decide

/-- C19, amended: the query and remove privilege rules. For arguments whose
`Op` is `Q` or `query`, `NeedRoot` is true only when the check flag is
present, and exactly when it is present and help is absent. For arguments
whose `Op` is `R` or `remove`, `NeedRoot` is false when help is present; when
help is absent it is true unless a print flag is present, in which case it is
false. -/
theorem query_and_remove_privilege_rules (p : Arguments) (runtime : Runtime) :
    ((p.Op = "Q" ∨ p.Op = "query") →
      (p.NeedRoot runtime = true → p.ExistsArg ["k", "check"] = true) ∧
      (p.NeedRoot runtime = true ↔
        (p.ExistsArg ["k", "check"] = true ∧ p.ExistsArg ["h", "help"] = false))) ∧
    ((p.Op = "R" ∨ p.Op = "remove") →
      (p.ExistsArg ["h", "help"] = true → p.NeedRoot runtime = false) ∧
      (p.ExistsArg ["h", "help"] = false →
        (p.ExistsArg ["p", "print", "print-format"] = true → p.NeedRoot runtime = false) ∧
        (p.ExistsArg ["p", "print", "print-format"] = false → p.NeedRoot runtime = true))) := by
  constructor
  · intro hop
    rw [NeedRoot_query p runtime hop]
    cases p.ExistsArg ["h", "help"] <;> cases p.ExistsArg ["k", "check"] <;> simp
  · intro hop
    rw [NeedRoot_remove p runtime hop]
    cases p.ExistsArg ["h", "help"] <;> cases p.ExistsArg ["p", "print", "print-format"] <;>
      simp

/-- Witness of C19, amended, at the arguments parsed from `-R pkg`. -/
theorem query_and_remove_privilege_rules_witness :
    (MakeArguments.parseArgs ["-R", "pkg"]).1.NeedRoot
      { Mode := TargetMode.ModeAny, SaveConfig := false } = true :=
  (((query_and_remove_privilege_rules (MakeArguments.parseArgs ["-R", "pkg"]).1
    { Mode := TargetMode.ModeAny, SaveConfig := false }).2 (by decide)).2 (by decide)).2
      (by decide)

/-! ## Integer extension options -/

theorem digitChar_spec : ∀ m : Nat, m < 10 →
    (Nat.digitChar m).isDigit = true ∧ ((Nat.digitChar m).toNat : Int) - 48 = m := by
  decide

theorem isDigit_bounds (ch : Char) (h : ch.isDigit = true) :
    48 ≤ ch.toNat ∧ ch.toNat ≤ 57 := by
  simp only [Char.isDigit, Bool.and_eq_true, decide_eq_true_eq] at h
  exact ⟨h.1, h.2⟩

theorem isDigit_ne_sign (ch : Char) (h : ch.isDigit = true) : ch ≠ '-' ∧ ch ≠ '+' := by
  constructor
  · rintro rfl
    exact absurd h (by decide)
  · rintro rfl
    exact absurd h (by decide)

theorem digitsValue_append (l : List Char) (d : Char) :
    digitsValue (l ++ [d]) = 10 * digitsValue l + ((d.toNat : Int) - 48) := by
  unfold digitsValue
  rw [List.foldl_append]
  rfl

theorem digitsValue_nonneg (ds : List Char) (hd : ∀ ch ∈ ds, ch.isDigit = true) :
    0 ≤ digitsValue ds := by
  induction ds using List.reverseRecOn with
  | nil => exact le_refl _
  | append_singleton l d ih =>
    rw [digitsValue_append]
    have h1 := ih (fun ch hch => hd ch (List.mem_append_left _ hch))
    have h2 := (isDigit_bounds d (hd d (by simp))).1
    omega

theorem toDigitsCore_spec : ∀ (fuel n : Nat) (ds : List Char), n < fuel →
    ∃ l : List Char, Nat.toDigitsCore 10 fuel n ds = l ++ ds ∧ l ≠ [] ∧
      (∀ ch ∈ l, ch.isDigit = true) ∧ digitsValue l = (n : Int) := by
  intro fuel
  induction fuel with
  | zero => intro n ds h; exact absurd h (Nat.not_lt_zero _)
  | succ fuel ih =>
    intro n ds h
    have hm : n % 10 < 10 := Nat.mod_lt _ (by decide)
    obtain ⟨d1, d2⟩ := digitChar_spec (n % 10) hm
    unfold Nat.toDigitsCore
    simp only
    by_cases hz : n / 10 = 0
    · rw [if_pos hz]
      refine ⟨[Nat.digitChar (n % 10)], rfl, by simp, ?_, ?_⟩
      · intro ch hch
        rw [List.mem_singleton] at hch
        rw [hch]
        exact d1
      · have e : digitsValue [Nat.digitChar (n % 10)] =
            10 * 0 + (((Nat.digitChar (n % 10)).toNat : Int) - 48) := rfl
        rw [e, d2]
        omega
    · rw [if_neg hz]
      have hlt : n / 10 < fuel := by omega
      obtain ⟨l, e1, _, e3, e4⟩ := ih (n / 10) (Nat.digitChar (n % 10) :: ds) hlt
      refine ⟨l ++ [Nat.digitChar (n % 10)], by rw [e1]; simp, by simp, ?_, ?_⟩
      · intro ch hch
        rcases List.mem_append.1 hch with hch | hch
        · exact e3 ch hch
        · rw [List.mem_singleton] at hch
          rw [hch]
          exact d1
      · rw [digitsValue_append, e4, d2]
        omega

theorem toString_digits (n : Nat) :
    (toString n).data ≠ [] ∧ (∀ ch ∈ (toString n).data, ch.isDigit = true) ∧
    digitsValue (toString n).data = (n : Int) := by
  obtain ⟨l, e1, e2, e3, e4⟩ := toDigitsCore_spec (n + 1) n [] (Nat.lt_succ_self n)
  have e : (toString n).data = l := by
    show Nat.toDigitsCore 10 (n + 1) n [] = l
    rw [e1, List.append_nil]
  rw [e]
  exact ⟨e2, e3, e4⟩

theorem Atoi_of_body (s : String) (ds : List Char)
    (hb : (match s.data with
      | '-' :: r => r
      | '+' :: r => r
      | r => r) = ds) :
    Atoi s =
      if ds = [] ∨ (ds.any fun ch => !ch.isDigit) = true then none
      else if -9223372036854775808 ≤
            (if s.data.head? = some '-' then - digitsValue ds else digitsValue ds) ∧
          (if s.data.head? = some '-' then - digitsValue ds else digitsValue ds) ≤
            9223372036854775807 then
        some (if s.data.head? = some '-' then - digitsValue ds else digitsValue ds)
      else none := by
  subst hb
  simp only [Atoi, decide_eq_true_eq]

theorem Atoi_minus (s : String) (r : List Char) (hs : s.data = '-' :: r) :
    Atoi s =
      if r = [] ∨ (r.any fun ch => !ch.isDigit) = true then none
      else if -9223372036854775808 ≤ - digitsValue r ∧ - digitsValue r ≤ 9223372036854775807
        then some (- digitsValue r)
      else none := by
  rw [Atoi_of_body s r (by rw [hs]; rfl)]
  simp only [hs, List.head?_cons, if_true]

theorem Atoi_plus (s : String) (r : List Char) (hs : s.data = '+' :: r) :
    Atoi s =
      if r = [] ∨ (r.any fun ch => !ch.isDigit) = true then none
      else if -9223372036854775808 ≤ digitsValue r ∧ digitsValue r ≤ 9223372036854775807
        then some (digitsValue r)
      else none := by
  rw [Atoi_of_body s r (by rw [hs]; rfl)]
  have hn : ¬ ((s.data.head? : Maybe Char) = some '-') := by
    rw [hs]
    simp
  simp only [hn, if_false]

theorem Atoi_plain (s : String) (c : Char) (r : List Char) (hs : s.data = c :: r)
    (c1 : c ≠ '-') (c2 : c ≠ '+') :
    Atoi s =
      if ((c :: r).any fun ch => !ch.isDigit) = true then none
      else if -9223372036854775808 ≤ digitsValue (c :: r) ∧
          digitsValue (c :: r) ≤ 9223372036854775807
        then some (digitsValue (c :: r))
      else none := by
  have hb : (match s.data with
      | '-' :: r => r
      | '+' :: r => r
      | r => r) = c :: r := by
    rw [hs]
    split
    · rename_i heq
      exact absurd (List.cons.inj heq).1 c1
    · rename_i heq
      exact absurd (List.cons.inj heq).1 c2
    · rfl
  rw [Atoi_of_body s (c :: r) hb]
  have hn : ¬ ((s.data.head? : Maybe Char) = some '-') := by
    rw [hs]
    simpa using c1
  simp only [hn, if_false, reduceCtorEq, false_or]

theorem all_digits_of_not_any (r : List Char)
    (h : ¬ (r.any fun ch => !ch.isDigit) = true) : ∀ ch ∈ r, ch.isDigit = true := by
  intro ch hch
  cases hx : ch.isDigit with
  | true => rfl
  | false => exact absurd (List.any_eq_true.2 ⟨ch, hch, by simp [hx]⟩) h

theorem Atoi_digits (s : String) (hne : s.data ≠ [])
    (hd : ∀ ch ∈ s.data, ch.isDigit = true) :
    Atoi s =
      if digitsValue s.data ≤ 9223372036854775807 then some (digitsValue s.data) else none := by
  have hv := digitsValue_nonneg s.data hd
  have hany : ¬ (s.data.any fun ch => !ch.isDigit) = true := by
    rw [List.any_eq_true]
    rintro ⟨ch, hch, hx⟩
    simp [hd ch hch] at hx
  rcases hs : s.data with _ | ⟨c, r⟩
  · exact absurd hs hne
  · obtain ⟨c1, c2⟩ := isDigit_ne_sign c (hd c (by rw [hs]; simp))
    rw [hs] at hany hv
    rw [Atoi_plain s c r hs c1 c2, if_neg hany]
    by_cases hle : digitsValue (c :: r) ≤ 9223372036854775807
    · rw [if_pos hle, if_pos ⟨by omega, hle⟩]
    · rw [if_neg hle, if_neg (fun h => hle h.2)]

theorem Atoi_toString (n : Nat) :
    Atoi (toString n) = if n ≤ 9223372036854775807 then some (n : Int) else none := by
  obtain ⟨e1, e2, e3⟩ := toString_digits n
  rw [Atoi_digits (toString n) e1 e2, e3]
  by_cases h : n ≤ 9223372036854775807
  · rw [if_pos h, if_pos (by omega)]
  · rw [if_neg h, if_neg (by omega)]

theorem Atoi_negative (s : String) (n : Int) (hs : s.data.head? = some '-')
    (h : Atoi s = some n) : n ≤ 0 := by
  rcases hd : s.data with _ | ⟨c, r⟩
  · rw [hd] at hs
    simp at hs
  · rw [hd] at hs
    have hc : c = '-' := by simpa using hs
    subst hc
    rw [Atoi_minus s r hd] at h
    by_cases hbad : r = [] ∨ (r.any fun ch => !ch.isDigit) = true
    · rw [if_pos hbad] at h
      exact absurd h (by simp)
    · rw [if_neg hbad] at h
      have hv := digitsValue_nonneg r (all_digits_of_not_any r (fun hx => hbad (Or.inr hx)))
      split at h
      · simp only [Option.some.injEq] at h
        omega
      · exact absurd h (by simp)

theorem Atoi_unparsable (s : String)
    (h : s = "" ∨ ∃ ch ∈ s.data.tail, ch.isDigit = false) : Atoi s = none := by
  rcases h with rfl | ⟨ch, hch, hx⟩
  · rfl
  · rcases hd : s.data with _ | ⟨c, r⟩
    · rw [hd] at hch
      simp at hch
    · rw [hd] at hch
      simp only [List.tail_cons] at hch
      have hr : (r.any fun ch => !ch.isDigit) = true :=
        List.any_eq_true.2 ⟨ch, hch, by simp [hx]⟩
      have hcr : ((c :: r).any fun ch => !ch.isDigit) = true :=
        List.any_eq_true.2 ⟨ch, List.mem_cons_of_mem _ hch, by simp [hx]⟩
      by_cases c1 : c = '-'
      · subst c1
        rw [Atoi_minus s r hd, if_pos (Or.inr hr)]
      · by_cases c2 : c = '+'
        · subst c2
          rw [Atoi_plus s r hd, if_pos (Or.inr hr)]
        · rw [Atoi_plain s c r hd c1 c2, if_pos hcr]

theorem handleConfig_requestsplitn (c : Configuration) (v : String) :
    handleConfig c "requestsplitn" v =
      (match Atoi v with
        | some n => if n > 0 then { c with RequestSplitN := n } else c
        | none => c, true) := by
  rfl

theorem handleConfig_completioninterval (c : Configuration) (v : String) :
    handleConfig c "completioninterval" v =
      (match Atoi v with
        | some n => { c with CompletionInterval := n }
        | none => c, true) := by
  rfl

/-- Counterexample to C15: `9223372036854775808` is the decimal representation
of a positive integer, yet handling `requestsplitn` with it leaves the
configuration unchanged; and `+7` is not the decimal representation of an
integer, yet handling `requestsplitn` with it sets `RequestSplitN` to 7. -/
theorem integer_option_counterexample :
    toString (9223372036854775808 : Nat) = "9223372036854775808" ∧
    handleConfig blankConfiguration "requestsplitn" "9223372036854775808" =
      (blankConfiguration, true) ∧
    (handleConfig blankConfiguration "requestsplitn" "9223372036854775808").1.RequestSplitN
      ≠ 9223372036854775808 ∧
    (∀ n : Nat, toString n ≠ "+7") ∧
    (handleConfig blankConfiguration "requestsplitn" "+7").1.RequestSplitN = 7 := by
  refine ⟨by decide, by decide, by decide, ?_, by decide⟩
  intro n hn
  have h := (toString_digits n).2.1 '+' (by rw [hn]; decide)
  exact absurd h (by decide)

/-- C15, amended: the integer extension options are parsed defensively.
Handling `requestsplitn` or `completioninterval` never fails. With a value
that `Atoi` parses to a positive integer, `requestsplitn` sets `RequestSplitN`
to it, and with any other value it leaves the configuration unchanged; with a
value that `Atoi` rejects, `completioninterval` leaves the configuration
unchanged. In particular `requestsplitn` sets `RequestSplitN` to `n` for the
decimal representation of `n` between 1 and 9223372036854775807, and leaves
the configuration unchanged for the decimal representation of zero or of a
larger integer, for a value that starts with `-`, for the empty value and for
a value with a character after the first that is not a digit. -/
theorem integer_options_parsed_defensively (c : Configuration) (v : String) :
    (handleConfig c "requestsplitn" v).2 = true ∧
    (handleConfig c "completioninterval" v).2 = true ∧
    (∀ n : Int, Atoi v = some n → 0 < n →
      handleConfig c "requestsplitn" v = ({ c with RequestSplitN := n }, true)) ∧
    ((Atoi v = none ∨ ∃ n : Int, Atoi v = some n ∧ n ≤ 0) →
      handleConfig c "requestsplitn" v = (c, true)) ∧
    (Atoi v = none → handleConfig c "completioninterval" v = (c, true)) ∧
    (∀ n : Nat, 0 < n → n ≤ 9223372036854775807 →
      handleConfig c "requestsplitn" (toString n) = ({ c with RequestSplitN := n }, true)) ∧
    (∀ n : Nat, n = 0 ∨ 9223372036854775807 < n →
      handleConfig c "requestsplitn" (toString n) = (c, true)) ∧
    (v.data.head? = some '-' → handleConfig c "requestsplitn" v = (c, true)) ∧
    ((v = "" ∨ ∃ ch ∈ v.data.tail, ch.isDigit = false) →
      handleConfig c "requestsplitn" v = (c, true) ∧
      handleConfig c "completioninterval" v = (c, true)) := by
  have hpos : ∀ (w : String) (n : Int), Atoi w = some n → 0 < n →
      handleConfig c "requestsplitn" w = ({ c with RequestSplitN := n }, true) := by
    intro w n h1 h2
    rw [handleConfig_requestsplitn, h1]
    simp [h2]
  have hnon : ∀ w : String, (Atoi w = none ∨ ∃ n : Int, Atoi w = some n ∧ n ≤ 0) →
      handleConfig c "requestsplitn" w = (c, true) := by
    intro w h
    rw [handleConfig_requestsplitn]
    rcases h with h | ⟨n, h, hn⟩
    · rw [h]
    · rw [h]
      have : ¬ n > 0 := by omega
      simp [this]
  have hci : ∀ w : String, Atoi w = none →
      handleConfig c "completioninterval" w = (c, true) := by
    intro w h
    rw [handleConfig_completioninterval, h]
  refine ⟨rfl, rfl, hpos v, hnon v, hci v, ?_, ?_, ?_, ?_⟩
  · intro n h1 h2
    refine hpos _ n ?_ (by omega)
    rw [Atoi_toString, if_pos h2]
  · intro n h
    apply hnon
    rw [Atoi_toString]
    rcases h with rfl | h
    · right
      exact ⟨0, by simp, le_refl _⟩
    · left
      rw [if_neg (by omega)]
  · intro h
    apply hnon
    cases ha : Atoi v with
    | none => exact Or.inl rfl
    | some n => exact Or.inr ⟨n, rfl, Atoi_negative v n h ha⟩
  · intro h
    exact ⟨hnon v (Or.inl (Atoi_unparsable v h)), hci v (Atoi_unparsable v h)⟩

/-! ## The text of a parse error -/

theorem addParam_err (p : Arguments) (k v : String) (e : Error)
    (h : (p.addParam k v).2 = some e) :
    e = errOnlyOneOperation ∨ (e = errInvalidOption k ∧ isArg k = false) := by
  cases ha : isArg k with
  | false =>
    rw [addParam_invalid p k v ha] at h
    simp only [Option.some.injEq] at h
    exact Or.inr ⟨h.symm, rfl⟩
  | true =>
    cases ho : isOp k with
    | true =>
      rw [addParam_op p k v ho] at h
      unfold Arguments.addOP at h
      split at h
      · simp only [Option.some.injEq] at h
        exact Or.inl h.symm
      · exact absurd h (by simp)
    | false =>
      rw [(addParam_not_op p k v ha ho).1] at h
      exact absurd h (by simp)

theorem parseShortLoop_err (param : String) (chars : List Char) (p : Arguments) (e : Error)
    (h : (parseShortLoop param p chars).err = some e) :
    e = errOnlyOneOperation ∨
      ∃ c ∈ chars, e = errInvalidOption (String.singleton c) ∧
        isArg (String.singleton c) = false := by
  induction chars generalizing p with
  | nil => exact absurd h (by simp [parseShortLoop])
  | cons c rest ih =>
    unfold parseShortLoop at h
    simp only at h
    by_cases hp : hasParam (String.singleton c) = true
    · have hv := (hasParam_valid _ hp).1
      rw [if_pos hp] at h
      split at h
      · rcases addParam_err _ _ _ _ h with h1 | ⟨_, h2⟩
        · exact Or.inl h1
        · rw [hv] at h2
          exact Bool.noConfusion h2
      · rcases addParam_err _ _ _ _ h with h1 | ⟨_, h2⟩
        · exact Or.inl h1
        · rw [hv] at h2
          exact Bool.noConfusion h2
    · rw [if_neg hp, AddArg_single] at h
      rcases hr : p.addParam (String.singleton c) "" with ⟨p1, _ | e1⟩
      · rw [hr] at h
        simp only at h
        rcases ih p1 h with h1 | ⟨d, hd, h2⟩
        · exact Or.inl h1
        · exact Or.inr ⟨d, List.mem_cons_of_mem _ hd, h2⟩
      · rw [hr] at h
        simp only [Option.some.injEq] at h
        subst h
        have he : (p.addParam (String.singleton c) "").2 = some e1 := by rw [hr]
        rcases addParam_err _ _ _ _ he with h1 | h2
        · exact Or.inl h1
        · exact Or.inr ⟨c, List.mem_cons_self _ _, h2⟩

theorem infix_of_mem_drop (c : Char) (l : List Char) (n : Nat) (h : c ∈ l.drop n) :
    [c] <:+: l := by
  have hm : c ∈ l := List.mem_of_mem_drop h
  obtain ⟨s, t, rfl⟩ := List.append_of_mem hm
  exact ⟨s, t, by simp⟩

theorem errInvalidOption_contains (name : String) :
    name.data <:+: (errInvalidOption name).data :=
  ⟨"invalid option '".data, "'".data, by simp [errInvalidOption]⟩

/-- Counterexample to C14: on `["--foo"]` the error is `invalid option 'foo'`,
which does not contain the token `--foo`; and on `["-S", "-Q"]` the error is
`only one operation may be used at a time`, which contains neither the token
`-Q` nor the flag `Q`. -/
theorem parse_error_token_counterexample :
    (MakeArguments.ParseCommandLine blankConfiguration
      { Args := ["--foo"], StdinLines := [], StdinClose := none, OpenTty := none }
      RangeOrder.inOrder RangeOrder.inOrder).err = some "invalid option 'foo'" ∧
    ¬ ("--foo".data <:+: "invalid option 'foo'".data) ∧
    (MakeArguments.ParseCommandLine blankConfiguration
      { Args := ["-S", "-Q"], StdinLines := [], StdinClose := none, OpenTty := none }
      RangeOrder.inOrder RangeOrder.inOrder).err =
        some "only one operation may be used at a time" ∧
    ¬ ("-Q".data <:+: "only one operation may be used at a time".data) ∧
    ¬ ("Q".data <:+: "only one operation may be used at a time".data) := by
  decide

theorem SplitN_parts (s : String) :
    (SplitN s = [s] ∧ s.data.takeWhile (fun c => c != '=') = s.data) ∨
      ∃ b : List Char,
        SplitN s = [String.mk (s.data.takeWhile (fun c => c != '=')), String.mk b] := by
  unfold SplitN
  rw [List.span_eq_take_drop]
  rcases hd : s.data.dropWhile (fun c => c != '=') with _ | ⟨x, b⟩
  · refine Or.inl ⟨rfl, ?_⟩
    have ht := List.takeWhile_append_dropWhile (fun c => c != '=') s.data
    rw [hd, List.append_nil] at ht
    exact ht
  · exact Or.inr ⟨b, rfl⟩

theorem errInvalidOption_data (name : String) :
    (errInvalidOption name).data = "invalid option '".data ++ name.data ++ "'".data := by
  simp [errInvalidOption, String.data_append]

theorem token_not_in_message (t n : List Char) (ht : t.head? = some '-')
    (hlen : n.length + 2 ≤ t.length) :
    ¬ t <:+: "invalid option '".data ++ n ++ "'".data := by
  rintro ⟨a, b, hab⟩
  have hl := congrArg List.length hab
  have hP : "invalid option '".data.length = 16 := by decide
  simp only [List.length_append, List.length_cons, List.length_nil, hP] at hl
  have ha : a.length < "invalid option '".data.length := by rw [hP]; omega
  obtain ⟨c, r, rfl⟩ : ∃ c r, t = c :: r := by
    cases t with
    | nil => simp at ht
    | cons c r => exact ⟨c, r, rfl⟩
  simp only [List.head?_cons, Option.some.injEq] at ht
  subst ht
  have h1 : (a ++ '-' :: r ++ b)[a.length]? = some '-' := by
    rw [List.append_assoc, List.getElem?_append_right (Nat.le_refl _), Nat.sub_self]
    simp
  have h2 : ("invalid option '".data ++ n ++ "'".data)[a.length]? =
      ("invalid option '".data)[a.length]? := by
    rw [List.append_assoc, List.getElem?_append_left ha]
  rw [hab, h2] at h1
  have hm : '-' ∈ "invalid option '".data := List.getElem?_mem h1
  exact absurd hm (by decide)

theorem bundle_not_in_message (cs : List Char) (c : Char) (hc : c ∈ cs) :
    ¬ ('-' :: cs) <:+: "invalid option '".data ++ [c] ++ "'".data := by
  by_cases hlen : 2 ≤ cs.length
  · exact token_not_in_message ('-' :: cs) [c] rfl (by simpa using hlen)
  · obtain ⟨d, rfl⟩ : ∃ d, cs = [d] := by
      cases cs with
      | nil => simp at hc
      | cons d r =>
        cases r with
        | nil => exact ⟨d, rfl⟩
        | cons _ _ => simp at hlen
    have hd : c = d := by simpa using hc
    subst hd
    rintro ⟨a, b, hab⟩
    have hl := congrArg List.length hab
    have hP : "invalid option '".data.length = 16 := by decide
    simp only [List.length_append, List.length_cons, List.length_nil, hP] at hl
    by_cases ha : a.length < "invalid option '".data.length
    · have h1 : (a ++ ['-', c] ++ b)[a.length]? = some '-' := by
        rw [List.append_assoc, List.getElem?_append_right (Nat.le_refl _), Nat.sub_self]
        simp
      have h2 : ("invalid option '".data ++ [c] ++ "'".data)[a.length]? =
          ("invalid option '".data)[a.length]? := by
        rw [List.append_assoc, List.getElem?_append_left ha]
      rw [hab, h2] at h1
      exact absurd (List.getElem?_mem h1) (by decide)
    · have ha2 : a.length = 16 := by rw [hP] at ha; omega
      have hb : b = [] := by
        apply List.eq_nil_of_length_eq_zero
        omega
      subst hb
      have hab2 : a ++ ['-', c] = "invalid option '".data ++ c :: "'".data := by
        simpa using hab
      have h3 := List.append_inj hab2 (by rw [ha2, hP])
      obtain ⟨h5, h6⟩ := List.cons.inj h3.2
      rw [← h5] at h6
      exact absurd h6 (by decide)

theorem parseToken_err_part (p : Arguments) (arg next : String) (e : Error)
    (h : (parseToken p arg next).err = some e) :
    e = errOnlyOneOperation ∨
      ∃ name : String, e = errInvalidOption name ∧ isArg name = false ∧
        ((HasPrefix arg "--" = true ∧
            name.data = (sliceFrom arg 2).data.takeWhile (fun c => c != '=')) ∨
         (HasPrefix arg "--" = false ∧ HasPrefix arg "-" = true ∧
            ∃ c ∈ (sliceFrom arg 1).data, name = String.singleton c)) := by
  unfold parseToken at h
  by_cases hsep : p.ExistsArg ["--"] = true
  · rw [if_pos hsep] at h
    exact absurd h (by simp)
  · rw [if_neg hsep] at h
    by_cases hlong : HasPrefix arg "--" = true
    · rw [if_pos hlong] at h
      unfold Arguments.parseLongOption at h
      by_cases hdd : arg = "--"
      · rw [if_pos hdd, AddArg_single] at h
        simp only at h
        rcases addParam_err _ _ _ _ h with h1 | ⟨_, h2⟩
        · exact Or.inl h1
        · rw [hdd] at h2
          exact absurd h2 (by decide)
      · rw [if_neg hdd] at h
        simp only at h
        rcases SplitN_parts (sliceFrom arg 2) with ⟨hs, hw⟩ | ⟨b, hs⟩
        · rw [hs] at h
          simp only at h
          split at h
          · rcases addParam_err _ _ _ _ h with h1 | h2
            · exact Or.inl h1
            · exact Or.inr ⟨_, h2.1, h2.2, Or.inl ⟨hlong, hw.symm⟩⟩
          · rw [AddArg_single] at h
            rcases addParam_err _ _ _ _ h with h1 | h2
            · exact Or.inl h1
            · exact Or.inr ⟨_, h2.1, h2.2, Or.inl ⟨hlong, hw.symm⟩⟩
        · rw [hs] at h
          simp only at h
          rcases addParam_err _ _ _ _ h with h1 | h2
          · exact Or.inl h1
          · exact Or.inr ⟨_, h2.1, h2.2, Or.inl ⟨hlong, rfl⟩⟩
    · rw [if_neg hlong] at h
      have hlong2 : HasPrefix arg "--" = false := by simpa using hlong
      by_cases hshort : HasPrefix arg "-" = true
      · rw [if_pos hshort] at h
        unfold Arguments.parseShortOption at h
        by_cases hd : arg = "-"
        · rw [if_pos hd, AddArg_single] at h
          simp only at h
          rcases addParam_err _ _ _ _ h with h1 | ⟨_, h2⟩
          · exact Or.inl h1
          · exact absurd h2 (by decide)
        · rw [if_neg hd] at h
          rcases parseShortLoop_err _ _ _ _ h with h1 | ⟨c, hc, h2, h3⟩
          · exact Or.inl h1
          · exact Or.inr ⟨_, h2, h3, Or.inr ⟨hlong2, hshort, c, hc, rfl⟩⟩
      · rw [if_neg hshort] at h
        exact absurd h (by simp)

theorem named_part_facts (token name : String)
    (h : (HasPrefix token "--" = true ∧
            name.data = (sliceFrom token 2).data.takeWhile (fun c => c != '=')) ∨
         (HasPrefix token "--" = false ∧ HasPrefix token "-" = true ∧
            ∃ c ∈ (sliceFrom token 1).data, name = String.singleton c)) :
    name.data <:+: token.data ∧ name.data <:+: (errInvalidOption name).data ∧
      ¬ token.data <:+: (errInvalidOption name).data := by
  refine ⟨?_, errInvalidOption_contains name, ?_⟩
  · rcases h with ⟨_, hn⟩ | ⟨_, _, c, hc, hn⟩
    · rw [hn]
      exact (List.takeWhile_prefix _).isInfix.trans (List.drop_suffix 2 token.data).isInfix
    · rw [hn]
      exact infix_of_mem_drop c token.data 1 hc
  · rw [errInvalidOption_data]
    rcases h with ⟨hp, hn⟩ | ⟨_, hp, c, hc, hn⟩
    · obtain ⟨rest, hr⟩ := List.isPrefixOf_iff_prefix.1 hp
      have hr2 : token.data = '-' :: '-' :: rest := hr.symm
      apply token_not_in_message
      · rw [hr2]; rfl
      · rw [hn, hr2]
        have : (rest.takeWhile (fun c => c != '=')).length ≤ rest.length :=
          (List.takeWhile_prefix _).length_le
        simp only [sliceFrom, hr2, List.drop_succ_cons, List.drop_zero, List.length_cons]
        omega
    · obtain ⟨rest, hr⟩ := List.isPrefixOf_iff_prefix.1 hp
      have hr2 : token.data = '-' :: rest := hr.symm
      have hc2 : c ∈ rest := by
        simpa [sliceFrom, hr2] using hc
      rw [hn, hr2]
      exact bundle_not_in_message rest c hc2

theorem HasPrefix_dash_of_long (t : String) (h : HasPrefix t "--" = true) :
    HasPrefix t "-" = true := by
  unfold HasPrefix at h ⊢
  obtain ⟨rest, hr⟩ := List.isPrefixOf_iff_prefix.1 h
  rw [← hr]
  rfl

theorem parseToken_err_dash (p : Arguments) (arg next : String) (e : Error)
    (h : (parseToken p arg next).err = some e) : HasPrefix arg "-" = true := by
  unfold parseToken at h
  by_cases hsep : p.ExistsArg ["--"] = true
  · rw [if_pos hsep] at h
    exact absurd h (by simp)
  · rw [if_neg hsep] at h
    by_cases hlong : HasPrefix arg "--" = true
    · exact HasPrefix_dash_of_long arg hlong
    · rw [if_neg hlong] at h
      by_cases hshort : HasPrefix arg "-" = true
      · exact hshort
      · rw [if_neg hshort] at h
        exact absurd h (by simp)

/-- An error of the token loop is the error of processing one token of the
vector, with its lookahead, in some state. -/
theorem parseLoop_err_at (args : List String) (p : Arguments) (usedNext : Bool) (e : Error)
    (h : (parseLoop p usedNext args).2 = some e) :
    ∃ (pre : List String) (token : String) (post : List String) (q : Arguments),
      args = pre ++ token :: post ∧ (parseToken q token (post.headD "")).err = some e := by
  induction args generalizing p usedNext with
  | nil => exact absurd h (by simp [parseLoop])
  | cons arg rest ih =>
    unfold parseLoop at h
    cases usedNext with
    | true =>
      simp only [if_true] at h
      obtain ⟨pre, token, post, q, h1, h2⟩ := ih p false h
      exact ⟨arg :: pre, token, post, q, by rw [h1]; rfl, h2⟩
    | false =>
      simp only [Bool.false_eq_true, if_false] at h
      cases hr : (parseToken p arg (rest.headD "")).err with
      | some e1 =>
        rw [hr] at h
        simp only [Option.some.injEq] at h
        subst h
        exact ⟨[], arg, rest, p, rfl, hr⟩
      | none =>
        rw [hr] at h
        simp only at h
        obtain ⟨pre, token, post, q, h1, h2⟩ := ih _ _ h
        exact ⟨arg :: pre, token, post, q, by rw [h1]; rfl, h2⟩

theorem dash_token_not_in (t m : List Char) (ht : t.head? = some '-') (hm : '-' ∉ m) :
    ¬ t <:+: m := by
  rintro ⟨a, b, hab⟩
  cases t with
  | nil => simp at ht
  | cons c r =>
    simp only [List.head?_cons, Option.some.injEq] at ht
    subst ht
    apply hm
    rw [← hab]
    simp

/-- C14, amended: what a parse error names. The tokens of the vector are
strings of characters, that is valid UTF-8 text. When `ParseCommandLine` on
fresh arguments fails, the error is the error of closing standard input or of
opening the terminal, or it is the error of processing one token of the
vector, which starts with a dash; it is then the message `only one operation
may be used at a time`, or the message `invalid option` followed by a quoted
name that is not a valid flag and is a definite part of that token: for a
token that starts with two dashes, the text after the two dashes up to the
first `=` (all of it when there is no `=`); for any other token, one character
of the text after the dash. The invalid-option message contains that name,
character for character; neither message contains the token. -/
theorem parse_error_names_the_flag (config : Configuration) (os : Process)
    (oO oG : RangeOrder) (e : Error)
    (h : (MakeArguments.ParseCommandLine config os oO oG).err = some e) :
    (∃ (pre : List String) (token : String) (post : List String) (q : Arguments),
      os.Args = pre ++ token :: post ∧
      (parseToken q token (post.headD "")).err = some e ∧
      HasPrefix token "-" = true ∧ ¬ token.data <:+: e.data ∧
      (e = errOnlyOneOperation ∨
        ∃ name : String, e = errInvalidOption name ∧ isArg name = false ∧
          ((HasPrefix token "--" = true ∧
              name.data = (sliceFrom token 2).data.takeWhile (fun c => c != '=')) ∨
           (HasPrefix token "--" = false ∧
              ∃ c ∈ (sliceFrom token 1).data, name = String.singleton c)) ∧
          name.data <:+: token.data ∧ name.data <:+: e.data)) ∨
    os.StdinClose = some e ∨ os.OpenTty = some e := by
  rcases ParseCommandLine_cases MakeArguments config os oO oG with
    ⟨e1, hl, hp⟩ | ⟨e1, _, _, hc, hp⟩ | ⟨e1, _, _, _, ht, hp⟩ | ⟨p2, _, _, hp⟩
  · rw [hp] at h
    simp only [Option.some.injEq] at h
    subst h
    unfold Arguments.parseArgs at hl
    by_cases hlen : os.Args.length < 1
    · rw [if_pos hlen] at hl
      have hnone : (MakeArguments.parseShortOption "-Syu" "").err = none := by decide
      simp only [hnone] at hl
      exact absurd hl (by simp)
    · rw [if_neg hlen] at hl
      obtain ⟨pre, token, post, q, hargs, herr⟩ := parseLoop_err_at _ _ _ _ hl
      have hdash := parseToken_err_dash q token _ _ herr
      refine Or.inl ⟨pre, token, post, q, hargs, herr, hdash, ?_⟩
      have hhead : token.data.head? = some '-' := by
        obtain ⟨rest, hr⟩ := List.isPrefixOf_iff_prefix.1 hdash
        rw [← hr]
        rfl
      rcases parseToken_err_part _ _ _ _ herr with h1 | ⟨name, h2, h3, h4⟩
      · refine ⟨?_, Or.inl h1⟩
        rw [h1]
        exact dash_token_not_in _ _ hhead (by decide)
      · have hf := named_part_facts token name h4
        rw [← h2] at hf
        refine ⟨hf.2.2, Or.inr ⟨name, h2, h3, ?_, hf.1, hf.2.1⟩⟩
        rcases h4 with h5 | ⟨h5, _, h6⟩
        · exact Or.inl h5
        · exact Or.inr ⟨h5, h6⟩
  · rw [hp] at h
    simp only [Option.some.injEq] at h
    subst h
    exact Or.inr (Or.inl hc)
  · rw [hp] at h
    simp only [Option.some.injEq] at h
    subst h
    exact Or.inr (Or.inr ht)
  · rw [hp] at h
    exact absurd h (by simp)

/-- Witness of C14, amended, at the vector `["-S", "--foo=1", "pkg"]`. -/
theorem parse_error_names_the_flag_witness :
    (∃ (pre : List String) (token : String) (post : List String) (q : Arguments),
      ["-S", "--foo=1", "pkg"] = pre ++ token :: post ∧
      (parseToken q token (post.headD "")).err = some "invalid option 'foo'" ∧
      HasPrefix token "-" = true ∧ ¬ token.data <:+: "invalid option 'foo'".data ∧
      ("invalid option 'foo'" = errOnlyOneOperation ∨
        ∃ name : String, "invalid option 'foo'" = errInvalidOption name ∧ isArg name = false ∧
          ((HasPrefix token "--" = true ∧
              name.data = (sliceFrom token 2).data.takeWhile (fun c => c != '=')) ∨
           (HasPrefix token "--" = false ∧
              ∃ c ∈ (sliceFrom token 1).data, name = String.singleton c)) ∧
          name.data <:+: token.data ∧ name.data <:+: "invalid option 'foo'".data)) ∨
    (none : Maybe Error) = some "invalid option 'foo'" ∨
    (none : Maybe Error) = some "invalid option 'foo'" :=
  parse_error_names_the_flag blankConfiguration
    { Args := ["-S", "--foo=1", "pkg"], StdinLines := [], StdinClose := none, OpenTty := none }
    RangeOrder.inOrder RangeOrder.inOrder "invalid option 'foo'" (by decide)

/-! ## Values of long options -/

theorem hasParam_shape (n : String) (h : hasParam n = true) : n ≠ "" ∧ '=' ∉ n.data := by
  have ht : ∀ x ∈ hasParamCases, x ≠ "" ∧ '=' ∉ x.data := by decide
  exact ht n (by simpa [hasParam] using h)

theorem span_at_eq (l rest : List Char) (h : '=' ∉ l) :
    (l ++ '=' :: rest).span (fun c => c != '=') = (l, '=' :: rest) := by
  rw [List.span_eq_take_drop]
  induction l with
  | nil => simp
  | cons a l ih =>
    have ha : a ≠ '=' := fun hh => h (by simp [hh])
    have hl : '=' ∉ l := fun hh => h (List.mem_cons_of_mem _ hh)
    have ih2 := ih hl
    simp only [Prod.mk.injEq] at ih2
    simp [ha, ih2.1, ih2.2]

theorem SplitN_name_value (n v : String) (h : '=' ∉ n.data) :
    SplitN (n ++ "=" ++ v) = [n, v] := by
  unfold SplitN
  have hd : (n ++ "=" ++ v).data = n.data ++ '=' :: v.data := by
    simp [String.data_append]
  rw [hd, span_at_eq n.data v.data h]

theorem long_with_value_eq (n v : String) : "--" ++ n ++ "=" ++ v = "--" ++ (n ++ "=" ++ v) := by
  simp [String.append_assoc]

theorem name_value_ne_empty (n v : String) : n ++ "=" ++ v ≠ "" := by
  intro h
  have hd : (n ++ "=" ++ v).data = n.data ++ '=' :: v.data := by
    simp [String.data_append]
  rw [h] at hd
  have : ([] : List Char) = n.data ++ '=' :: v.data := hd
  simp at this

theorem parseLongOption_with_value (p : Arguments) (n v t : String) (h : '=' ∉ n.data) :
    p.parseLongOption ("--" ++ n ++ "=" ++ v) t =
      { parser := (p.addParam n v).1, usedNext := false, err := (p.addParam n v).2 } := by
  rw [long_with_value_eq]
  unfold Arguments.parseLongOption
  rw [if_neg (long_ne_separator _ (name_value_ne_empty n v))]
  simp only [sliceFrom_long, SplitN_name_value n v h]

theorem parseLongOption_lookahead (p : Arguments) (n t : String) (h : hasParam n = true) :
    p.parseLongOption ("--" ++ n) t =
      { parser := (p.addParam n t).1, usedNext := true, err := (p.addParam n t).2 } := by
  obtain ⟨h1, h2⟩ := hasParam_shape n h
  unfold Arguments.parseLongOption
  rw [if_neg (long_ne_separator n h1)]
  simp only [sliceFrom_long, SplitN_of_no_eq n h2, h, if_true]

theorem parseLongOption_switch (p : Arguments) (m t : String) (h : hasParam m = false)
    (h1 : m ≠ "") (h2 : '=' ∉ m.data) :
    p.parseLongOption ("--" ++ m) t =
      { parser := (p.addParam m "").1, usedNext := false, err := (p.addParam m "").2 } := by
  unfold Arguments.parseLongOption
  rw [if_neg (long_ne_separator m h1)]
  simp only [sliceFrom_long, SplitN_of_no_eq m h2, h, Bool.false_eq_true, if_false,
    AddArg_single]

theorem addParam_value (p : Arguments) (n v : String) (h : hasParam n = true) :
    (p.addParam n v).2 = none ∧
    (p.addParam n v).1.Op = p.Op ∧ (p.addParam n v).1.Targets = p.Targets ∧
    (isGlobal n = true →
      (p.addParam n v).1.Options = p.Options ∧
      (p.addParam n v).1.Globals.values n = p.Globals.values n ++ [v]) ∧
    (isGlobal n = false →
      (p.addParam n v).1.Globals = p.Globals ∧
      (p.addParam n v).1.Options.values n = p.Options.values n ++ [v]) := by
  obtain ⟨ha, ho⟩ := hasParam_valid n h
  cases hg : isGlobal n with
  | true =>
    rw [addParam_global p n v ha ho hg]
    simp [OptionMap.values_add]
  | false =>
    rw [addParam_option p n v ha ho hg]
    simp [OptionMap.values_add]

theorem parseLoop_long_lookahead (p : Arguments) (n t : String) (rest : List String)
    (h : hasParam n = true) (hsep : p.ExistsArg ["--"] = false) :
    parseLoop p false (("--" ++ n) :: t :: rest) = parseLoop (p.addParam n t).1 false rest := by
  have he := (addParam_value p n t h).1
  rw [parseLoop]
  simp only [Bool.false_eq_true, if_false, List.headD_cons, parseToken, hsep, HasPrefix_long,
    if_true, parseLongOption_lookahead p n t h, he]
  rw [parseLoop]
  simp only [if_true]

theorem parseLoop_long_with_value (p : Arguments) (n v : String) (rest : List String)
    (h : hasParam n = true) (hsep : p.ExistsArg ["--"] = false) :
    parseLoop p false (("--" ++ n ++ "=" ++ v) :: rest) =
      parseLoop (p.addParam n v).1 false rest := by
  have he := (addParam_value p n v h).1
  have hp : HasPrefix ("--" ++ n ++ "=" ++ v) "--" = true := by
    rw [long_with_value_eq]
    exact HasPrefix_long _
  rw [parseLoop]
  simp only [Bool.false_eq_true, if_false, parseToken, hsep, hp, if_true,
    parseLongOption_with_value p n v _ (hasParam_shape n h).2, he]

/-- C21: values of long options. For a value-taking flag name `n`, a value
`v` and a lookahead token `t`, `parseLongOption` on `--n=v` appends `v`, the
whole text after the first `=`, to the values recorded for `n` and reports the
lookahead as unused; on `--n` it appends `t` and reports the lookahead as
used, so that the outer loop skips `t`; a long flag that is not value-taking
and has no `=` is registered with the empty string and leaves the lookahead
unused. The vectors `["--n=v"]` and `["--n", v]` parse to the same outcome. -/
theorem long_option_values (p : Arguments) (n v t : String) (h : hasParam n = true) :
    (p.parseLongOption ("--" ++ n ++ "=" ++ v) t =
      { parser := (p.addParam n v).1, usedNext := false, err := none }) ∧
    (p.parseLongOption ("--" ++ n) t =
      { parser := (p.addParam n t).1, usedNext := true, err := none }) ∧
    (∀ value : String,
      (p.addParam n value).1.Op = p.Op ∧ (p.addParam n value).1.Targets = p.Targets ∧
      (isGlobal n = true →
        (p.addParam n value).1.Options = p.Options ∧
        (p.addParam n value).1.Globals.values n = p.Globals.values n ++ [value]) ∧
      (isGlobal n = false →
        (p.addParam n value).1.Globals = p.Globals ∧
        (p.addParam n value).1.Options.values n = p.Options.values n ++ [value])) ∧
    (∀ rest : List String, p.ExistsArg ["--"] = false →
      parseLoop p false (("--" ++ n) :: t :: rest) = parseLoop (p.addParam n t).1 false rest) ∧
    (∀ m : String, hasParam m = false → m ≠ "" → '=' ∉ m.data →
      p.parseLongOption ("--" ++ m) t =
        { parser := (p.addParam m "").1, usedNext := false, err := (p.addParam m "").2 }) ∧
    (∀ (config : Configuration) (os : Process) (oO oG : RangeOrder),
      MakeArguments.ParseCommandLine config { os with Args := ["--" ++ n ++ "=" ++ v] } oO oG =
        MakeArguments.ParseCommandLine config { os with Args := ["--" ++ n, v] } oO oG) := by
  refine ⟨?_, ?_, fun value => (addParam_value p n value h).2, ?_, ?_, ?_⟩
  · rw [parseLongOption_with_value p n v t (hasParam_shape n h).2, (addParam_value p n v h).1]
  · rw [parseLongOption_lookahead p n t h, (addParam_value p n t h).1]
  · intro rest hsep
    exact parseLoop_long_lookahead p n t rest h hsep
  · intro m hm h1 h2
    exact parseLongOption_switch p m t hm h1 h2
  · intro config os oO oG
    have e1 : MakeArguments.parseArgs ["--" ++ n ++ "=" ++ v] =
        MakeArguments.parseArgs ["--" ++ n, v] := by
      unfold Arguments.parseArgs
      simp only [List.length_cons, List.length_nil, Nat.reduceAdd, Nat.lt_irrefl,
        Nat.reduceLT, if_false]
      rw [parseLoop_long_with_value MakeArguments n v [] h (by decide),
        parseLoop_long_lookahead MakeArguments n v [] h (by decide)]
    unfold Arguments.ParseCommandLine
    simp only [e1, Arguments.parseStdin]

/-- Witness of C21 at the flag `sortby`, the value `votes=1` and the
lookahead `pkg`, on fresh arguments. -/
theorem long_option_values_witness :
    MakeArguments.parseLongOption "--sortby=votes=1" "pkg" =
      { parser := { Op := "", Options := [("sortby", { Args := ["votes=1"] })], Globals := [],
                    Targets := [] },
        usedNext := false, err := none } ∧
    MakeArguments.parseLongOption "--sortby" "pkg" =
      { parser := { Op := "", Options := [("sortby", { Args := ["pkg"] })], Globals := [],
                    Targets := [] },
        usedNext := true, err := none } :=
  ⟨((long_option_values MakeArguments "sortby" "votes=1" "pkg" (by decide)).1).trans
      (by decide),
   ((long_option_values MakeArguments "sortby" "votes=1" "pkg" (by decide)).2.1).trans
      (by decide)⟩

/-! ## Targets read from standard input -/

theorem ParseCommandLine_of_tty_err (parser p1 : Arguments) (config : Configuration)
    (os : Process) (oO oG : RangeOrder) (e : Error)
    (h : parser.parseArgs os.Args = (p1, none))
    (hx : (defaultOp p1).ExistsArg ["-"] = true)
    (hc : os.StdinClose = none) (ht : os.OpenTty = some e) :
    parser.ParseCommandLine config os oO oG =
      { parser := ((defaultOp p1).parseStdin os).1.DelArg ["-"], config := config,
        rpcAURURL := none, err := some e } := by
  unfold defaultOp at hx
  simp only [Arguments.ParseCommandLine, h, hx, defaultOp, Arguments.parseStdin, hc, ht]
  simp

theorem ExistsArg_defaultOp (p : Arguments) (names : List String) :
    (defaultOp p).ExistsArg names = p.ExistsArg names := by
  have e : (defaultOp p).Options = p.Options ∧ (defaultOp p).Globals = p.Globals := by
    unfold defaultOp
    split <;> exact ⟨rfl, rfl⟩
  rw [Bool.eq_iff_iff, ExistsArg_iff, ExistsArg_iff, e.1, e.2]

theorem Targets_defaultOp (p : Arguments) : (defaultOp p).Targets = p.Targets := by
  unfold defaultOp
  split <;> rfl

theorem stdin_then_delete (p : Arguments) (os : Process) :
    ((p.parseStdin os).1.DelArg ["-"]).Targets = p.Targets ++ os.StdinLines ∧
    ((p.parseStdin os).1.DelArg ["-"]).ExistsArg ["-"] = false := by
  obtain ⟨_, b, _, _, e, f⟩ := DelArg_fields ["-"] (p.parseStdin os).1
  refine ⟨by rw [b, parseStdin_fst], ?_⟩
  rw [ExistsArg_eq_false_iff]
  intro m hm
  exact ⟨fun hk => ((e m).1 hk).2 hm, fun hk => ((f m).1 hk).2 hm⟩

theorem extractYayOptions_keeps_absent (p : Arguments) (config : Configuration)
    (oO oG : RangeOrder) (names : List String) (h : p.ExistsArg names = false) :
    (p.extractYayOptions config oO oG).parser.ExistsArg names = false := by
  rw [ExistsArg_eq_false_iff] at h ⊢
  have hsub : List.Sublist (p.extractYayOptions config oO oG).parser.Options p.Options ∧
      List.Sublist (p.extractYayOptions config oO oG).parser.Globals p.Globals := by
    unfold Arguments.extractYayOptions
    simp only
    have a := extractLoop_sublist (oO.visit p.Options) config p
    have b := extractLoop_sublist
      (oG.visit (extractLoop (oO.visit p.Options) config p).2.Globals)
      (extractLoop (oO.visit p.Options) config p).1
      (extractLoop (oO.visit p.Options) config p).2
    exact ⟨b.1.trans a.1, b.2.trans a.2⟩
  intro n hn
  exact ⟨fun hk => (h n hn).1 ((hsub.1.map Prod.fst).subset hk),
    fun hk => (h n hn).2 ((hsub.2.map Prod.fst).subset hk)⟩

/-- Counterexample to C22: on `["-S", "-"]` with the input lines `a`, the
empty line and `b`, the parse succeeds and the targets are `a`, the empty
string and `b`: the empty line has added a target. -/
theorem stdin_targets_counterexample :
    (MakeArguments.ParseCommandLine blankConfiguration
      { Args := ["-S", "-"], StdinLines := ["a", "", "b"], StdinClose := none,
        OpenTty := none } RangeOrder.inOrder RangeOrder.inOrder).err = none ∧
    (MakeArguments.ParseCommandLine blankConfiguration
      { Args := ["-S", "-"], StdinLines := ["a", "", "b"], StdinClose := none,
        OpenTty := none } RangeOrder.inOrder RangeOrder.inOrder).parser.Targets
      = ["a", "", "b"] ∧
    (MakeArguments.ParseCommandLine blankConfiguration
      { Args := ["-S", "-"], StdinLines := ["a", "", "b"], StdinClose := none,
        OpenTty := none } RangeOrder.inOrder RangeOrder.inOrder).parser.Targets
      ≠ ["a", "b"] := by
  decide

/-- C22, amended: reading targets from standard input. When the flag `-` is
present after the token loop and standard input is closed without error, the
parser appends to `Targets`, in input order and after the command-line
targets, every line the scanner yields, the empty ones included; the flag `-`
is no longer present afterwards, and the parse fails exactly when the terminal
cannot be opened. -/
theorem stdin_targets_appended (config : Configuration) (os : Process) (oO oG : RangeOrder)
    (p1 : Arguments) (hl : MakeArguments.parseArgs os.Args = (p1, none))
    (hx : p1.ExistsArg ["-"] = true) (hc : os.StdinClose = none) :
    (MakeArguments.ParseCommandLine config os oO oG).parser.Targets =
      p1.Targets ++ os.StdinLines ∧
    (MakeArguments.ParseCommandLine config os oO oG).parser.ExistsArg ["-"] = false ∧
    "-" ∉ (MakeArguments.ParseCommandLine config os oO oG).parser.Options.keys ∧
    (MakeArguments.ParseCommandLine config os oO oG).err = os.OpenTty := by
  have hx2 : (defaultOp p1).ExistsArg ["-"] = true := by rw [ExistsArg_defaultOp]; exact hx
  obtain ⟨t1, t2⟩ := stdin_then_delete (defaultOp p1) os
  rw [Targets_defaultOp] at t1
  have key : ∀ q : Arguments, q.ExistsArg ["-"] = false → "-" ∉ q.Options.keys := by
    intro q hq
    exact ((ExistsArg_eq_false_iff q ["-"]).1 hq "-" (List.mem_singleton.2 rfl)).1
  cases ht : os.OpenTty with
  | some e =>
    rw [ParseCommandLine_of_tty_err MakeArguments p1 config os oO oG e hl hx2 hc ht]
    exact ⟨t1, t2, key _ t2, rfl⟩
  | none =>
    rw [ParseCommandLine_of_stdin MakeArguments p1 config os oO oG hl hx2 hc ht]
    have hk := extractYayOptions_keeps_absent _ config oO oG ["-"] t2
    refine ⟨?_, hk, key _ hk, rfl⟩
    rw [(extractYayOptions_spec _ config oO oG).2.1]
    exact t1

/-- Witness of C22, amended, at `["-S", "pkg", "-"]` with the input lines `a`,
the empty line and `b`. -/
theorem stdin_targets_appended_witness :
    (MakeArguments.ParseCommandLine blankConfiguration
      { Args := ["-S", "pkg", "-"], StdinLines := ["a", "", "b"], StdinClose := none,
        OpenTty := none } RangeOrder.inOrder RangeOrder.inOrder).parser.Targets =
      ["pkg"] ++ ["a", "", "b"] :=
  (stdin_targets_appended blankConfiguration
    { Args := ["-S", "pkg", "-"], StdinLines := ["a", "", "b"], StdinClose := none,
      OpenTty := none } RangeOrder.inOrder RangeOrder.inOrder
    { Op := "S", Options := [("-", { Args := [""] })], Globals := [], Targets := ["pkg"] }
    (by decide) (by decide) rfl).1

/-! ## No empty option is stored -/

theorem WellFormed.parseShortOption (p : Arguments) (arg param : String) (h : WellFormed p) :
    WellFormed (p.parseShortOption arg param).parser := by
  unfold Arguments.parseShortOption
  split
  · exact WellFormed.AddArg ["-"] p h
  · exact WellFormed.parseShortLoop param _ p h

theorem WellFormed.parseLongOption (p : Arguments) (arg param : String) (h : WellFormed p) :
    WellFormed (p.parseLongOption arg param).parser := by
  unfold Arguments.parseLongOption
  split
  · exact WellFormed.AddArg [arg] p h
  · simp only
    split
    · exact WellFormed.addParam p _ _ h
    · split
      · exact WellFormed.addParam p _ _ h
      · exact WellFormed.AddArg _ p h

theorem WellFormed.of_Reached (p : Arguments) (h : Reached p) : WellFormed p := by
  induction h with
  | make => exact WellFormed_MakeArguments
  | addParam p option arg _ ih => exact WellFormed.addParam p option arg ih
  | AddArg p options _ ih => exact WellFormed.AddArg options p ih
  | DelArg p options _ ih => exact WellFormed.DelArg options p ih
  | parseShortOption p arg param _ ih => exact WellFormed.parseShortOption p arg param ih
  | parseLongOption p arg param _ ih => exact WellFormed.parseLongOption p arg param ih

theorem Option.First_head (o : Option) (h : o.Args ≠ []) : o.Args.head? = some o.First := by
  unfold Option.First
  cases ha : o.Args with
  | nil => exact absurd ha h
  | cons a r => rfl

theorem GetArg_of_nonempty (p : Arguments)
    (hO : ∀ e ∈ p.Options, e.2.Args ≠ []) (hG : ∀ e ∈ p.Globals, e.2.Args ≠ [])
    (names : List String) :
    (p.GetArg names).2.2 = p.ExistsArg names ∧
    (p.ExistsArg names = true →
      ∃ (before : List String) (n : String) (after : List String) (o : Option),
        names = before ++ n :: after ∧ p.ExistsArg before = false ∧
        (p.Options.get n = some o ∨ (p.Options.get n = none ∧ p.Globals.get n = some o)) ∧
        o.Args.head? = some (p.GetArg names).1 ∧
        (p.GetArg names).2.1 = decide (2 ≤ o.Args.length)) := by
  have hlen : ∀ o : Option, o.Args ≠ [] → decide (o.Args.length ≥ 1) = true := by
    intro o ho
    cases ha : o.Args with
    | nil => exact absurd ha ho
    | cons a r => simp
  induction names with
  | nil => exact ⟨rfl, fun h => absurd h (by simp [Arguments.ExistsArg])⟩
  | cons n ns ih =>
    unfold Arguments.GetArg Arguments.ExistsArg OptionMap.has
    cases h1 : p.Options.get n with
    | some o =>
      have ho := hO (n, o) (OptionMap.mem_of_get _ _ _ h1)
      simp only [Option.isSome_some, if_true]
      refine ⟨hlen o ho, fun _ => ⟨[], n, ns, o, rfl, rfl, Or.inl h1, ?_, rfl⟩⟩
      exact Option.First_head o ho
    | none =>
      cases h2 : p.Globals.get n with
      | some o =>
        have ho := hG (n, o) (OptionMap.mem_of_get _ _ _ h2)
        simp only [Option.isSome_none, Option.isSome_some, Bool.false_eq_true, if_false, if_true]
        refine ⟨hlen o ho, fun _ => ⟨[], n, ns, o, rfl, rfl, Or.inr ⟨h1, h2⟩, ?_, rfl⟩⟩
        exact Option.First_head o ho
      | none =>
        simp only [Option.isSome_none, Bool.false_eq_true, if_false]
        refine ⟨ih.1, fun hex => ?_⟩
        obtain ⟨before, m, after, o, e1, e2, e3, e4, e5⟩ := ih.2 hex
        refine ⟨n :: before, m, after, o, by rw [e1]; rfl, ?_, e3, e4, e5⟩
        have hstep : p.ExistsArg (n :: before) = p.ExistsArg before := by
          conv => lhs; unfold Arguments.ExistsArg
          simp only [OptionMap.has, h1, h2, Option.isSome_none, Bool.false_eq_true, if_false]
        show p.ExistsArg (n :: before) = false
        rw [hstep]
        exact e2

/-- C23: no empty `Option` is ever stored. In every arguments value obtained
from `MakeArguments` by a sequence of `addParam`, `AddArg`, `DelArg`,
`parseShortOption` and `parseLongOption` calls, every `Option` held in
`Options` or `Globals` has at least one recorded value; hence, for every list
of names, the `exists` result of `GetArg` equals `ExistsArg`, and when it is
true the returned value is the first element of the value list of the `Option`
found, which is the entry of the first listed name that has one. -/
theorem no_empty_option_stored (p : Arguments) (h : Reached p) :
    (∀ e ∈ p.Options, 1 ≤ e.2.Args.length) ∧
    (∀ e ∈ p.Globals, 1 ≤ e.2.Args.length) ∧
    (∀ names : List String,
      (p.GetArg names).2.2 = p.ExistsArg names ∧
      (p.ExistsArg names = true →
        ∃ (before : List String) (n : String) (after : List String) (o : Option),
          names = before ++ n :: after ∧ p.ExistsArg before = false ∧
          (p.Options.get n = some o ∨ (p.Options.get n = none ∧ p.Globals.get n = some o)) ∧
          o.Args.head? = some (p.GetArg names).1 ∧
          (p.GetArg names).2.1 = decide (2 ≤ o.Args.length))) := by
  have hw := WellFormed.of_Reached p h
  have hO : ∀ e ∈ p.Options, e.2.Args ≠ [] := fun e he => (hw.options e he).2.2.2
  have hG : ∀ e ∈ p.Globals, e.2.Args ≠ [] := fun e he => (hw.globals e he).2
  refine ⟨fun e he => ?_, fun e he => ?_, GetArg_of_nonempty p hO hG⟩
  · exact List.length_pos.2 (hO e he)
  · exact List.length_pos.2 (hG e he)

/-- Witness of C23 at the arguments reached by `parseShortOption` on `-Syy`,
then `parseLongOption` on `--color=always`, then `DelArg` of `u`. -/
theorem no_empty_option_stored_witness :
    ((((MakeArguments.parseShortOption "-Syy" "").parser.parseLongOption "--color=always"
        "").parser.DelArg ["u"]).GetArg ["refresh", "y"]).2.2 =
      (((MakeArguments.parseShortOption "-Syy" "").parser.parseLongOption "--color=always"
        "").parser.DelArg ["u"]).ExistsArg ["refresh", "y"] :=
  ((no_empty_option_stored _
    (Reached.DelArg _ ["u"] (Reached.parseLongOption _ "--color=always" ""
      (Reached.parseShortOption _ "-Syy" "" Reached.make)))).2.2 ["refresh", "y"]).1

/-! ## Extraction and the visiting order -/

set_option maxHeartbeats 16000000 in
set_option maxRecDepth 100000 in
theorem handleConfigCases_pairwise :
    (handleConfigCases.zip handleConfigFields).Pairwise
      (fun cf1 cf2 => cf1.2 = cf2.2 ∨
        ∀ (c : Configuration) (v1 v2 : String),
          cf2.1.assign (cf1.1.assign c v1) v2 = cf1.1.assign (cf2.1.assign c v2) v1) := by
  simp only [handleConfigCases, handleConfigFields, List.zip, List.zipWith]
  repeat
    refine List.Pairwise.cons
      (by
        repeat
          refine List.forall_mem_cons.2
            ⟨by
              first
                | (right; intro c v1 v2; with_reducible rfl)
                | exact Or.inl rfl
                | (right
                   intro c v1 v2
                   dsimp only
                   cases Atoi v1 <;> cases Atoi v2 <;> dsimp only <;> split_ifs <;> rfl), ?_⟩
        exact fun _ h => absurd h (List.not_mem_nil _)) ?_
  exact List.Pairwise.nil

theorem find_zip_fst {α β : Type} (p : α → Bool) :
    ∀ (l1 : List α) (l2 : List β), l1.length = l2.length →
      ((l1.zip l2).find? (fun x => p x.1)).map Prod.fst = l1.find? p
  | [], _, _ => rfl
  | a :: l1, [], h => by simp at h
  | a :: l1, b :: l2, h => by
    have ih := find_zip_fst p l1 l2 (by simpa using h)
    simp only [List.zip_cons_cons, List.find?_cons]
    cases hp : p a with
    | true => rfl
    | false => exact ih

theorem handleConfigCases_commute (cf1 cf2 : ConfigCase × String)
    (h1 : cf1 ∈ handleConfigCases.zip handleConfigFields)
    (h2 : cf2 ∈ handleConfigCases.zip handleConfigFields) (hne : cf1.2 ≠ cf2.2)
    (c : Configuration) (v1 v2 : String) :
    cf2.1.assign (cf1.1.assign c v1) v2 = cf1.1.assign (cf2.1.assign c v2) v1 := by
  have hsym : Symmetric (fun cf1 cf2 : ConfigCase × String => cf1.2 = cf2.2 ∨
      ∀ (c : Configuration) (v1 v2 : String),
        cf2.1.assign (cf1.1.assign c v1) v2 = cf1.1.assign (cf2.1.assign c v2) v1) := by
    intro a b hab
    rcases hab with hab | hab
    · exact Or.inl hab.symm
    · exact Or.inr (fun c v1 v2 => (hab c v2 v1).symm)
  have hall := List.Pairwise.forall_of_forall hsym (fun x _ => Or.inl rfl)
    handleConfigCases_pairwise
  rcases hall h1 h2 with h | h
  · exact absurd h hne
  · exact h c v1 v2

theorem handleConfig_eq_zip (c : Configuration) (k v : String) :
    (handleConfig c k v).1 =
      match (handleConfigCases.zip handleConfigFields).find?
          (fun cf => decide (k ∈ cf.1.labels)) with
      | some cf => cf.1.assign c v
      | none => c := by
  have hz := find_zip_fst (fun r : ConfigCase => decide (k ∈ r.labels)) handleConfigCases
    handleConfigFields rfl
  unfold handleConfig
  rw [← hz]
  cases (handleConfigCases.zip handleConfigFields).find?
      (fun cf => decide (k ∈ cf.1.labels)) with
  | none => rfl
  | some cf => rfl

theorem handleConfig_comm (k1 k2 v1 v2 : String) (c : Configuration)
    (h : assignedField k1 = none ∨ assignedField k1 ≠ assignedField k2) :
    (handleConfig (handleConfig c k1 v1).1 k2 v2).1 =
      (handleConfig (handleConfig c k2 v2).1 k1 v1).1 := by
  simp only [handleConfig_eq_zip]
  unfold assignedField at h
  cases h1 : (handleConfigCases.zip handleConfigFields).find?
      (fun cf => decide (k1 ∈ cf.1.labels)) with
  | none =>
    cases h2 : (handleConfigCases.zip handleConfigFields).find?
        (fun cf => decide (k2 ∈ cf.1.labels)) with
    | none => rfl
    | some cf2 => rfl
  | some cf1 =>
    cases h2 : (handleConfigCases.zip handleConfigFields).find?
        (fun cf => decide (k2 ∈ cf.1.labels)) with
    | none => rfl
    | some cf2 =>
      rw [h1, h2] at h
      have hne : cf1.2 ≠ cf2.2 := by
        rcases h with h | h
        · simp at h
        · intro he
          exact h (by simp [he])
      exact handleConfigCases_commute cf1 cf2 (List.mem_of_find?_eq_some h1)
        (List.mem_of_find?_eq_some h2) hne c v1 v2

theorem extractLoop_fst (entries : OptionMap) (config : Configuration) (parser : Arguments) :
    (extractLoop entries config parser).1 =
      entries.foldl (fun c e => (handleConfig c e.1 e.2.First).1) config := by
  induction entries generalizing config parser with
  | nil => rfl
  | cons e es ih => rw [extractLoop_cons, ih, List.foldl_cons]

theorem extractLoop_snd (entries : OptionMap) (config : Configuration) (parser : Arguments) :
    (extractLoop entries config parser).2 =
      entries.foldl (fun q e => if isConfigOption e.1 then q.DelArg [e.1] else q) parser := by
  induction entries generalizing config parser with
  | nil => rfl
  | cons e es ih => rw [extractLoop_cons, ih, List.foldl_cons, handleConfig_snd]

theorem DelArg_comm (q : Arguments) (a b : String) :
    (q.DelArg [a]).DelArg [b] = (q.DelArg [b]).DelArg [a] := by
  simp only [DelArg_single, OptionMap.delete, List.filter_filter]
  have hf : (fun e : String × Option => (e.1 != b && e.1 != a)) =
      (fun e : String × Option => (e.1 != a && e.1 != b)) := by
    funext e
    exact Bool.and_comm _ _
  simp only [hf]

theorem extractLoop_snd_perm (l1 l2 : OptionMap) (hp : l1.Perm l2) (config1 config2 : Configuration)
    (parser : Arguments) :
    (extractLoop l1 config1 parser).2 = (extractLoop l2 config2 parser).2 := by
  rw [extractLoop_snd, extractLoop_snd]
  apply hp.foldl_eq'
  intro x _ y _ z
  by_cases hx : isConfigOption x.1 = true <;> by_cases hy : isConfigOption y.1 = true
  · simp only [hx, hy, if_true]
    exact DelArg_comm z x.1 y.1
  · simp [hx, hy]
  · simp [hx, hy]
  · simp [hx, hy]

theorem entry_eq_of_key (m : OptionMap) (hn : NodupKeys m) (x y : String × Option)
    (hx : x ∈ m) (hy : y ∈ m) (hk : x.1 = y.1) : x = y := by
  have h1 := OptionMap.get_of_mem m x.1 x.2 hn hx
  have h2 := OptionMap.get_of_mem m y.1 y.2 hn hy
  rw [hk, h2] at h1
  simp only [Option.some.injEq] at h1
  exact Prod.ext hk h1.symm

theorem extractLoop_fst_perm (l1 l2 : OptionMap) (hp : l1.Perm l2) (hn : NodupKeys l1)
    (hd : distinctFields l1) (config : Configuration) (parser1 parser2 : Arguments) :
    (extractLoop l1 config parser1).1 = (extractLoop l2 config parser2).1 := by
  rw [extractLoop_fst, extractLoop_fst]
  apply hp.foldl_eq'
  intro x hx y hy z
  by_cases hk : x.1 = y.1
  · rw [entry_eq_of_key l1 hn x y hx hy hk]
  · exact handleConfig_comm x.1 y.1 x.2.First y.2.First z (hd x hx y hy hk)

theorem distinctFields_of_subset (m1 m2 : OptionMap) (h : ∀ e ∈ m1, e ∈ m2)
    (hd : distinctFields m2) : distinctFields m1 :=
  fun e1 h1 e2 h2 hk => hd e1 (h e1 h1) e2 (h e2 h2) hk

/-- Counterexample to C24: with `devel` and `nodevel` both present, as after
parsing `["--devel", "--nodevel"]`, the field `Devel` left by
`extractYayOptions` is false when the entries of `Options` are visited in one
order and true when they are visited in the opposite order. -/
theorem extraction_order_counterexample :
    (MakeArguments.parseArgs ["--devel", "--nodevel"]).1.Options =
      [("devel", { Args := [""] }), ("nodevel", { Args := [""] })] ∧
    ((MakeArguments.parseArgs ["--devel", "--nodevel"]).1.extractYayOptions blankConfiguration
      RangeOrder.inOrder RangeOrder.inOrder).config.Devel = false ∧
    ((MakeArguments.parseArgs ["--devel", "--nodevel"]).1.extractYayOptions blankConfiguration
      RangeOrder.backwards RangeOrder.inOrder).config.Devel = true := by
  decide

/-- C24, amended: extraction and the visiting order. For every arguments
value and every initial configuration, the `Options`, `Globals`, `Op` and
`Targets` left by `extractYayOptions` are the same whatever the order in which
the entries of `Options` and of `Globals` are visited; the configuration and
the endpoint URL are the same too when the keys of each map are distinct and,
within each map, no two different flags are assigned to the same
configuration field. -/
theorem extraction_order_independence (parser : Arguments) (config : Configuration)
    (oO oG oO2 oG2 : RangeOrder) :
    ((parser.extractYayOptions config oO oG).parser =
      (parser.extractYayOptions config oO2 oG2).parser) ∧
    (NodupKeys parser.Options → NodupKeys parser.Globals →
      distinctFields parser.Options → distinctFields parser.Globals →
      parser.extractYayOptions config oO oG = parser.extractYayOptions config oO2 oG2) := by
  have hpO : (oO.visit parser.Options).Perm (oO2.visit parser.Options) :=
    (oO.perm _).trans (oO2.perm _).symm
  have hp1 : ∀ c1 c2 : Configuration,
      (extractLoop (oO.visit parser.Options) c1 parser).2 =
        (extractLoop (oO2.visit parser.Options) c2 parser).2 :=
    fun c1 c2 => extractLoop_snd_perm _ _ hpO c1 c2 parser
  have hparser : (parser.extractYayOptions config oO oG).parser =
      (parser.extractYayOptions config oO2 oG2).parser := by
    unfold Arguments.extractYayOptions
    simp only
    rw [hp1 config config]
    exact extractLoop_snd_perm _ _ ((oG.perm _).trans (oG2.perm _).symm) _ _ _
  refine ⟨hparser, fun nO nG dO dG => ?_⟩
  have hc1 : (extractLoop (oO.visit parser.Options) config parser).1 =
      (extractLoop (oO2.visit parser.Options) config parser).1 :=
    extractLoop_fst_perm _ _ hpO (NodupKeys.perm (oO.perm _) nO)
      (distinctFields_of_subset _ _ (fun e he => (oO.perm _).subset he) dO) config parser parser
  have hsub := (extractLoop_sublist (oO.visit parser.Options) config parser).2
  have hc2 : ∀ (c : Configuration) (q1 q2 : Arguments),
      (extractLoop (oG.visit (extractLoop (oO.visit parser.Options) config parser).2.Globals)
        c q1).1 =
      (extractLoop (oG2.visit (extractLoop (oO.visit parser.Options) config parser).2.Globals)
        c q2).1 := by
    intro c q1 q2
    refine extractLoop_fst_perm _ _ ((oG.perm _).trans (oG2.perm _).symm)
      (NodupKeys.perm (oG.perm _) (NodupKeys.sublist hsub nG))
      (distinctFields_of_subset _ _ (fun e he => hsub.subset ((oG.perm _).subset he)) dG) c q1 q2
  have hcfg : (parser.extractYayOptions config oO oG).config =
      (parser.extractYayOptions config oO2 oG2).config ∧
      (parser.extractYayOptions config oO oG).rpcAURURL =
      (parser.extractYayOptions config oO2 oG2).rpcAURURL := by
    unfold Arguments.extractYayOptions
    simp only
    rw [← hp1 config config, ← hc1, hc2 _ _ _]
    exact ⟨rfl, rfl⟩
  cases ha : parser.extractYayOptions config oO oG with
  | mk p1 c1 u1 =>
    cases hb : parser.extractYayOptions config oO2 oG2 with
    | mk p2 c2 u2 =>
      rw [ha, hb] at hparser hcfg
      simp only at hparser hcfg
      rw [hparser, hcfg.1, hcfg.2]

/-- Witness of C24, amended, at the arguments parsed from
`["-S", "--devel", "--sortby=votes", "--noconfirm", "pkg"]`: visiting both
maps backwards gives the same result as visiting them in order. -/
theorem extraction_order_independence_witness :
    Arguments.extractYayOptions
        (MakeArguments.parseArgs ["-S", "--devel", "--sortby=votes", "--noconfirm", "pkg"]).1
        blankConfiguration RangeOrder.inOrder RangeOrder.inOrder =
      Arguments.extractYayOptions
        (MakeArguments.parseArgs ["-S", "--devel", "--sortby=votes", "--noconfirm", "pkg"]).1
        blankConfiguration RangeOrder.backwards RangeOrder.backwards :=
  (extraction_order_independence
    (MakeArguments.parseArgs ["-S", "--devel", "--sortby=votes", "--noconfirm", "pkg"]).1
    blankConfiguration RangeOrder.inOrder RangeOrder.inOrder RangeOrder.backwards
    RangeOrder.backwards).2 (by unfold NodupKeys; decide) (by unfold NodupKeys; decide)
    (by unfold distinctFields; decide) (by unfold distinctFields; decide)

/-! ## Fields that hold the value of a flag -/

set_option maxHeartbeats 4000000 in
set_option maxRecDepth 100000 in
theorem valueFields_stored :
    ∀ nf ∈ valueFields, StoredBy nf.field nf.flag (fun v => v) nf.clearedBy "" := by
  intro nf hnf case hcase
  simp only [valueFields, List.mem_cons, List.mem_singleton, List.not_mem_nil,
    or_false] at hnf
  simp only [handleConfigCases, List.mem_cons, List.mem_singleton, List.not_mem_nil,
    or_false] at hcase
  rcases hnf with rfl | rfl | rfl | rfl | rfl | rfl | rfl | rfl | rfl | rfl | rfl | rfl | rfl |
    rfl | rfl | rfl | rfl | rfl | rfl | rfl | rfl | rfl <;>
  (repeat' (rcases hcase with rfl | hcase)) <;>
  first
    | exact ⟨fun _ => ⟨rfl, fun _ _ => rfl⟩, fun h => absurd (by decide) h⟩
    | exact ⟨fun h => absurd h (by decide), fun _ => Or.inl (fun _ _ => rfl)⟩
    | exact ⟨fun h => absurd h (by decide), fun _ => Or.inr ⟨by decide, fun _ _ => rfl⟩⟩
    | (refine ⟨fun h => absurd h (by decide), fun _ => Or.inl (fun c v => ?_)⟩
       dsimp only
       split
       · first | rfl | (split <;> rfl)
       · rfl)

theorem valueFields_facts : ∀ nf ∈ valueFields,
    isConfigOption nf.flag = true ∧ (nf.flag = "aururl" → nf.clearedBy = []) ∧
    ∀ c : Configuration, nf.field { c with AURURL := TrimRight c.AURURL } =
      if nf.flag = "aururl" then TrimRight (nf.field c) else nf.field c := by
  intro nf hnf
  simp only [valueFields, List.mem_cons, List.mem_singleton, List.not_mem_nil,
    or_false] at hnf
  rcases hnf with rfl | rfl | rfl | rfl | rfl | rfl | rfl | rfl | rfl | rfl | rfl | rfl | rfl |
    rfl | rfl | rfl | rfl | rfl | rfl | rfl | rfl | rfl <;>
  exact ⟨by decide, by decide, fun _ => rfl⟩

theorem handleConfig_stored_same {α : Type} (g : Configuration → α) (f : String)
    (w : String → α) (R : List String) (d : α) (h : StoredBy g f w R d)
    (hc : isConfigOption f = true) (c : Configuration) (v : String) :
    g (handleConfig c f v).1 = w v := by
  rw [← handleConfig_snd c f v] at hc
  unfold handleConfig at hc ⊢
  cases hf : handleConfigCases.find? (fun c => decide (f ∈ c.labels)) with
  | none => rw [hf] at hc; simp at hc
  | some case =>
    have hm := List.mem_of_find?_eq_some hf
    have hp := List.find?_some hf
    simp only [decide_eq_true_eq] at hp
    exact ((h case hm).1 hp).2 c v

theorem handleConfig_stored_other {α : Type} (g : Configuration → α) (f : String)
    (w : String → α) (R : List String) (d : α) (h : StoredBy g f w R d)
    (c : Configuration) (k v : String) (hk : k ≠ f) :
    g (handleConfig c k v).1 = g c ∨ (k ∈ R ∧ g (handleConfig c k v).1 = d) := by
  unfold handleConfig
  cases hf : handleConfigCases.find? (fun c => decide (k ∈ c.labels)) with
  | none => exact Or.inl rfl
  | some case =>
    have hm := List.mem_of_find?_eq_some hf
    have hp := List.find?_some hf
    simp only [decide_eq_true_eq] at hp
    have hn : f ∉ case.labels := by
      intro hin
      have := ((h case hm).1 hin).1
      rw [this] at hp
      exact hk (by simpa using hp)
    rcases (h case hm).2 hn with h1 | ⟨h2, h3⟩
    · exact Or.inl (h1 c v)
    · exact Or.inr ⟨h2 k hp, h3 c v⟩

theorem extractLoop_stored_other {α : Type} (g : Configuration → α) (f : String)
    (w : String → α) (R : List String) (d : α) (h : StoredBy g f w R d)
    (entries : OptionMap) (c : Configuration) (p : Arguments)
    (hk : ∀ e ∈ entries, e.1 ≠ f) :
    g (extractLoop entries c p).1 = g c ∨
      ((∃ e ∈ entries, e.1 ∈ R) ∧ g (extractLoop entries c p).1 = d) := by
  induction entries generalizing c p with
  | nil => exact Or.inl rfl
  | cons e es ih =>
    rw [extractLoop_cons]
    rcases ih (handleConfig c e.1 e.2.First).1
        (if (handleConfig c e.1 e.2.First).2 then p.DelArg [e.1] else p)
        (fun e he => hk e (List.mem_cons_of_mem _ he)) with h1 | ⟨⟨e1, he1, hr⟩, h2⟩
    · rcases handleConfig_stored_other g f w R d h c e.1 e.2.First
          (hk e (List.mem_cons_self _ _)) with h3 | ⟨h3, h4⟩
      · exact Or.inl (h1.trans h3)
      · exact Or.inr ⟨⟨e, List.mem_cons_self _ _, h3⟩, h1.trans h4⟩
    · exact Or.inr ⟨⟨e1, List.mem_cons_of_mem _ he1, hr⟩, h2⟩

theorem extractLoop_stored_same {α : Type} (g : Configuration → α) (f : String)
    (w : String → α) (R : List String) (d : α) (h : StoredBy g f w R d)
    (hc : isConfigOption f = true)
    (entries : OptionMap) (c : Configuration) (p : Arguments) (o : Option)
    (hnd : NodupKeys entries) (hmem : (f, o) ∈ entries) :
    g (extractLoop entries c p).1 = w o.First ∨
      ((∃ e ∈ entries, e.1 ∈ R) ∧ g (extractLoop entries c p).1 = d) := by
  induction entries generalizing c p with
  | nil => simp at hmem
  | cons e es ih =>
    unfold NodupKeys at hnd
    simp only [List.map_cons, List.nodup_cons] at hnd
    rw [extractLoop_cons]
    rcases List.mem_cons.1 hmem with heq | htail
    · subst heq
      rcases extractLoop_stored_other g f w R d h es (handleConfig c f o.First).1
          (if (handleConfig c f o.First).2 then p.DelArg [f] else p)
          (fun e he heq => hnd.1 (List.mem_map.2 ⟨e, he, heq⟩)) with
        h1 | ⟨⟨e1, he1, hr⟩, h2⟩
      · exact Or.inl (h1.trans (handleConfig_stored_same g f w R d h hc c _))
      · exact Or.inr ⟨⟨e1, List.mem_cons_of_mem _ he1, hr⟩, h2⟩
    · rcases ih _ _ hnd.2 htail with h1 | ⟨⟨e1, he1, hr⟩, h2⟩
      · exact Or.inl h1
      · exact Or.inr ⟨⟨e1, List.mem_cons_of_mem _ he1, hr⟩, h2⟩

/-- The field of a flag after the two loops of `extractYayOptions`, before the
final trimming. -/
theorem extractYayOptions_stored {α : Type} (g : Configuration → α) (f : String)
    (w : String → α) (R : List String) (d : α) (h : StoredBy g f w R d)
    (hcfg : isConfigOption f = true)
    (parser : Arguments) (config : Configuration) (oO oG : RangeOrder)
    (hO : NodupKeys parser.Options) (hG : NodupKeys parser.Globals)
    (hx : parser.ExistsArg [f] = true) :
    g (extractLoop (oG.visit (extractLoop (oO.visit parser.Options) config parser).2.Globals)
        (extractLoop (oO.visit parser.Options) config parser).1
        (extractLoop (oO.visit parser.Options) config parser).2).1 =
      w (parser.GetArg [f]).1 ∨
    (parser.ExistsArg R = true ∧
      g (extractLoop (oG.visit (extractLoop (oO.visit parser.Options) config parser).2.Globals)
        (extractLoop (oO.visit parser.Options) config parser).1
        (extractLoop (oO.visit parser.Options) config parser).2).1 = d) := by
  obtain ⟨_, _, _, a4, _⟩ := extractLoop_spec (oO.visit parser.Options) config parser
  have inO : ∀ e ∈ oO.visit parser.Options, e.1 ∈ R → parser.ExistsArg R = true := by
    intro e he hr
    rw [ExistsArg_iff]
    exact ⟨e.1, hr, Or.inl (List.mem_map_of_mem Prod.fst ((oO.perm _).mem_iff.1 he))⟩
  have inG : ∀ e ∈ oG.visit (extractLoop (oO.visit parser.Options) config parser).2.Globals,
      e.1 ∈ R → parser.ExistsArg R = true := by
    intro e he hr
    rw [ExistsArg_iff]
    exact ⟨e.1, hr, Or.inr (List.mem_map_of_mem Prod.fst
      ((a4 e).1 ((oG.perm _).mem_iff.1 he)).1)⟩
  cases hgo : parser.Options.get f with
  | some o =>
    have hga : (parser.GetArg [f]).1 = o.First := by simp [Arguments.GetArg, hgo]
    rw [hga]
    have hother : ∀ e ∈ oG.visit (extractLoop (oO.visit parser.Options) config parser).2.Globals,
        e.1 ≠ f := by
      intro e he heq
      have he2 := (a4 e).1 ((oG.perm _).mem_iff.1 he)
      apply he2.2
      refine ⟨heq ▸ hcfg, ?_⟩
      rw [heq, RangeOrder.mem_keys_visit]
      exact List.mem_map_of_mem Prod.fst (OptionMap.mem_of_get _ _ _ hgo)
    rcases extractLoop_stored_other g f w R d h _
        (extractLoop (oO.visit parser.Options) config parser).1
        (extractLoop (oO.visit parser.Options) config parser).2 hother with
      h1 | ⟨⟨e1, he1, hr⟩, h2⟩
    · rcases extractLoop_stored_same g f w R d h hcfg (oO.visit parser.Options) config parser o
          (NodupKeys.perm (oO.perm _) hO)
          ((oO.perm _).mem_iff.2 (OptionMap.mem_of_get _ _ _ hgo)) with
        h3 | ⟨⟨e3, he3, hr3⟩, h4⟩
      · exact Or.inl (h1.trans h3)
      · exact Or.inr ⟨inO e3 he3 hr3, h1.trans h4⟩
    · exact Or.inr ⟨inG e1 he1 hr, h2⟩
  | none =>
    have hnk : f ∉ parser.Options.keys := (OptionMap.get_eq_none_iff _ _).1 hgo
    have hgk : f ∈ parser.Globals.keys := by
      rcases (ExistsArg_single _ _).1 hx with h1 | h1
      · exact absurd h1 hnk
      · exact h1
    cases hgg : parser.Globals.get f with
    | none => exact absurd hgk ((OptionMap.get_eq_none_iff _ _).1 hgg)
    | some o =>
      have hga : (parser.GetArg [f]).1 = o.First := by simp [Arguments.GetArg, hgo, hgg]
      rw [hga]
      rcases extractLoop_stored_same g f w R d h hcfg
          (oG.visit (extractLoop (oO.visit parser.Options) config parser).2.Globals)
          (extractLoop (oO.visit parser.Options) config parser).1
          (extractLoop (oO.visit parser.Options) config parser).2 o
          (NodupKeys.perm (oG.perm _) (NodupKeys.sublist (extractLoop_sublist _ _ _).2 hG))
          (by
            rw [(oG.perm _).mem_iff, a4]
            refine ⟨OptionMap.mem_of_get _ _ _ hgg, fun ⟨_, hv⟩ => hnk ?_⟩
            exact (RangeOrder.mem_keys_visit _ _ _).1 hv) with
        h1 | ⟨⟨e1, he1, hr⟩, h2⟩
      · exact Or.inl h1
      · exact Or.inr ⟨inG e1 he1 hr, h2⟩

/-- The value fields after `extractYayOptions`. -/
theorem extractYayOptions_valueField (nf : ValueField) (hnf : nf ∈ valueFields)
    (parser : Arguments) (config : Configuration) (oO oG : RangeOrder)
    (hO : NodupKeys parser.Options) (hG : NodupKeys parser.Globals)
    (hx : parser.ExistsArg [nf.flag] = true) :
    (parser.ExistsArg nf.clearedBy = false →
      nf.field (parser.extractYayOptions config oO oG).config =
        if nf.flag = "aururl" then TrimRight (parser.GetArg [nf.flag]).1
        else (parser.GetArg [nf.flag]).1) ∧
    (parser.ExistsArg nf.clearedBy = true →
      nf.field (parser.extractYayOptions config oO oG).config = (parser.GetArg [nf.flag]).1 ∨
      nf.field (parser.extractYayOptions config oO oG).config = "") := by
  obtain ⟨hcfg, haur, htrim⟩ := valueFields_facts nf hnf
  have hs := extractYayOptions_stored nf.field nf.flag (fun v => v) nf.clearedBy ""
    (valueFields_stored nf hnf) hcfg parser config oO oG hO hG hx
  unfold Arguments.extractYayOptions
  simp only
  rw [htrim]
  constructor
  · intro hno
    rcases hs with h1 | ⟨h2, _⟩
    · rw [h1]
    · rw [hno] at h2
      exact Bool.noConfusion h2
  · intro hyes
    have hne : nf.flag ≠ "aururl" := by
      intro heq
      rw [haur heq] at hyes
      exact Bool.noConfusion hyes
    rw [if_neg hne]
    rcases hs with h1 | ⟨_, h2⟩
    · exact Or.inl h1
    · exact Or.inr h2

/-- C7 as stated fails: for the vector `["--aururl=https://aur.archlinux.org/"]`
the first recorded value of `aururl` is `https://aur.archlinux.org/`, while the
configuration field holds `https://aur.archlinux.org`, without the final `/`;
and for the vector `["--answerclean=All", "--noanswerclean"]` the first
recorded value of `answerclean` is `All`, while the field `AnswerClean` holds
the empty string when the map is visited in entry order, and `All` when it is
visited backwards. -/
theorem extraction_field_counterexample :
    (MakeArguments.parseArgs ["--aururl=https://aur.archlinux.org/"]).1.GetArg ["aururl"] =
      ("https://aur.archlinux.org/", false, true) ∧
    (MakeArguments.ParseCommandLine blankConfiguration
        { Args := ["--aururl=https://aur.archlinux.org/"], StdinLines := [], StdinClose := none,
          OpenTty := none } RangeOrder.inOrder RangeOrder.inOrder).err = none ∧
    (MakeArguments.ParseCommandLine blankConfiguration
        { Args := ["--aururl=https://aur.archlinux.org/"], StdinLines := [], StdinClose := none,
          OpenTty := none } RangeOrder.inOrder RangeOrder.inOrder).config.AURURL =
      "https://aur.archlinux.org" ∧
    (MakeArguments.parseArgs ["--answerclean=All", "--noanswerclean"]).1.GetArg ["answerclean"] =
      ("All", false, true) ∧
    (MakeArguments.ParseCommandLine blankConfiguration
        { Args := ["--answerclean=All", "--noanswerclean"], StdinLines := [],
          StdinClose := none, OpenTty := none }
        RangeOrder.inOrder RangeOrder.inOrder).err = none ∧
    (MakeArguments.ParseCommandLine blankConfiguration
        { Args := ["--answerclean=All", "--noanswerclean"], StdinLines := [],
          StdinClose := none, OpenTty := none }
        RangeOrder.inOrder RangeOrder.inOrder).config.AnswerClean = "" ∧
    (MakeArguments.ParseCommandLine blankConfiguration
        { Args := ["--answerclean=All", "--noanswerclean"], StdinLines := [],
          StdinClose := none, OpenTty := none }
        RangeOrder.backwards RangeOrder.inOrder).config.AnswerClean = "All" := by
  decide

/-- C7, amended: after `extractYayOptions` on arguments whose maps have distinct
keys, in whatever order the maps are visited, no flag name recognised by
`handleConfig` remains a key of `Options` or `Globals`, and `Op` and `Targets`
are unchanged.  For each flag whose case of `handleConfig` stores the value in
a string field (`sortby`, `searchby`, `config`, `answerclean`, `answerdiff`,
`answeredit`, `answerupgrade`, `gpgflags`, `mflags`, `gitflags`, `builddir`,
`absdir`, `editor`, `editorflags`, `makepkg`, `makepkgconf`, `pacman`, `git`,
`gpg`, `sudo`, `sudoflags`) that field holds the first recorded value of the
flag, and for `aururl` the field holds the first recorded value with its
trailing `/` characters removed, provided that no flag clearing the same
field is present (`noanswerclean`, `noanswerdiff`, `noansweredit`,
`noanswerupgrade`, `nomakepkgconf`; the other fields have none); when such a
flag is present too, the field holds the first recorded value or the empty
string.  The same holds after every successful `ParseCommandLine`; for
`["-S", "--sortby=votes", "pkgname"]` no `sortby` entry is left, `SortBy` is
`votes`, `Op` is `S` and `Targets` is `["pkgname"]`. -/
theorem extraction_consumes_extension_flags (parser : Arguments) (config : Configuration)
    (oO oG : RangeOrder) (hO : NodupKeys parser.Options) (hG : NodupKeys parser.Globals) :
    (∀ k, isConfigOption k = true →
      k ∉ (parser.extractYayOptions config oO oG).parser.Options.keys ∧
      k ∉ (parser.extractYayOptions config oO oG).parser.Globals.keys) ∧
    (parser.extractYayOptions config oO oG).parser.Op = parser.Op ∧
    (parser.extractYayOptions config oO oG).parser.Targets = parser.Targets ∧
    (∀ nf ∈ valueFields, parser.ExistsArg [nf.flag] = true →
      (parser.ExistsArg nf.clearedBy = false →
        nf.field (parser.extractYayOptions config oO oG).config =
          if nf.flag = "aururl" then TrimRight (parser.GetArg [nf.flag]).1
          else (parser.GetArg [nf.flag]).1) ∧
      (parser.ExistsArg nf.clearedBy = true →
        nf.field (parser.extractYayOptions config oO oG).config =
            (parser.GetArg [nf.flag]).1 ∨
          nf.field (parser.extractYayOptions config oO oG).config = "")) ∧
    (∀ (receiver : Arguments) (os : Process),
      (receiver.ParseCommandLine config os oO oG).err = none →
      ∀ k, isConfigOption k = true →
        k ∉ (receiver.ParseCommandLine config os oO oG).parser.Options.keys ∧
        k ∉ (receiver.ParseCommandLine config os oO oG).parser.Globals.keys) ∧
    (∀ (lines : List String) (closeErr ttyErr : Maybe Error),
      (MakeArguments.ParseCommandLine config
          { Args := ["-S", "--sortby=votes", "pkgname"], StdinLines := lines,
            StdinClose := closeErr, OpenTty := ttyErr } oO oG).err = none ∧
      (MakeArguments.ParseCommandLine config
          { Args := ["-S", "--sortby=votes", "pkgname"], StdinLines := lines,
            StdinClose := closeErr, OpenTty := ttyErr } oO oG).parser =
        { Op := "S", Options := [], Globals := [], Targets := ["pkgname"] } ∧
      (MakeArguments.ParseCommandLine config
          { Args := ["-S", "--sortby=votes", "pkgname"], StdinLines := lines,
            StdinClose := closeErr, OpenTty := ttyErr } oO oG).config.SortBy = "votes") := by
  obtain ⟨s1, s2, s3, _⟩ := extractYayOptions_spec parser config oO oG
  refine ⟨s3, s1, s2, ?_, ?_, ?_⟩
  · intro nf hnf hx
    exact extractYayOptions_valueField nf hnf parser config oO oG hO hG hx
  · intro receiver os hok k hk
    rcases hl : receiver.parseArgs os.Args with ⟨p1, _ | e⟩
    · obtain ⟨p2, hp, _⟩ := ParseCommandLine_success receiver p1 config os oO oG hl hok
      rw [hp]
      exact (extractYayOptions_spec p2 config oO oG).2.2.1 k hk
    · rw [ParseCommandLine_of_loop_err _ _ _ _ _ _ _ hl] at hok
      simp at hok
  · intro lines closeErr ttyErr
    have h0 : MakeArguments.parseArgs ["-S", "--sortby=votes", "pkgname"] =
        ({ Op := "S", Options := [("sortby", { Args := ["votes"] })], Globals := [],
           Targets := ["pkgname"] }, none) := by decide
    have hd : defaultOp
        { Op := "S", Options := [("sortby", { Args := ["votes"] })], Globals := [],
          Targets := ["pkgname"] } =
        { Op := "S", Options := [("sortby", { Args := ["votes"] })], Globals := [],
          Targets := ["pkgname"] } := by decide
    have hx : (defaultOp
        { Op := "S", Options := [("sortby", { Args := ["votes"] })], Globals := [],
          Targets := ["pkgname"] }).ExistsArg ["-"] = false := by decide
    have hv : oO.visit [("sortby", ({ Args := ["votes"] } : Option))] =
        [("sortby", { Args := ["votes"] })] := by
      simpa using oO.perm [("sortby", ({ Args := ["votes"] } : Option))]
    have hh : handleConfig config "sortby" "votes" = ({ config with SortBy := "votes" }, true) :=
      rfl
    have hvg : oG.visit [] = [] := by simpa using oG.perm []
    rw [ParseCommandLine_of_no_stdin _ _ _ _ _ _ h0 hx, hd]
    simp only [Arguments.extractYayOptions, hv, extractLoop_cons, extractLoop_nil, Option.First,
      hh, if_true, DelArg_single]
    have hdel : OptionMap.delete [("sortby", ({ Args := ["votes"] } : Option))] "sortby" = [] := by
      decide
    have hdel2 : OptionMap.delete [] "sortby" = [] := rfl
    simp only [hdel, hdel2, hvg, extractLoop_nil]
    simp

/-- Witness of C7 (amended) at the arguments parsed from
`["-S", "--answerclean=All", "pkgname"]`: the targets are unchanged and the
field `AnswerClean` holds `All`. -/
theorem extraction_consumes_extension_flags_witness :
    NodupKeys [("answerclean", { Args := ["All"] })] ∧ NodupKeys [] ∧
    (Arguments.extractYayOptions
        { Op := "S", Options := [("answerclean", { Args := ["All"] })], Globals := [],
          Targets := ["pkgname"] }
        blankConfiguration RangeOrder.inOrder RangeOrder.inOrder).parser.Targets = ["pkgname"] ∧
    (Arguments.extractYayOptions
        { Op := "S", Options := [("answerclean", { Args := ["All"] })], Globals := [],
          Targets := ["pkgname"] }
        blankConfiguration RangeOrder.inOrder RangeOrder.inOrder).config.AnswerClean = "All" :=
  ⟨by simp [NodupKeys], by simp [NodupKeys],
   (extraction_consumes_extension_flags
      { Op := "S", Options := [("answerclean", { Args := ["All"] })], Globals := [],
        Targets := ["pkgname"] }
      blankConfiguration RangeOrder.inOrder RangeOrder.inOrder
      (by simp [NodupKeys]) (by simp [NodupKeys])).2.2.1,
   ((((extraction_consumes_extension_flags
      { Op := "S", Options := [("answerclean", { Args := ["All"] })], Globals := [],
        Targets := ["pkgname"] }
      blankConfiguration RangeOrder.inOrder RangeOrder.inOrder
      (by simp [NodupKeys]) (by simp [NodupKeys])).2.2.2.1
      (ValueField.mk "answerclean" Configuration.AnswerClean ["noanswerclean"])
      (List.mem_cons_of_mem _ (List.mem_cons_of_mem _ (List.mem_cons_of_mem _
        (List.mem_cons_of_mem _ (List.mem_cons_self _ _)))))
      (by decide)).1 (by decide)).trans (by decide))⟩

/-! ## The global flags given on the command line -/

theorem givenValues_append (k : String) (a b : List (String × String)) :
    givenValues k (a ++ b) = givenValues k a ++ givenValues k b := by
  simp [givenValues]

theorem givenValues_single (k n v : String) :
    givenValues k [(n, v)] = if n = k then [v] else [] := by
  by_cases h : n = k <;> simp [givenValues, h]

theorem Records_refl (p : Arguments) : Records p p [] := by
  constructor
  · intro k _
    simp [givenValues]
  · simp

theorem Records_trans {p q r : Arguments} {a b : List (String × String)}
    (h1 : Records p q a) (h2 : Records q r b) : Records p r (a ++ b) := by
  constructor
  · intro k hk
    rw [h2.1 k hk, h1.1 k hk, givenValues_append, List.append_assoc]
  · rw [h2.2, h1.2, List.map_append, List.mem_append, or_assoc]

theorem Records_AddTarget (p : Arguments) (ts : List String) : Records p (p.AddTarget ts) [] := by
  constructor
  · intro k _
    simp [givenValues, Arguments.AddTarget]
  · simp [Arguments.AddTarget, Arguments.ExistsArg]

theorem Records_addParam (p : Arguments) (n v : String) (h : (p.addParam n v).2 = none) :
    Records p (p.addParam n v).1 [(n, v)] := by
  have ha : isArg n = true := by
    cases ha : isArg n with
    | true => rfl
    | false =>
      rw [addParam_invalid p n v ha] at h
      exact absurd h (by simp)
  have hsepg : isGlobal "--" = false := by decide
  have hsepo : isOp "--" = false := by decide
  by_cases ho : isOp n = true
  · have hne : n ≠ "--" := fun hh => by rw [hh, hsepo] at ho; exact Bool.noConfusion ho
    rw [addParam_op p n v ho] at h ⊢
    unfold Arguments.addOP at h ⊢
    split at h
    · exact absurd h (by simp)
    · rename_i hop
      rw [if_neg hop]
      constructor
      · intro k hk
        have hnk : n ≠ k := by
          intro hh
          rw [hh, isGlobal_not_op k hk] at ho
          exact Bool.noConfusion ho
        simp [givenValues_single, hnk]
      · simp only [List.map_cons, List.map_nil, List.mem_singleton]
        rw [ExistsArg_single, ExistsArg_single]
        constructor
        · exact Or.inl
        · rintro (h1 | h1)
          · exact h1
          · exact absurd h1.symm hne
  · have ho : isOp n = false := by simpa using ho
    by_cases hg : isGlobal n = true
    · rw [addParam_global p n v ha ho hg]
      constructor
      · intro k _
        simp only [givenValues_single]
        by_cases hnk : n = k
        · subst hnk
          rw [if_pos rfl]
          exact OptionMap.values_add _ _ _
        · rw [if_neg hnk, List.append_nil]
          unfold OptionMap.values
          rw [OptionMap.get_add_ne _ _ _ _ (fun hh => hnk hh.symm)]
      · simp only [List.map_cons, List.map_nil, List.mem_singleton]
        rw [ExistsArg_single, ExistsArg_single, OptionMap.mem_keys_add]
        tauto
    · have hg : isGlobal n = false := by simpa using hg
      rw [addParam_option p n v ha ho hg]
      constructor
      · intro k hk
        have hnk : n ≠ k := by
          intro hh
          rw [hh, hk] at hg
          exact Bool.noConfusion hg
        simp [givenValues_single, hnk]
      · simp only [List.map_cons, List.map_nil, List.mem_singleton]
        rw [ExistsArg_single, ExistsArg_single, OptionMap.mem_keys_add]
        tauto

theorem Records_parseShortLoop (param : String) (chars : List Char) (p : Arguments)
    (h : (parseShortLoop param p chars).err = none) :
    Records p (parseShortLoop param p chars).parser (shortFlagsSpec param chars).1 ∧
    (parseShortLoop param p chars).usedNext = (shortFlagsSpec param chars).2 := by
  induction chars generalizing p with
  | nil => exact ⟨Records_refl p, rfl⟩
  | cons c rest ih =>
    unfold settings.parseShortLoop at h ⊢
    unfold shortFlagsSpec
    simp only at h ⊢
    by_cases hp : hasParam (String.singleton c) = true
    · rw [if_pos hp] at h ⊢
      rw [if_pos hp]
      by_cases hr : rest ≠ []
      · rw [if_pos hr] at h ⊢
        rw [if_pos hr]
        exact ⟨Records_addParam _ _ _ h, rfl⟩
      · rw [if_neg hr] at h ⊢
        rw [if_neg hr]
        exact ⟨Records_addParam _ _ _ h, rfl⟩
    · rw [if_neg hp] at h ⊢
      rw [if_neg hp]
      rw [AddArg_single] at h ⊢
      rcases hr : p.addParam (String.singleton c) "" with ⟨p1, _ | e⟩
      · rw [hr] at h
        simp only at h ⊢
        have h1 : Records p p1 [(String.singleton c, "")] := by
          have := Records_addParam p (String.singleton c) "" (by rw [hr])
          rwa [hr] at this
        obtain ⟨i1, i2⟩ := ih p1 h
        exact ⟨Records_trans h1 i1, i2⟩
      · rw [hr] at h
        exact absurd h (by simp)

theorem Records_parseToken (p : Arguments) (token next : String)
    (hsep : p.ExistsArg ["--"] = false) (h : (parseToken p token next).err = none) :
    Records p (parseToken p token next).parser (tokenFlagsSpec token next).1 ∧
    (parseToken p token next).usedNext = (tokenFlagsSpec token next).2 := by
  unfold settings.parseToken at h ⊢
  unfold tokenFlagsSpec
  simp only [hsep, Bool.false_eq_true, if_false] at h ⊢
  by_cases hlong : HasPrefix token "--" = true
  · rw [if_pos hlong] at h ⊢
    have hnd : token ≠ "-" := by
      intro hh
      rw [hh] at hlong
      exact absurd hlong (by decide)
    unfold Arguments.parseLongOption at h ⊢
    by_cases hdd : token = "--"
    · rw [if_pos hdd] at h ⊢
      rw [if_pos (Or.inl hdd)]
      rw [AddArg_single] at h ⊢
      simp only at h ⊢
      exact ⟨Records_addParam p token "" h, trivial⟩
    · rw [if_neg hdd] at h ⊢
      rw [if_neg (by simp [hdd, hnd]), if_pos hlong]
      simp only at h ⊢
      rcases SplitN_parts (sliceFrom token 2) with ⟨hs, _⟩ | ⟨b, hs⟩
      · rw [hs] at h ⊢
        simp only at h ⊢
        by_cases hpar : hasParam (sliceFrom token 2) = true
        · rw [if_pos hpar] at h ⊢
          rw [if_pos hpar]
          exact ⟨Records_addParam _ _ _ h, rfl⟩
        · rw [if_neg hpar] at h ⊢
          rw [if_neg hpar]
          rw [AddArg_single] at h ⊢
          exact ⟨Records_addParam _ _ _ h, rfl⟩
      · rw [hs] at h ⊢
        simp only at h ⊢
        exact ⟨Records_addParam _ _ _ h, trivial⟩
  · rw [if_neg hlong] at h ⊢
    have hnn : token ≠ "--" := by
      intro hh
      rw [hh] at hlong
      exact hlong (by decide)
    by_cases hshort : HasPrefix token "-" = true
    · rw [if_pos hshort] at h ⊢
      unfold Arguments.parseShortOption at h ⊢
      by_cases hd : token = "-"
      · subst hd
        rw [if_pos rfl] at h ⊢
        rw [if_pos (Or.inr rfl)]
        rw [AddArg_single] at h ⊢
        simp only at h ⊢
        exact ⟨Records_addParam p "-" "" h, trivial⟩
      · rw [if_neg hd] at h ⊢
        rw [if_neg (by simp [hd, hnn]), if_neg hlong, if_pos hshort]
        exact Records_parseShortLoop next _ p h
    · rw [if_neg hshort] at h ⊢
      have hd : token ≠ "-" := by
        intro hh
        rw [hh] at hshort
        exact hshort (by decide)
      rw [if_neg (by simp [hd, hnn]), if_neg hlong, if_neg hshort]
      exact ⟨Records_AddTarget p [token], rfl⟩

theorem parseLoop_globals_frozen (p : Arguments) (usedNext : Bool) (args : List String)
    (h : p.ExistsArg ["--"] = true) : (parseLoop p usedNext args).1.Globals = p.Globals := by
  cases usedNext with
  | false => rw [parseLoop_frozen p args h]
  | true =>
    cases args with
    | nil => rfl
    | cons a rest =>
      unfold parseLoop
      simp only [if_true]
      rw [parseLoop_frozen p rest h]

/-- The values recorded by the token loop for a global flag are the values
with which the flag is given on the command line. -/
theorem parseLoop_given (args : List String) (p : Arguments) (usedNext : Bool)
    (hsep : p.ExistsArg ["--"] = false) (h : (parseLoop p usedNext args).2 = none)
    (k : String) (hk : isGlobal k = true) :
    (parseLoop p usedNext args).1.Globals.values k =
      p.Globals.values k ++ givenValues k (commandLineFlagsSpec usedNext args) := by
  induction args generalizing p usedNext with
  | nil =>
    simp [parseLoop, commandLineFlagsSpec, givenValues]
  | cons token rest ih =>
    cases usedNext with
    | true =>
      unfold parseLoop at h ⊢
      unfold commandLineFlagsSpec
      simp only [if_true] at h ⊢
      exact ih p false hsep h
    | false =>
      unfold parseLoop at h ⊢
      unfold commandLineFlagsSpec
      simp only [Bool.false_eq_true, if_false] at h ⊢
      cases hr : (parseToken p token (rest.headD "")).err with
      | some e1 =>
        rw [hr] at h
        exact absurd h (by simp)
      | none =>
        rw [hr] at h
        simp only at h ⊢
        obtain ⟨hrec, hu⟩ := Records_parseToken p token (rest.headD "") hsep hr
        by_cases hdash : "--" ∈ (tokenFlagsSpec token (rest.headD "")).1.map Prod.fst
        · rw [if_pos hdash]
          rw [parseLoop_globals_frozen _ _ _ (hrec.2.2 (Or.inr hdash))]
          exact hrec.1 k hk
        · rw [if_neg hdash]
          have hsep2 : (parseToken p token (rest.headD "")).parser.ExistsArg ["--"] = false := by
            cases hx : (parseToken p token (rest.headD "")).parser.ExistsArg ["--"] with
            | false => rfl
            | true =>
              rcases hrec.2.1 hx with h1 | h1
              · rw [hsep] at h1
                exact Bool.noConfusion h1
              · exact absurd h1 hdash
          rw [ih _ _ hsep2 h, hrec.1 k hk, hu, givenValues_append, List.append_assoc]

set_option maxHeartbeats 1000000 in
set_option maxRecDepth 100000 in
theorem noconfirm_stored :
    StoredBy Configuration.NoConfirm "noconfirm" (fun _ => true) [] false := by
  intro case hcase
  simp only [handleConfigCases, List.mem_cons, List.mem_singleton, List.not_mem_nil,
    or_false] at hcase
  (repeat' (rcases hcase with rfl | hcase)) <;>
  first
    | exact ⟨fun _ => ⟨rfl, fun _ _ => rfl⟩, fun h => absurd (by decide) h⟩
    | exact ⟨fun h => absurd h (by decide), fun _ => Or.inl (fun _ _ => rfl)⟩
    | (refine ⟨fun h => absurd h (by decide), fun _ => Or.inl (fun c v => ?_)⟩
       dsimp only
       split
       · first | rfl | (split <;> rfl)
       · rfl)

/-- The values recorded for a global flag by the token loop on fresh arguments
are the values given on the command line. -/
theorem parseArgs_given (args : List String) (p1 : Arguments)
    (h : MakeArguments.parseArgs args = (p1, none)) (k : String) (hk : isGlobal k = true) :
    p1.Globals.values k = givenValues k (commandLineFlagsSpec false args) := by
  unfold Arguments.parseArgs at h
  by_cases hlen : args.length < 1
  · have hnil : args = [] := by
      cases args with
      | nil => rfl
      | cons a r => simp at hlen
    subst hnil
    rw [if_pos hlen] at h
    have hg : (MakeArguments.parseShortOption "-Syu" "").parser.Globals = [] := by decide
    simp only [Prod.mk.injEq] at h
    rw [← h.1, hg]
    rfl
  · rw [if_neg hlen] at h
    have h2 : (parseLoop MakeArguments false args).2 = none := by rw [h]
    have h3 := parseLoop_given args MakeArguments false (by decide) h2 k hk
    rw [h] at h3
    rw [h3]
    rfl

/-- The entry of a global flag after the token loop on fresh arguments: none
when the flag is not given, the given values otherwise. -/
theorem parseArgs_global_entry (args : List String) (p1 : Arguments)
    (h : MakeArguments.parseArgs args = (p1, none)) (k : String) (hk : isGlobal k = true) :
    (givenValues k (commandLineFlagsSpec false args) = [] → p1.Globals.get k = none) ∧
    (givenValues k (commandLineFlagsSpec false args) ≠ [] →
      p1.Globals.get k = some { Args := givenValues k (commandLineFlagsSpec false args) }) := by
  have hw1 : WellFormed p1 := by
    have := WellFormed.parseArgs args MakeArguments WellFormed_MakeArguments
    rwa [h] at this
  have hv := parseArgs_given args p1 h k hk
  unfold OptionMap.values at hv
  cases hget : p1.Globals.get k with
  | none =>
    rw [hget] at hv
    simp only at hv
    exact ⟨fun _ => rfl, fun hne => absurd hv.symm hne⟩
  | some o =>
    rw [hget] at hv
    simp only at hv
    have hne := (hw1.globals (k, o) (OptionMap.mem_of_get _ _ _ hget)).2
    refine ⟨fun he => absurd (hv.trans he) hne, fun _ => ?_⟩
    rw [← hv]

/-- C9 as stated fails: `noconfirm` and `config` are global flags, each is
given on the command line of its vector and recorded in `Globals` by the token
loop, yet after the successful `ParseCommandLine` of `["--noconfirm"]` and of
`["--config", "/etc/p.conf"]` the flag is no longer in `Globals` and
`FormatGlobals` emits nothing; the flag has been consumed into the
configuration. -/
theorem globals_forwarded_counterexample :
    isGlobal "noconfirm" = true ∧
    givenValues "noconfirm" (commandLineFlagsSpec false ["--noconfirm"]) = [""] ∧
    (MakeArguments.parseArgs ["--noconfirm"]).1.Globals = [("noconfirm", { Args := [""] })] ∧
    (MakeArguments.ParseCommandLine blankConfiguration
        { Args := ["--noconfirm"], StdinLines := [], StdinClose := none, OpenTty := none }
        RangeOrder.inOrder RangeOrder.inOrder).err = none ∧
    (MakeArguments.ParseCommandLine blankConfiguration
        { Args := ["--noconfirm"], StdinLines := [], StdinClose := none, OpenTty := none }
        RangeOrder.inOrder RangeOrder.inOrder).parser.Globals = [] ∧
    (MakeArguments.ParseCommandLine blankConfiguration
        { Args := ["--noconfirm"], StdinLines := [], StdinClose := none, OpenTty := none }
        RangeOrder.inOrder RangeOrder.inOrder).parser.FormatGlobals RangeOrder.inOrder = [] ∧
    (MakeArguments.ParseCommandLine blankConfiguration
        { Args := ["--noconfirm"], StdinLines := [], StdinClose := none, OpenTty := none }
        RangeOrder.inOrder RangeOrder.inOrder).config.NoConfirm = true ∧
    isGlobal "config" = true ∧
    givenValues "config" (commandLineFlagsSpec false ["--config", "/etc/p.conf"]) =
      ["/etc/p.conf"] ∧
    (MakeArguments.ParseCommandLine blankConfiguration
        { Args := ["--config", "/etc/p.conf"], StdinLines := [], StdinClose := none,
          OpenTty := none } RangeOrder.inOrder RangeOrder.inOrder).err = none ∧
    (MakeArguments.ParseCommandLine blankConfiguration
        { Args := ["--config", "/etc/p.conf"], StdinLines := [], StdinClose := none,
          OpenTty := none } RangeOrder.inOrder RangeOrder.inOrder).parser.Globals = [] ∧
    (MakeArguments.ParseCommandLine blankConfiguration
        { Args := ["--config", "/etc/p.conf"], StdinLines := [], StdinClose := none,
          OpenTty := none } RangeOrder.inOrder RangeOrder.inOrder).config.PacmanConf =
      "/etc/p.conf" := by
  decide

/-- C9, amended: for every argument vector that `ParseCommandLine` on fresh
arguments parses successfully, and every global flag `k` other than
`noconfirm` and `config`: when `k` is given on the command line, it is present
in `Globals` after parsing with exactly the values given on the command line,
in order, and `FormatGlobals` emits its block (the flag once per value, each
time followed by the value when the flag takes one) in whatever order the map
is visited; when `k` is not given, it is not in `Globals`.  The global flags
`noconfirm` and `config` are not in `Globals` afterwards: when `noconfirm` is
given, `NoConfirm` is set, and when `config` is given, `PacmanConf` holds the
first value given.  What is given on the command line is the reference reading
`commandLineFlagsSpec` of the vector. -/
theorem globals_forwarded (config : Configuration) (os : Process) (oO oG : RangeOrder)
    (hok : (MakeArguments.ParseCommandLine config os oO oG).err = none) :
    (∀ k : String, isGlobal k = true → k ≠ "noconfirm" → k ≠ "config" →
      (givenValues k (commandLineFlagsSpec false os.Args) = [] →
        (MakeArguments.ParseCommandLine config os oO oG).parser.Globals.get k = none) ∧
      (givenValues k (commandLineFlagsSpec false os.Args) ≠ [] →
        (MakeArguments.ParseCommandLine config os oO oG).parser.Globals.get k =
          some { Args := givenValues k (commandLineFlagsSpec false os.Args) } ∧
        ∀ oF : RangeOrder,
          formatBlock k { Args := givenValues k (commandLineFlagsSpec false os.Args) } <:+:
            (MakeArguments.ParseCommandLine config os oO oG).parser.FormatGlobals oF)) ∧
    "noconfirm" ∉ (MakeArguments.ParseCommandLine config os oO oG).parser.Globals.keys ∧
    "config" ∉ (MakeArguments.ParseCommandLine config os oO oG).parser.Globals.keys ∧
    (givenValues "noconfirm" (commandLineFlagsSpec false os.Args) ≠ [] →
      (MakeArguments.ParseCommandLine config os oO oG).config.NoConfirm = true) ∧
    (∀ (v : String) (vs : List String),
      givenValues "config" (commandLineFlagsSpec false os.Args) = v :: vs →
      (MakeArguments.ParseCommandLine config os oO oG).config.PacmanConf = v) := by
  rcases hl : MakeArguments.parseArgs os.Args with ⟨p1, _ | e⟩
  · have hw1 : WellFormed p1 := by
      have := WellFormed.parseArgs os.Args MakeArguments WellFormed_MakeArguments
      rwa [hl] at this
    obtain ⟨p2, hp, _, hO, hG, _⟩ :=
      ParseCommandLine_success MakeArguments p1 config os oO oG hl hok
    obtain ⟨_, _, s3, s4⟩ := extractYayOptions_spec p2 config oO oG
    have hnO : NodupKeys p2.Options := by
      rw [hO]
      exact NodupKeys.sublist (List.filter_sublist _) hw1.nodupOptions
    have hnG : NodupKeys p2.Globals := by
      rw [hG]
      exact NodupKeys.sublist (List.filter_sublist _) hw1.nodupGlobals
    have hkeep : ∀ k : String, k ≠ "-" → p2.Globals.get k = p1.Globals.get k := by
      intro k hk
      rw [hG, OptionMap.get_delete_ne _ _ _ hk]
    rw [hp]
    simp only
    refine ⟨?_, (s3 "noconfirm" (by decide)).2, (s3 "config" (by decide)).2, ?_, ?_⟩
    · intro k hk h1 h2
      have hcases : ∀ x ∈ isGlobalCases, x ≠ "noconfirm" → x ≠ "config" →
          isConfigOption x = false ∧ x ≠ "-" := by decide
      have hk2 : k ∈ isGlobalCases := by simpa [isGlobal] using hk
      obtain ⟨hc, hd⟩ := hcases k hk2 h1 h2
      obtain ⟨e1, e2⟩ := parseArgs_global_entry os.Args p1 hl k hk
      have hsame : (p2.extractYayOptions config oO oG).parser.Globals.get k =
          p1.Globals.get k := by
        rw [(s4 k hc).2, hkeep k hd]
      refine ⟨fun hnone => hsame.trans (e1 hnone), fun hsome => ?_⟩
      have hget := hsame.trans (e2 hsome)
      refine ⟨hget, fun oF => ?_⟩
      rw [FormatGlobals_eq]
      exact formatBlock_infix _ k _ ((oF.perm _).mem_iff.2 (OptionMap.mem_of_get _ _ _ hget))
    · intro hgiven
      have hget := (parseArgs_global_entry os.Args p1 hl "noconfirm" (by decide)).2 hgiven
      rw [← hkeep "noconfirm" (by decide)] at hget
      have hx : p2.ExistsArg ["noconfirm"] = true := by
        rw [ExistsArg_single]
        exact Or.inr (List.mem_map_of_mem Prod.fst (OptionMap.mem_of_get _ _ _ hget))
      rcases extractYayOptions_stored Configuration.NoConfirm "noconfirm" (fun _ => true) []
          false noconfirm_stored (by decide) p2 config oO oG hnO hnG hx with h3 | ⟨h3, _⟩
      · unfold Arguments.extractYayOptions
        simp only
        exact h3
      · exact absurd h3 (by simp [Arguments.ExistsArg])
    · intro v vs hgiven
      have hne : givenValues "config" (commandLineFlagsSpec false os.Args) ≠ [] := by
        rw [hgiven]
        exact List.cons_ne_nil _ _
      have hget := (parseArgs_global_entry os.Args p1 hl "config" (by decide)).2 hne
      rw [← hkeep "config" (by decide), hgiven] at hget
      have hx : p2.ExistsArg ["config"] = true := by
        rw [ExistsArg_single]
        exact Or.inr (List.mem_map_of_mem Prod.fst (OptionMap.mem_of_get _ _ _ hget))
      have hopt : p2.Options.get "config" = none := by
        rw [OptionMap.get_eq_none_iff, hO]
        intro hmem
        obtain ⟨e, he, hek⟩ := List.mem_map.1 hmem
        have he1 := ((OptionMap.mem_delete _ _ _).1 he).1
        have := (hw1.options e he1).2.2.1
        rw [hek] at this
        exact absurd this (by decide)
      have hga : (p2.GetArg ["config"]).1 = v := by
        simp [Arguments.GetArg, hopt, hget, Option.First]
      have hf := (extractYayOptions_valueField
        (ValueField.mk "config" Configuration.PacmanConf [])
        (List.mem_cons_of_mem _ (List.mem_cons_of_mem _ (List.mem_cons_of_mem _
          (List.mem_cons_self _ _))))
        p2 config oO oG hnO hnG hx).1 rfl
      rw [if_neg (by decide), hga] at hf
      exact hf
  · rw [ParseCommandLine_of_loop_err _ _ _ _ _ _ _ hl] at hok
    simp at hok

/-- Witness of C9 (amended) at the vector
`["-S", "--dbpath", "/tmp", "--dbpath=/var", "--noconfirm", "pkg"]`: the flag
`dbpath` is kept with its two values. -/
theorem globals_forwarded_witness :
    (MakeArguments.ParseCommandLine blankConfiguration
        { Args := ["-S", "--dbpath", "/tmp", "--dbpath=/var", "--noconfirm", "pkg"],
          StdinLines := [], StdinClose := none, OpenTty := none }
        RangeOrder.inOrder RangeOrder.inOrder).parser.Globals.get "dbpath" =
      some { Args := ["/tmp", "/var"] } ∧
    (MakeArguments.ParseCommandLine blankConfiguration
        { Args := ["-S", "--dbpath", "/tmp", "--dbpath=/var", "--noconfirm", "pkg"],
          StdinLines := [], StdinClose := none, OpenTty := none }
        RangeOrder.inOrder RangeOrder.inOrder).config.NoConfirm = true :=
  ⟨((((globals_forwarded blankConfiguration
      { Args := ["-S", "--dbpath", "/tmp", "--dbpath=/var", "--noconfirm", "pkg"],
        StdinLines := [], StdinClose := none, OpenTty := none }
      RangeOrder.inOrder RangeOrder.inOrder (by decide)).1 "dbpath" (by decide) (by decide)
      (by decide)).2 (by decide)).1).trans (by decide),
   (globals_forwarded blankConfiguration
      { Args := ["-S", "--dbpath", "/tmp", "--dbpath=/var", "--noconfirm", "pkg"],
        StdinLines := [], StdinClose := none, OpenTty := none }
      RangeOrder.inOrder RangeOrder.inOrder (by decide)).2.2.2.1 (by decide)⟩

end settings
